import Mathlib

/-!
Verification development for the Rustycal offline-first CalDAV task client.

The definitions in this file are a shallow embedding of the program:
* `src/model/parser.rs`  — the smart-input parser (`Task::apply_smart_input`);
* `src/model/adapter.rs` — the iCalendar codec (`Task::to_ics`, `Task::from_ics`)
  and recurrence respawn (`Task::respawn`);
* `src/client.rs` + `src/journal.rs` — the journal-draining sync engine
  (`RustyClient::sync_journal`) and the ETag-delta fetch (`RustyClient::get_tasks`).

Machine integers are modelled as `Nat` with the explicit bounds that the Rust
`parse::<uN>` calls impose; Rust strings are modelled as `String` / `List Char`.
External crates (`chrono`, `icalendar`, `rrule`) are modelled by explicit
definitions, each marked by a comment at its declaration site.
-/

namespace Rustycal

/-- One text line (or one Rust string), as a list of characters. -/
abbrev Line := List Char

/-! ### Character and decimal-number utilities -/

/-- ASCII decimal digit test. -/
def isDigitCh (c : Char) : Bool := '0' ≤ c && c ≤ '9'

/-- Numeric value of a decimal digit character. -/
def digitVal (c : Char) : Nat := c.toNat - 48

/-- The decimal digit character for `d < 10` (clamped at 9 above). -/
def digitCh (d : Nat) : Char :=
  match d with
  | 0 => '0' | 1 => '1' | 2 => '2' | 3 => '3' | 4 => '4'
  | 5 => '5' | 6 => '6' | 7 => '7' | 8 => '8' | _ => '9'

theorem digitVal_digitCh {d : Nat} (h : d < 10) : digitVal (digitCh d) = d := by
  interval_cases d <;> decide

theorem isDigitCh_digitCh (d : Nat) : isDigitCh (digitCh d) = true := by
  rcases d with _ | _ | _ | _ | _ | _ | _ | _ | _ | d <;> simp [digitCh] <;> decide

/-- Decimal rendering of a natural number, most significant digit first
(the behaviour of Rust integer `Display` / `format!`). -/
def natChars (n : Nat) : Line :=
  if n = 0 then ['0'] else ((Nat.digits 10 n).map digitCh).reverse

/-- Accumulating decimal read: processes characters most-significant first. -/
def readNat (cs : Line) (acc : Nat) : Nat :=
  match cs with
  | [] => acc
  | c :: rest => readNat rest (10 * acc + digitVal c)

theorem readNat_append (xs ys : Line) (a : Nat) :
    readNat (xs ++ ys) a = readNat ys (readNat xs a) := by
  induction xs generalizing a with
  | nil => rfl
  | cons c rest ih => simp [readNat, ih]

theorem readNat_digits (ds : List Nat) (hd : ∀ d ∈ ds, d < 10) (a : Nat) :
    readNat ((ds.map digitCh).reverse) a = a * 10 ^ ds.length + Nat.ofDigits 10 ds := by
  induction ds generalizing a with
  | nil => simp [readNat, Nat.ofDigits]
  | cons d ds ih =>
    have hdd : d < 10 := hd d (by simp)
    have hrest : ∀ x ∈ ds, x < 10 := fun x hx => hd x (by simp [hx])
    simp only [List.map_cons, List.reverse_cons, readNat_append, ih hrest]
    simp [readNat, Nat.ofDigits_cons, digitVal_digitCh hdd, List.length_cons]
    ring

theorem readNat_natChars (n : Nat) : readNat (natChars n) 0 = n := by
  by_cases h : n = 0
  · subst h; decide
  · have hlt : ∀ d ∈ Nat.digits 10 n, d < 10 := fun d hd =>
      Nat.digits_lt_base (by norm_num) hd
    simp [natChars, h, readNat_digits _ hlt, Nat.ofDigits_digits]

theorem natChars_digits (n : Nat) : ∀ c ∈ natChars n, isDigitCh c = true := by
  intro c hc
  by_cases h : n = 0
  · subst h; simp [natChars] at hc; subst hc; decide
  · simp [natChars, h] at hc
    obtain ⟨d, _, rfl⟩ := hc
    exact isDigitCh_digitCh d

/-- Two-digit zero-padded rendering (chrono `%m`, `%d`, `%H`, `%M`, `%S`);
faithful for values below 100, which date/time validity guarantees. -/
def pad2 (n : Nat) : Line := [digitCh (n / 10 % 10), digitCh (n % 10)]

/-- Four-digit zero-padded rendering (chrono `%Y`); faithful for years
below 10000, which the development tracks by hypothesis. -/
def pad4 (n : Nat) : Line :=
  [digitCh (n / 1000 % 10), digitCh (n / 100 % 10), digitCh (n / 10 % 10), digitCh (n % 10)]

/-- ASCII whitespace test. Models Rust `char::is_whitespace` restricted to the
ASCII range (the only whitespace the parser's token grammar can produce). -/
def isWsCh (c : Char) : Bool :=
  c = ' ' || c = '\t' || c = '\n' || c = '\r' || c = '\x0b' || c = '\x0c'

/-- ASCII lowercase map. Models Rust `str::to_lowercase`; the two functions
agree on every string whose case-changing characters are ASCII, and the parser
branches that use it only succeed on ASCII input. -/
def lowerCh (c : Char) : Char :=
  if 'A' ≤ c && c ≤ 'Z' then Char.ofNat (c.toNat + 32) else c

/-- ASCII uppercase map, same modelling note as `lowerCh`. -/
def upperCh (c : Char) : Char :=
  if 'a' ≤ c && c ≤ 'z' then Char.ofNat (c.toNat - 32) else c

/-- Rust `str::split_whitespace`: maximal runs of non-whitespace characters. -/
def splitWsAux (cs : Line) (acc : Line) : List Line :=
  match cs with
  | [] => if acc.isEmpty then [] else [acc.reverse]
  | c :: rest =>
    if isWsCh c then
      (if acc.isEmpty then splitWsAux rest [] else acc.reverse :: splitWsAux rest [])
    else splitWsAux rest (c :: acc)

def splitWs (cs : Line) : List Line := splitWsAux cs []

/-- Rust `str::split(sep)`: keeps empty segments, yields one segment more than
the number of separators. -/
def splitChAux (sep : Char) (cs : Line) (acc : Line) : List Line :=
  match cs with
  | [] => [acc.reverse]
  | c :: rest =>
    if c = sep then acc.reverse :: splitChAux sep rest []
    else splitChAux sep rest (c :: acc)

def splitCh (sep : Char) (cs : Line) : List Line := splitChAux sep cs []

/-- Rust `str::split_once(sep)`. -/
def splitOnce (sep : Char) : Line → Option (Line × Line)
  | [] => none
  | c :: rest =>
    if c = sep then some ([], rest)
    else (splitOnce sep rest).map (fun p => (c :: p.1, p.2))

/-- Rust `str::trim` restricted to ASCII whitespace (see `isWsCh`). -/
def trimAscii (cs : Line) : Line :=
  ((cs.dropWhile isWsCh).reverse.dropWhile isWsCh).reverse

/-- Substring test, Rust `str::contains`. -/
def hasSub (needle : Line) : Line → Bool
  | [] => needle.isEmpty
  | c :: rest => needle.isPrefixOf (c :: rest) || hasSub needle rest

/-- Rust `str::replace` for a nonempty needle, left to right, non-overlapping;
fuelled by the input length so that the recursion stays structural (the fuel
never runs out because a replacement step consumes at least one character). -/
def replAllGo (n0 : Char) (nrest repl : Line) : Nat → Line → Line
  | _, [] => []
  | 0, l => l
  | fuel + 1, c :: rest =>
    if (n0 :: nrest).isPrefixOf (c :: rest) then
      repl ++ replAllGo n0 nrest repl fuel (rest.drop nrest.length)
    else
      c :: replAllGo n0 nrest repl fuel rest

def replAll (n0 : Char) (nrest repl : Line) (s : Line) : Line :=
  replAllGo n0 nrest repl s.length s

/-- Rust `u8`/`u32`-style decimal parse: an optional leading `+`, then one or
more ASCII digits, the whole string consumed, value below `bound`
(256 for `u8`, 2^32 for `u32`; Rust errors on overflow). -/
def rustParseUint (bound : Nat) (cs : Line) : Option Nat :=
  let body := if cs.head? = some '+' then cs.tail else cs
  if body.isEmpty then none
  else if body.all isDigitCh then
    let v := readNat body 0
    if v < bound then some v else none
  else none

/-! ### Dates and times

Model of chrono `NaiveDate` / `DateTime<Utc>`: a civil date plus a
time of day, both as plain naturals. -/

structure RDate where
  y : Nat
  m : Nat
  d : Nat
  deriving DecidableEq, Repr

/-- A UTC timestamp (chrono `DateTime<Utc>`), at second precision — the only
precision the program ever serializes. -/
structure DT where
  date : RDate
  hh : Nat
  mi : Nat
  ss : Nat
  deriving DecidableEq, Repr

def isLeap (y : Nat) : Bool := (y % 4 = 0 && y % 100 ≠ 0) || y % 400 = 0

def daysInMonth (y m : Nat) : Nat :=
  match m with
  | 1 => 31 | 2 => if isLeap y then 29 else 28 | 3 => 31 | 4 => 30 | 5 => 31
  | 6 => 30 | 7 => 31 | 8 => 31 | 9 => 30 | 10 => 31 | 11 => 30 | 12 => 31
  | _ => 0

def validDate (d : RDate) : Prop :=
  1 ≤ d.m ∧ d.m ≤ 12 ∧ 1 ≤ d.d ∧ d.d ≤ daysInMonth d.y d.m

instance (d : RDate) : Decidable (validDate d) := by unfold validDate; infer_instance

theorem daysInMonth_pos {y m : Nat} (h1 : 1 ≤ m) (h2 : m ≤ 12) :
    1 ≤ daysInMonth y m := by
  interval_cases m <;> simp [daysInMonth] <;> split <;> omega

/-- Successor day in the civil calendar. -/
def succDay (d : RDate) : RDate :=
  if d.d < daysInMonth d.y d.m then ⟨d.y, d.m, d.d + 1⟩
  else if d.m < 12 then ⟨d.y, d.m + 1, 1⟩
  else ⟨d.y + 1, 1, 1⟩

/-- chrono `date + Duration::days(n)` for a nonnegative day count. -/
def addDays (d : RDate) : Nat → RDate
  | 0 => d
  | n + 1 => succDay (addDays d n)

theorem validDate_succDay {d : RDate} (h : validDate d) : validDate (succDay d) := by
  obtain ⟨h1, h2, h3, h4⟩ := h
  unfold succDay
  split
  · exact ⟨h1, h2, by show 1 ≤ d.d + 1; omega, by show d.d + 1 ≤ daysInMonth d.y d.m; omega⟩
  · split
    · exact ⟨by show 1 ≤ d.m + 1; omega, by show d.m + 1 ≤ 12; omega, le_refl 1,
        daysInMonth_pos (by show 1 ≤ d.m + 1; omega) (by show d.m + 1 ≤ 12; omega)⟩
    · exact ⟨le_refl 1, by norm_num, le_refl 1,
        by show 1 ≤ daysInMonth (d.y + 1) 1; simp [daysInMonth]⟩

theorem validDate_addDays {d : RDate} (h : validDate d) (n : Nat) :
    validDate (addDays d n) := by
  induction n with
  | zero => exact h
  | succ n ih => exact validDate_succDay ih

/-- chrono format `%Y%m%d` (faithful below year 10000, see `pad4`). -/
def fmtDate8 (d : RDate) : Line := pad4 d.y ++ pad2 d.m ++ pad2 d.d

/-- chrono format `%Y%m%dT%H%M%SZ`, used by `to_ics` and `respawn`. -/
def fmtDTZ (t : DT) : Line :=
  fmtDate8 t.date ++ 'T' :: (pad2 t.hh ++ pad2 t.mi ++ pad2 t.ss) ++ ['Z']

/-- Read exactly `k` decimal digits. -/
def readFixed (k : Nat) (cs : Line) : Option (Nat × Line) :=
  let pre := cs.take k
  if pre.length = k ∧ pre.all isDigitCh then some (readNat pre 0, cs.drop k)
  else none

/-- chrono `NaiveDate::parse_from_str(val, "%Y%m%d")`: eight digits, then a
calendar-validity check. -/
def parseDate8 (cs : Line) : Option RDate := do
  let (y, r1) ← readFixed 4 cs
  let (m, r2) ← readFixed 2 r1
  let (d, r3) ← readFixed 2 r2
  if r3 = [] ∧ validDate ⟨y, m, d⟩ then some ⟨y, m, d⟩ else none

/-- chrono `NaiveDateTime::parse_from_str` with `"%Y%m%dT%H%M%S"` and, when
`needZ` is set, `"%Y%m%dT%H%M%SZ"`: packed fixed-width numerics plus
calendar/clock validity, entire input consumed. -/
def parseDT14 (cs : Line) (needZ : Bool) : Option DT := do
  let (y, r1) ← readFixed 4 cs
  let (m, r2) ← readFixed 2 r1
  let (d, r3) ← readFixed 2 r2
  match r3 with
  | 'T' :: r4 => do
    let (hh, r5) ← readFixed 2 r4
    let (mi, r6) ← readFixed 2 r5
    let (ss, r7) ← readFixed 2 r6
    let rest := if needZ then (match r7 with | 'Z' :: r8 => some r8 | _ => none) else some r7
    match rest with
    | some [] =>
      if validDate ⟨y, m, d⟩ ∧ hh ≤ 23 ∧ mi ≤ 59 ∧ ss ≤ 59 then
        some ⟨⟨y, m, d⟩, hh, mi, ss⟩
      else none
    | _ => none
  | _ => none

/-- chrono `NaiveDate::parse_from_str(val, "%Y-%m-%d")`: a year of at most
four digits (the model restricts chrono's year field to the unsigned
four-digit range), one or two digits for month and day, full consumption,
calendar validity. -/
def parseDashDate (cs : Line) : Option RDate :=
  let yrun := cs.takeWhile isDigitCh
  let rest1 := cs.dropWhile isDigitCh
  if 1 ≤ yrun.length ∧ yrun.length ≤ 4 then
    match rest1 with
    | '-' :: rest2 =>
      let mrun := rest2.takeWhile isDigitCh
      let rest3 := rest2.dropWhile isDigitCh
      if 1 ≤ mrun.length ∧ mrun.length ≤ 2 then
        match rest3 with
        | '-' :: rest4 =>
          let drun := rest4.takeWhile isDigitCh
          let rest5 := rest4.dropWhile isDigitCh
          if 1 ≤ drun.length ∧ drun.length ≤ 2 ∧ rest5 = [] then
            let cand : RDate := ⟨readNat yrun 0, readNat mrun 0, readNat drun 0⟩
            if validDate cand then some cand else none
          else none
        | _ => none
      else none
    | _ => none
  else none

/-! Epoch conversions (days since 0000-03-01, Hinnant's civil-calendar
algorithm): used computationally by `respawn` to shift `due` by the
seed-to-next-occurrence delta, mirroring chrono timestamp arithmetic. -/

def daysFromCivil (dt : RDate) : Nat :=
  let y := if dt.m ≤ 2 then dt.y - 1 else dt.y
  let era := y / 400
  let yoe := y - era * 400
  let doy := (153 * (if dt.m > 2 then dt.m - 3 else dt.m + 9) + 2) / 5 + (dt.d - 1)
  let doe := yoe * 365 + yoe / 4 - yoe / 100 + doy
  era * 146097 + doe

def civilFromDays (z : Nat) : RDate :=
  let era := z / 146097
  let doe := z % 146097
  let yoe := (doe - doe / 1460 + doe / 36524 - doe / 146096) / 365
  let y := yoe + era * 400
  let doy := doe - (365 * yoe + yoe / 4 - yoe / 100)
  let mp := (5 * doy + 2) / 153
  let d := doy - (153 * mp + 2) / 5 + 1
  let m := if mp < 10 then mp + 3 else mp - 9
  if m ≤ 2 then ⟨y + 1, m, d⟩ else ⟨y, m, d⟩

def dtToSecs (t : DT) : Nat :=
  daysFromCivil t.date * 86400 + t.hh * 3600 + t.mi * 60 + t.ss

def secsToDt (s : Nat) : DT :=
  ⟨civilFromDays (s / 86400), s % 86400 / 3600, s % 3600 / 60, s % 60⟩

/-! ### The task data model -/

inductive TaskStatus
  | needsAction | inProcess | completed | cancelled
  deriving DecidableEq, Repr

/-- An uninterpreted iCalendar property (`model/item.rs::RawProperty` via its
construction in `adapter.rs`): key, value, parameter pairs. -/
structure RawProperty where
  key : String
  value : String
  params : List (String × String)
  deriving DecidableEq, Repr

/-- Modelled from the spec: the `Task` struct is declared in
`src/model/item.rs`, which is absent from the provided sources; the fields are
reconstructed from spec §3 (Data model) and every field access in
`adapter.rs`, `parser.rs` and `client.rs`. -/
structure Task where
  uid : String
  summary : String
  description : String
  status : TaskStatus
  priority : Nat                    -- u8 in Rust
  due : Option DT
  dtstart : Option DT
  estimated_duration : Option Nat   -- u32 minutes in Rust
  rrule : Option String
  categories : List String
  parent_uid : Option String
  dependencies : List String
  etag : String
  href : String
  calendar_href : String
  depth : Nat
  unmapped_properties : List RawProperty
  raw_components : List String
  deriving DecidableEq, Repr

/-- Modelled from the spec: a freshly constructed task (blank fields, caller
supplies the generated uuid) — the state `Task::new` starts from before it
runs the smart-input parser (spec §3 Lifecycle, §4.1). -/
def Task.blank (uid : String) : Task :=
  ⟨uid, "", "", .needsAction, 0, none, none, none, none, [], none, [], "", "", "", 0, [], []⟩

/-! ### The smart-input parser (`src/model/parser.rs`) -/

/-- Alias map, Rust `HashMap<String, Vec<String>>` viewed through `get`. -/
abbrev AliasMap := String → Option (List String)

/-- 2^32, the `u32` parse bound. -/
def u32Bound : Nat := 4294967296

/-- `u32` wrapping multiplication (Rust release-profile semantics for the
duration unit conversions). -/
def mulWrap (a b : Nat) : Nat := a * b % u32Bound

/-- Rust `strip_suffix` for a single character. -/
def stripSfx1 (c : Char) (cs : Line) : Option Line :=
  match cs.getLast? with
  | some c2 => if c2 = c then some cs.dropLast else none
  | none => none

/-- Rust `strip_suffix` for a two-character suffix. -/
def stripSfx2 (c1 c2 : Char) (cs : Line) : Option Line :=
  match stripSfx1 c2 cs with
  | some cs2 => stripSfx1 c1 cs2
  | none => none

/-- The `~<num><unit>` duration rule (parser.rs lines 27-49): suffixes tried
in source order `m`, `h`, `d`, `w`, `mo`, `y` on the lowercased remainder; the
first suffix that matches commits, even when the numeric parse then fails. -/
def tildeMinutes (durStr : Line) : Option Nat :=
  let lower := durStr.map lowerCh
  if let some n := stripSfx1 'm' lower then
    rustParseUint u32Bound n
  else if let some n := stripSfx1 'h' lower then
    (rustParseUint u32Bound n).map (fun h => mulWrap h 60)
  else if let some n := stripSfx1 'd' lower then
    (rustParseUint u32Bound n).map (fun d => mulWrap (mulWrap d 24) 60)
  else if let some n := stripSfx1 'w' lower then
    (rustParseUint u32Bound n).map (fun w => mulWrap (mulWrap (mulWrap w 7) 24) 60)
  else if let some n := stripSfx2 'm' 'o' lower then
    (rustParseUint u32Bound n).map (fun mo => mulWrap (mulWrap (mulWrap mo 30) 24) 60)
  else if let some n := stripSfx1 'y' lower then
    (rustParseUint u32Bound n).map (fun y => mulWrap (mulWrap (mulWrap y 365) 24) 60)
  else none

/-- The `!N` priority rule: `word[1..].parse::<u8>()` in `1..=9`. -/
def bangPriority (w : Line) : Option Nat :=
  match w with
  | '!' :: numPart =>
    match rustParseUint 256 numPart with
    | some p => if 1 ≤ p ∧ p ≤ 9 then some p else none
    | none => none
  | _ => none

/-- Category insertion for one `#tag` token: push the tag if absent, then each
alias expansion if absent (parser.rs lines 51-66). -/
def pushCats (cats : List String) (cat : String) (al : AliasMap) : List String :=
  let cats1 := if cats.contains cat then cats else cats ++ [cat]
  match al cat with
  | some expanded =>
    expanded.foldl (fun acc e => if acc.contains e then acc else acc ++ [e]) cats1
  | none => cats1

/-- The `@every N <unit>` / `@next <unit>` unit tables. -/
def freqOfUnit (unit : Line) : Line :=
  if ("day".data).isPrefixOf unit then "DAILY".data
  else if ("week".data).isPrefixOf unit then "WEEKLY".data
  else if ("month".data).isPrefixOf unit then "MONTHLY".data
  else if ("year".data).isPrefixOf unit then "YEARLY".data
  else []

def offsetOfUnit (unit : Line) : Nat :=
  if ("week".data).isPrefixOf unit then 7
  else if ("month".data).isPrefixOf unit then 30
  else if ("year".data).isPrefixOf unit then 365
  else 0

/-- Words joined by single spaces (`summary_words.join(" ")`). -/
def joinWords : List Line → Line
  | [] => []
  | [w] => w
  | w :: rest => w ++ ' ' :: joinWords rest

/-- End of day (the `and_hms_opt(23, 59, 59)` pattern of every due
assignment in the parser). -/
def endOfDay (d : RDate) : DT := ⟨d, 23, 59, 59⟩

/-- The value of a `~` duration token: `Some minutes` exactly when the token
starts with `~` and its remainder parses as a duration (parser.rs line 27). -/
def durTokenVal (w : Line) : Option Nat :=
  match w with
  | '~' :: durStr => tildeMinutes durStr
  | _ => none

/-- The tag of a `#` category token: `Some tag` exactly when the token starts
with `#` and the remainder is nonempty (parser.rs line 51). -/
def catTokenVal (w : Line) : Option String :=
  match w with
  | '#' :: s => if s.isEmpty then none else some (String.mk s)
  | _ => none

/-- One iteration of the token loop of `Task::apply_smart_input`
(parser.rs lines 18-160): given the current task, accumulated summary words,
the current token `w` and the remaining tokens, produce the updated task,
summary words, and the tokens still to process (the `@every` / `@next` rules
consume lookahead tokens). -/
def stepToken (al : AliasMap) (today : RDate) (t : Task) (ws : List Line)
    (w : Line) (rest : List Line) : Task × List Line × List Line :=
  if let some p := bangPriority w then
    ({t with priority := p}, ws, rest)
  else if let some m := durTokenVal w then
    ({t with estimated_duration := some m}, ws, rest)
  else if let some cat := catTokenVal w then
    ({t with categories := pushCats t.categories cat al}, ws, rest)
  else if w = "@daily".data then
    ({t with rrule := some "FREQ=DAILY"}, ws, rest)
  else if w = "@weekly".data then
    ({t with rrule := some "FREQ=WEEKLY"}, ws, rest)
  else if w = "@monthly".data then
    ({t with rrule := some "FREQ=MONTHLY"}, ws, rest)
  else if w = "@yearly".data then
    ({t with rrule := some "FREQ=YEARLY"}, ws, rest)
  else if w = "@every".data then
    match rest with
    | n :: rest2 =>
      match rustParseUint u32Bound n with
      | some interval =>
        (match rest2 with
        | unit :: rest3 =>
          let freq := freqOfUnit (unit.map lowerCh)
          if freq ≠ [] then
            let r := String.mk ("FREQ=".data ++ freq ++ ";INTERVAL=".data ++ natChars interval)
            ({t with rrule := some r}, ws, rest3)
          else
            -- the interval token was consumed by `tokens.next()`, the unit
            -- token was only peeked: it is processed on the next iteration
            (t, ws ++ [w], rest2)
        | [] => (t, ws ++ [w], rest2))
      | none => (t, ws ++ [w], rest)
    | [] => (t, ws ++ [w], rest)
  else
    match w with
    | '@' :: val =>
      if let some date := parseDashDate val then
        ({t with due := some (endOfDay date)}, ws, rest)
      else if val = "today".data then
        ({t with due := some (endOfDay today)}, ws, rest)
      else if val = "tomorrow".data then
        ({t with due := some (endOfDay (addDays today 1))}, ws, rest)
      else if val = "next".data then
        match rest with
        | unit :: rest2 =>
          let off := offsetOfUnit (unit.map lowerCh)
          if off > 0 then
            ({t with due := some (endOfDay (addDays today off))}, ws, rest2)
          else (t, ws ++ [w], rest)
        | [] => (t, ws ++ [w], rest)
      else (t, ws ++ [w], rest)
    | _ => (t, ws ++ [w], rest)

theorem stepToken_rest_le (al : AliasMap) (today : RDate) (t : Task)
    (ws : List Line) (w : Line) (rest : List Line) :
    (stepToken al today t ws w rest).2.2.length ≤ rest.length := by
  unfold stepToken
  repeat' split
  all_goals (try dsimp only)
  all_goals (repeat' split)
  all_goals (try dsimp only)
  all_goals (try simp only [List.length_cons])
  all_goals omega

/-- The token loop (the `while let Some(word) = tokens.next()` of
parser.rs): iterate `stepToken` until the tokens are exhausted, then set the
summary from the accumulated residue. The `fuel` argument only makes the
recursion structural: every iteration consumes at least one token
(`stepToken_rest_le`), so with `fuel = tokens.length` — the only way the
program calls it — the fuel-exhausted arm is unreachable. -/
def goTokens (al : AliasMap) (today : RDate) :
    Nat → Task → List Line → List Line → Task
  | _, t, ws, [] => {t with summary := String.mk (joinWords ws)}
  | 0, t, ws, _ :: _ => {t with summary := String.mk (joinWords ws)}
  | fuel + 1, t, ws, w :: rest =>
    goTokens al today fuel (stepToken al today t ws w rest).1
      (stepToken al today t ws w rest).2.1 (stepToken al today t ws w rest).2.2

/-- `Task::apply_smart_input` (parser.rs lines 9-162): clear the recomputed
fields, run the token loop, set `summary` from the residue. -/
def applySmartInput (t : Task) (input : String) (al : AliasMap) (today : RDate) : Task :=
  goTokens al today (splitWs input.data).length
    {t with priority := 0, due := none, rrule := none, categories := []}
    [] (splitWs input.data)

/-- Modelled from the spec: `Task::new(summary, aliases)` (declared in the
absent `item.rs`; its behaviour is fixed by spec §3 Lifecycle "Created by the
smart parser", §4.1, and its uses in the tests) — a blank task with a fresh
uuid, run through `apply_smart_input`. -/
def Task.new (uid : String) (input : String) (al : AliasMap) (today : RDate) : Task :=
  applySmartInput (Task.blank uid) input al today

/-! ### Parser lemmas -/

theorem stepToken_rest_sfx (al : AliasMap) (today : RDate) (t : Task)
    (ws : List Line) (w : Line) (rest : List Line) :
    (stepToken al today t ws w rest).2.2.IsSuffix rest := by
  unfold stepToken
  repeat' split
  all_goals (try dsimp only)
  all_goals (repeat' split)
  all_goals (try dsimp only)
  all_goals
    first
    | exact List.suffix_rfl
    | exact List.suffix_cons _ _
    | exact (List.suffix_cons _ _).trans (List.suffix_cons _ _)

/-- The task fields the smart-input parser never writes. -/
def frameAgree (r t : Task) : Prop :=
  r.uid = t.uid ∧ r.description = t.description ∧ r.status = t.status ∧
  r.dtstart = t.dtstart ∧ r.parent_uid = t.parent_uid ∧
  r.dependencies = t.dependencies ∧ r.etag = t.etag ∧ r.href = t.href ∧
  r.calendar_href = t.calendar_href ∧ r.depth = t.depth ∧
  r.unmapped_properties = t.unmapped_properties ∧
  r.raw_components = t.raw_components

theorem frameAgree_trans {a b c : Task} (h1 : frameAgree a b) (h2 : frameAgree b c) :
    frameAgree a c := by
  obtain ⟨x1, x2, x3, x4, x5, x6, x7, x8, x9, x10, x11, x12⟩ := h1
  obtain ⟨y1, y2, y3, y4, y5, y6, y7, y8, y9, y10, y11, y12⟩ := h2
  exact ⟨x1.trans y1, x2.trans y2, x3.trans y3, x4.trans y4, x5.trans y5,
    x6.trans y6, x7.trans y7, x8.trans y8, x9.trans y9, x10.trans y10,
    x11.trans y11, x12.trans y12⟩

theorem stepToken_frame (al : AliasMap) (today : RDate) (t : Task)
    (ws : List Line) (w : Line) (rest : List Line) :
    frameAgree (stepToken al today t ws w rest).1 t := by
  unfold stepToken
  repeat' split
  all_goals (try dsimp only)
  all_goals (repeat' split)
  all_goals exact ⟨rfl, rfl, rfl, rfl, rfl, rfl, rfl, rfl, rfl, rfl, rfl, rfl⟩

theorem goTokens_frame (al : AliasMap) (today : RDate) (fuel : Nat) (t : Task)
    (ws tokens : List Line) :
    frameAgree (goTokens al today fuel t ws tokens) t := by
  induction fuel, t, ws, tokens using goTokens.induct al today with
  | case1 fuel t ws =>
    rw [goTokens]
    exact ⟨rfl, rfl, rfl, rfl, rfl, rfl, rfl, rfl, rfl, rfl, rfl, rfl⟩
  | case2 t ws w rest =>
    rw [goTokens]
    exact ⟨rfl, rfl, rfl, rfl, rfl, rfl, rfl, rfl, rfl, rfl, rfl, rfl⟩
  | case3 fuel t ws w rest ih =>
    rw [goTokens]
    exact frameAgree_trans ih (stepToken_frame al today t ws w rest)

theorem stepToken_est (al : AliasMap) (today : RDate) (t : Task)
    (ws : List Line) (w : Line) (rest : List Line)
    (h : durTokenVal w = none) :
    (stepToken al today t ws w rest).1.estimated_duration = t.estimated_duration := by
  unfold stepToken
  simp only [h]
  repeat' split
  all_goals (try dsimp only)
  all_goals (repeat' split)
  all_goals rfl

theorem goTokens_est (al : AliasMap) (today : RDate) (fuel : Nat) (t : Task)
    (ws tokens : List Line) :
    (∀ w ∈ tokens, durTokenVal w = none) →
    (goTokens al today fuel t ws tokens).estimated_duration = t.estimated_duration := by
  induction fuel, t, ws, tokens using goTokens.induct al today with
  | case1 fuel t ws => intro _; rw [goTokens]
  | case2 t ws w rest => intro _; rw [goTokens]
  | case3 fuel t ws w rest ih =>
    intro h
    rw [goTokens]
    have hw : durTokenVal w = none := h w (by simp)
    have hrest : ∀ x ∈ (stepToken al today t ws w rest).2.2, durTokenVal x = none :=
      fun x hx =>
        h x (List.mem_cons_of_mem w ((stepToken_rest_sfx al today t ws w rest).subset hx))
    exact (ih hrest).trans (stepToken_est al today t ws w rest hw)

/-- The fields `apply_smart_input` recomputes from scratch. -/
def recompEq (r1 r2 : Task) : Prop :=
  r1.priority = r2.priority ∧ r1.due = r2.due ∧ r1.rrule = r2.rrule ∧
  r1.categories = r2.categories

theorem stepToken_recomp (al : AliasMap) (today : RDate) (t1 t2 : Task)
    (ws : List Line) (w : Line) (rest : List Line) (h : recompEq t1 t2) :
    recompEq (stepToken al today t1 ws w rest).1 (stepToken al today t2 ws w rest).1 ∧
    (stepToken al today t1 ws w rest).2.1 = (stepToken al today t2 ws w rest).2.1 ∧
    (stepToken al today t1 ws w rest).2.2 = (stepToken al today t2 ws w rest).2.2 := by
  obtain ⟨hp, hd, hr, hc⟩ := h
  cases hb : bangPriority w with
  | some p => simp [stepToken, recompEq, hb, hp, hd, hr, hc]
  | none =>
  cases hdur : durTokenVal w with
  | some m => simp [stepToken, recompEq, hb, hdur, hp, hd, hr, hc]
  | none =>
  cases hcat : catTokenVal w with
  | some cat => simp [stepToken, recompEq, hb, hdur, hcat, hp, hd, hr, hc]
  | none =>
  by_cases h1 : w = "@daily".data
  · subst h1; simp [stepToken, recompEq, hb, hdur, hcat, hp, hd, hr, hc]
  by_cases h2 : w = "@weekly".data
  · subst h2; simp [stepToken, recompEq, hb, hdur, hcat, h1, hp, hd, hr, hc]
  by_cases h3 : w = "@monthly".data
  · subst h3; simp [stepToken, recompEq, hb, hdur, hcat, h1, h2, hp, hd, hr, hc]
  by_cases h4 : w = "@yearly".data
  · subst h4; simp [stepToken, recompEq, hb, hdur, hcat, h1, h2, h3, hp, hd, hr, hc]
  by_cases h5 : w = "@every".data
  · subst h5
    cases rest with
    | nil => simp [stepToken, recompEq, hb, hdur, hcat, h1, h2, h3, h4, hp, hd, hr, hc]
    | cons n rest2 =>
      cases hint : rustParseUint u32Bound n with
      | none =>
        simp [stepToken, recompEq, hb, hdur, hcat, h1, h2, h3, h4, hint, hp, hd, hr, hc]
      | some interval =>
        cases rest2 with
        | nil =>
          simp [stepToken, recompEq, hb, hdur, hcat, h1, h2, h3, h4, hint, hp, hd, hr, hc]
        | cons unit rest3 =>
          by_cases hf : freqOfUnit (unit.map lowerCh) = []
          · simp [stepToken, recompEq, hb, hdur, hcat, h1, h2, h3, h4, hint, hf,
              hp, hd, hr, hc]
          · simp [stepToken, recompEq, hb, hdur, hcat, h1, h2, h3, h4, hint, hf,
              hp, hd, hr, hc]
  · cases w with
    | nil => simp [stepToken, recompEq, hb, hdur, hcat, h1, h2, h3, h4, h5, hp, hd, hr, hc]
    | cons c val =>
      by_cases hat : c = '@'
      · subst hat
        cases hdate : parseDashDate val with
        | some date =>
          simp [stepToken, recompEq, hb, hdur, hcat, h1, h2, h3, h4, h5, hdate,
            hp, hd, hr, hc]
        | none =>
          by_cases ht1 : val = "today".data
          · subst ht1
            simp [stepToken, recompEq, hb, hdur, hcat, h1, h2, h3, h4, h5, hdate,
              hp, hd, hr, hc]
          by_cases ht2 : val = "tomorrow".data
          · subst ht2
            simp [stepToken, recompEq, hb, hdur, hcat, h1, h2, h3, h4, h5, hdate, ht1,
              hp, hd, hr, hc]
          by_cases ht3 : val = "next".data
          · subst ht3
            cases rest with
            | nil =>
              simp [stepToken, recompEq, hb, hdur, hcat, h1, h2, h3, h4, h5, hdate,
                ht1, ht2, hp, hd, hr, hc]
            | cons unit rest2 =>
              by_cases hoff : offsetOfUnit (unit.map lowerCh) > 0
              · simp [stepToken, recompEq, hb, hdur, hcat, h1, h2, h3, h4, h5, hdate,
                  ht1, ht2, hoff, hp, hd, hr, hc]
              · simp [stepToken, recompEq, hb, hdur, hcat, h1, h2, h3, h4, h5, hdate,
                  ht1, ht2, hoff, hp, hd, hr, hc]
          · simp [stepToken, recompEq, hb, hdur, hcat, h1, h2, h3, h4, h5, hdate,
              ht1, ht2, ht3, hp, hd, hr, hc]
      · simp [stepToken, recompEq, hb, hdur, hcat, h1, h2, h3, h4, h5, hat,
          hp, hd, hr, hc]

theorem goTokens_recomp (al : AliasMap) (today : RDate) (fuel : Nat) (t1 : Task)
    (ws tokens : List Line) :
    ∀ t2 : Task, recompEq t1 t2 →
      recompEq (goTokens al today fuel t1 ws tokens) (goTokens al today fuel t2 ws tokens) ∧
      (goTokens al today fuel t1 ws tokens).summary
        = (goTokens al today fuel t2 ws tokens).summary := by
  induction fuel, t1, ws, tokens using goTokens.induct al today with
  | case1 fuel t1 ws =>
    intro t2 h
    rw [goTokens, goTokens]
    exact ⟨h, rfl⟩
  | case2 t1 ws w rest =>
    intro t2 h
    rw [goTokens, goTokens]
    exact ⟨h, rfl⟩
  | case3 fuel t1 ws w rest ih =>
    intro t2 h
    obtain ⟨hstep, hws, hrest⟩ := stepToken_recomp al today t1 t2 ws w rest h
    have := ih (stepToken al today t2 ws w rest).1 hstep
    rw [goTokens, goTokens, ← hws, ← hrest]
    exact this

theorem not_mem_of_contains_false {α : Type} [BEq α] [LawfulBEq α] {l : List α}
    {a : α} (h : l.contains a = false) : a ∉ l := by
  simp only [List.contains_eq_any_beq] at h
  simp at h
  exact fun hm => h a hm rfl

theorem nodup_pushIfAbsent (base : List String) (e : String) (h : base.Nodup) :
    (if base.contains e then base else base ++ [e]).Nodup := by
  split
  · exact h
  · next hc =>
    have : e ∉ base := not_mem_of_contains_false (by simpa using hc)
    simp [List.nodup_append, h, this]

theorem nodup_foldlPushAbsent (es : List String) :
    ∀ base : List String, base.Nodup →
      (es.foldl (fun acc e => if acc.contains e then acc else acc ++ [e]) base).Nodup := by
  induction es with
  | nil => intro base h; exact h
  | cons e es ih =>
    intro base h
    simp only [List.foldl_cons]
    exact ih _ (nodup_pushIfAbsent base e h)

theorem pushCats_nodup (cats : List String) (cat : String) (al : AliasMap)
    (h : cats.Nodup) : (pushCats cats cat al).Nodup := by
  unfold pushCats
  cases hal : al cat with
  | none => simpa using nodup_pushIfAbsent cats cat h
  | some expanded =>
    simpa using nodup_foldlPushAbsent expanded _ (nodup_pushIfAbsent cats cat h)

theorem stepToken_nodup (al : AliasMap) (today : RDate) (t : Task)
    (ws : List Line) (w : Line) (rest : List Line)
    (h : t.categories.Nodup) :
    (stepToken al today t ws w rest).1.categories.Nodup := by
  unfold stepToken
  repeat' split
  all_goals (try dsimp only)
  all_goals (repeat' split)
  all_goals first
    | exact h
    | exact pushCats_nodup t.categories _ al h

theorem goTokens_nodup (al : AliasMap) (today : RDate) (fuel : Nat) (t : Task)
    (ws tokens : List Line) :
    t.categories.Nodup → (goTokens al today fuel t ws tokens).categories.Nodup := by
  induction fuel, t, ws, tokens using goTokens.induct al today with
  | case1 fuel t ws => intro h; rw [goTokens]; exact h
  | case2 t ws w rest => intro h; rw [goTokens]; exact h
  | case3 fuel t ws w rest ih =>
    intro h
    rw [goTokens]
    exact ih (stepToken_nodup al today t ws w rest h)

/-! ### Claims about the smart-input parser -/

/-- **C7**: Parsing the input line `"Buy milk !2 @tomorrow ~30m #errands"`
with an empty alias map produces a task with summary `"Buy milk"`,
priority 2, due 23:59:59 UTC on the local date plus one day,
estimated duration 30 minutes, and categories `["errands"]`. -/
theorem c7_parse_buy_milk (uid : String) (today : RDate) :
    Task.new uid "Buy milk !2 @tomorrow ~30m #errands" (fun _ => none) today =
      { Task.blank uid with
          summary := "Buy milk"
          priority := 2
          due := some (endOfDay (addDays today 1))
          estimated_duration := some 30
          categories := ["errands"] } := rfl

/-- **C10**: `apply_smart_input` recomputes `priority`, `due`, `rrule`,
`categories` and `summary` from the input alone (their prior values never
influence the result), leaves `status`, `description`, `uid`, the relation
fields and the rest of the frame unchanged, and — because no branch resets
it — leaves `estimated_duration` at its previous value whenever the line
contains no valid `~` duration token. -/
theorem c10_smart_input_frame (t : Task) (input : String) (al : AliasMap)
    (today : RDate) :
    frameAgree (applySmartInput t input al today) t ∧
    ((∀ w ∈ splitWs input.data, durTokenVal w = none) →
      (applySmartInput t input al today).estimated_duration = t.estimated_duration) ∧
    (∀ t2 : Task,
      (applySmartInput t input al today).priority
        = (applySmartInput t2 input al today).priority ∧
      (applySmartInput t input al today).due = (applySmartInput t2 input al today).due ∧
      (applySmartInput t input al today).rrule
        = (applySmartInput t2 input al today).rrule ∧
      (applySmartInput t input al today).categories
        = (applySmartInput t2 input al today).categories ∧
      (applySmartInput t input al today).summary
        = (applySmartInput t2 input al today).summary) := by
  refine ⟨?_, ?_, ?_⟩
  · exact frameAgree_trans
      (goTokens_frame al today _ _ [] (splitWs input.data))
      ⟨rfl, rfl, rfl, rfl, rfl, rfl, rfl, rfl, rfl, rfl, rfl, rfl⟩
  · exact fun hno => goTokens_est al today _ _ [] _ hno
  · intro t2
    have h := goTokens_recomp al today (splitWs input.data).length
      {t with priority := 0, due := none, rrule := none, categories := []}
      [] (splitWs input.data)
      {t2 with priority := 0, due := none, rrule := none, categories := []}
      ⟨rfl, rfl, rfl, rfl⟩
    obtain ⟨⟨a, b, c, d⟩, e⟩ := h
    exact ⟨a, b, c, d, e⟩

/-- Witness for C10 at a concrete task and input line. -/
theorem c10_smart_input_frame_witness :
    frameAgree
      (applySmartInput { Task.blank "u-1" with estimated_duration := some 5 }
        "rewrite report !3" (fun _ => none) ⟨2024, 5, 6⟩)
      { Task.blank "u-1" with estimated_duration := some 5 } ∧
    (applySmartInput { Task.blank "u-1" with estimated_duration := some 5 }
      "rewrite report !3" (fun _ => none) ⟨2024, 5, 6⟩).estimated_duration = some 5 :=
  ⟨(c10_smart_input_frame _ _ _ _).1,
   (c10_smart_input_frame _ _ _ _).2.1 (by decide)⟩

/-! ### The journal and the sync engine (`src/journal.rs`, `src/client.rs`) -/

/-- `journal.rs::Action`. -/
inductive Action
  | create (t : Task)
  | update (t : Task)
  | delete (t : Task)
  | move (t : Task) (newCal : String)
  deriving DecidableEq, Repr

/-- One WebDAV request `sync_journal` can issue (its libdav / raw MOVE calls);
the body of a PUT is `to_ics` of the recorded task, kept abstract here. -/
inductive RemoteCall
  | putCreate (href : String) (t : Task)
  | putUpdate (href etag : String) (t : Task)
  | del (href etag : String)
  | moveCall (href dest : String)
  deriving DecidableEq, Repr

/-- The per-request outcomes `sync_journal` distinguishes: success, 412
Precondition Failed, 404 Not Found, or any other error. -/
inductive RemoteResult
  | ok | preconditionFailed | notFound | otherError
  deriving DecidableEq, Repr

/-- The remote server, as the response it gives to each request. -/
abbrev Server := RemoteCall → RemoteResult

/-- Rust `str::ends_with('/')`. -/
def endsSlash (s : String) : Bool := s.data.getLast? = some '/'

/-- client.rs lines 423-428 and 511-515: the resource path of a task inside a
calendar, normalizing the trailing slash. -/
def fullHref (cal uid : String) : String :=
  if endsSlash cal then cal ++ uid ++ ".ics" else cal ++ "/" ++ uid ++ ".ics"

/-- The conflict copy built in the 412 arm of `Action::Update`
(client.rs lines 454-459): fresh uuid, `" (Conflict Copy)"` appended to the
summary, cleared `href` and `etag`. -/
def conflictCopy (freshUid : String) (t : Task) : Task :=
  { t with uid := freshUid
           summary := t.summary ++ " (Conflict Copy)"
           href := ""
           etag := "" }

/-- Executing one action: the big `match &action` of `sync_journal`
(client.rs lines 421-488). Returns the `result` (`true` = `Ok`),
`conflict_resolved_action`, and the request issued. `freshUid` models the
`Uuid::new_v4()` drawn in the 412 arm. -/
def executeAction (srv : Server) (freshUid : String) :
    Action → Bool × Option Action × RemoteCall
  | .create t =>
    let call := RemoteCall.putCreate (fullHref t.calendar_href t.uid) t
    (match srv call with
     | .ok => (true, none, call)
     | _ => (false, none, call))
  | .update t =>
    let call := RemoteCall.putUpdate t.href t.etag t
    (match srv call with
     | .ok => (true, none, call)
     | .preconditionFailed => (true, some (.create (conflictCopy freshUid t)), call)
     | .notFound => (true, some (.create t), call)
     | .otherError => (false, none, call))
  | .delete t =>
    let call := RemoteCall.del t.href t.etag
    (match srv call with
     | .ok => (true, none, call)
     | .notFound => (true, none, call)
     | .preconditionFailed => (true, none, call)
     | .otherError => (false, none, call))
  | .move t newCal =>
    let call := RemoteCall.moveCall t.href (fullHref newCal t.uid)
    (match srv call with
     | .ok => (true, none, call)
     | _ => (false, none, call))

inductive SyncStatus
  | completed
  | failed (a : Action)
  | fuelOut
  deriving DecidableEq, Repr

/-- Outcome of a drain: the persisted journal, the requests issued, the
actions whose execution returned `Ok` (in commit order), the actions
attempted (in attempt order), and how the loop ended. -/
structure SyncResult where
  journal : List Action
  calls : List RemoteCall
  committed : List Action
  attempts : List Action
  status : SyncStatus
  deriving DecidableEq, Repr

/-- The drain loop of `RustyClient::sync_journal` (client.rs lines 409-506)
combined with the on-disk journal semantics of `journal.rs`.

At every loop boundary the in-memory queue equals the persisted queue
(`journal.save()` runs after every action), so one queue models both. Within
an iteration the source pops the head in memory only
(`journal.queue.remove(0)`); both `push_front` call sites
(`conflict_resolved_action` on success, the failed action on error) go
through `Journal::modify`, which reloads the *persisted* queue — which still
contains the popped action — inserts at index 0, saves, and reloads `self`;
the following `journal.save()` persists that same state. Hence, for a popped
action `a` with remaining queue `rest`:
* success without replacement: the persisted queue becomes `rest`;
* success with replacement `c`: it becomes `c :: a :: rest` — the handled
  action `a` is still enqueued;
* failure: it becomes `a :: a :: rest` and the drain stops (`break`).

`uids n` supplies the `Uuid::new_v4()` value available to the `n`-th
attempt; `fuel` bounds the iteration count (the source's `while` loop has no
such bound — and, as C2 shows, can loop forever). -/
def syncSteps (srv : Server) (uids : Nat → String) :
    Nat → List Action → Nat → SyncResult
  | _, [], _ => ⟨[], [], [], [], .completed⟩
  | 0, q, _ => ⟨q, [], [], [], .fuelOut⟩
  | fuel + 1, a :: rest, n =>
    match executeAction srv (uids n) a with
    | (true, confl, call) =>
      let q2 := match confl with
        | some c => c :: a :: rest
        | none => rest
      let r := syncSteps srv uids fuel q2 (n + 1)
      ⟨r.journal, call :: r.calls, a :: r.committed, a :: r.attempts, r.status⟩
    | (false, _, call) => ⟨a :: a :: rest, [call], [], [a], .failed a⟩

/-- One `sync_journal` run over an initial persisted journal. -/
def syncJournal (srv : Server) (uids : Nat → String) (fuel : Nat)
    (q : List Action) : SyncResult :=
  syncSteps srv uids fuel q 0

/-! ### Sync-engine lemmas and claims C2, C3, C4 -/

theorem executeAction_confl_none (srv : Server) (u : String) (a : Action)
    (hno : ∀ h e t, srv (RemoteCall.putUpdate h e t) ≠ RemoteResult.preconditionFailed ∧
      srv (RemoteCall.putUpdate h e t) ≠ RemoteResult.notFound) :
    (executeAction srv u a).2.1 = none := by
  cases a with
  | create t =>
    unfold executeAction
    cases hsrv : srv (RemoteCall.putCreate (fullHref t.calendar_href t.uid) t) <;>
      simp [hsrv]
  | update t =>
    have h1 := (hno t.href t.etag t).1
    have h2 := (hno t.href t.etag t).2
    unfold executeAction
    cases hsrv : srv (RemoteCall.putUpdate t.href t.etag t) <;> simp_all
  | delete t =>
    unfold executeAction
    cases hsrv : srv (RemoteCall.del t.href t.etag) <;> simp [hsrv]
  | move t newCal =>
    unfold executeAction
    cases hsrv : srv (RemoteCall.moveCall t.href (fullHref newCal t.uid)) <;> simp [hsrv]

theorem syncSteps_no_drop (srv : Server) (uids : Nat → String) (fuel : Nat)
    (q : List Action) (n : Nat) :
    ∀ x ∈ q, x ∈ (syncSteps srv uids fuel q n).committed ∨
      x ∈ (syncSteps srv uids fuel q n).journal := by
  induction fuel generalizing q n with
  | zero =>
    intro x hx
    cases q with
    | nil => simp at hx
    | cons a rest => right; simpa [syncSteps] using hx
  | succ fuel ih =>
    intro x hx
    cases q with
    | nil => simp at hx
    | cons a rest =>
      rcases hexec : executeAction srv (uids n) a with ⟨res, confl, call⟩
      cases res
      · simp only [syncSteps, hexec]
        right
        exact List.mem_cons_of_mem a hx
      · simp only [syncSteps, hexec]
        rcases List.mem_cons.mp hx with rfl | hxr
        · left; exact List.mem_cons_self _ _
        · have hx2 : x ∈ (match confl with
            | some c => c :: a :: rest
            | none => rest) := by
            cases confl with
            | some c => exact List.mem_cons_of_mem c (List.mem_cons_of_mem a hxr)
            | none => exact hxr
          rcases ih _ (n + 1) x hx2 with hl | hr
          · left; exact List.mem_cons_of_mem a hl
          · right; exact hr

theorem syncSteps_failed_head (srv : Server) (uids : Nat → String) (fuel : Nat)
    (q : List Action) (n : Nat) :
    ∀ f, (syncSteps srv uids fuel q n).status = .failed f →
      (syncSteps srv uids fuel q n).journal.head? = some f := by
  induction fuel generalizing q n with
  | zero =>
    intro f hf
    cases q with
    | nil => simp [syncSteps] at hf
    | cons a rest => simp [syncSteps] at hf
  | succ fuel ih =>
    intro f hf
    cases q with
    | nil => simp [syncSteps] at hf
    | cons a rest =>
      rcases hexec : executeAction srv (uids n) a with ⟨res, confl, call⟩
      cases res
      · simp only [syncSteps, hexec] at hf ⊢
        cases hf
        rfl
      · simp only [syncSteps, hexec] at hf ⊢
        exact ih _ (n + 1) f hf

theorem syncSteps_fifo (srv : Server) (uids : Nat → String)
    (hno : ∀ h e t, srv (RemoteCall.putUpdate h e t) ≠ RemoteResult.preconditionFailed ∧
      srv (RemoteCall.putUpdate h e t) ≠ RemoteResult.notFound)
    (fuel : Nat) (q : List Action) (n : Nat) :
    (syncSteps srv uids fuel q n).attempts <+: q := by
  induction fuel generalizing q n with
  | zero =>
    cases q with
    | nil => simp [syncSteps]
    | cons a rest => simp [syncSteps]
  | succ fuel ih =>
    cases q with
    | nil => simp [syncSteps]
    | cons a rest =>
      rcases hexec : executeAction srv (uids n) a with ⟨res, confl, call⟩
      cases res
      · simp only [syncSteps, hexec]
        exact ⟨rest, rfl⟩
      · have hc : confl = none := by
          have h := executeAction_confl_none srv (uids n) a hno
          rw [hexec] at h
          exact h
        subst hc
        simp only [syncSteps, hexec]
        obtain ⟨zs, hz⟩ := ih rest (n + 1)
        exact ⟨zs, by simp only [List.cons_append, hz]⟩

/-- **C4**: across a journal drain, actions are attempted in FIFO order (the
attempt sequence is a prefix of the queued journal whenever no 412/404
per-action policy splices in a replacement action); when an attempt fails
with an error no per-action policy resolves, the failed action sits at the
head of the persisted journal and the drain stops there (`SyncStatus.failed`
records the `break`); and no queued mutation is dropped: every action of the
starting journal is either committed or still present in the persisted
journal. -/
theorem c4_fifo_no_loss (srv : Server) (uids : Nat → String) (fuel : Nat)
    (q : List Action) :
    (∀ x ∈ q, x ∈ (syncJournal srv uids fuel q).committed ∨
       x ∈ (syncJournal srv uids fuel q).journal) ∧
    (∀ f, (syncJournal srv uids fuel q).status = .failed f →
       (syncJournal srv uids fuel q).journal.head? = some f) ∧
    ((∀ h e t, srv (RemoteCall.putUpdate h e t) ≠ RemoteResult.preconditionFailed ∧
        srv (RemoteCall.putUpdate h e t) ≠ RemoteResult.notFound) →
      (syncJournal srv uids fuel q).attempts <+: q) :=
  ⟨syncSteps_no_drop srv uids fuel q 0,
   syncSteps_failed_head srv uids fuel q 0,
   fun hno => syncSteps_fifo srv uids hno fuel q 0⟩

/-- The uuid supply used by the concrete runs. -/
def uidsW : Nat → String := fun n => String.mk ('u' :: natChars n)

/-- A task with a stored href and etag, as the integration tests build it. -/
def tW : Task :=
  { Task.blank "w-uid" with
      calendar_href := "/cal/"
      href := "/cal/w-uid.ics"
      etag := "E1" }

/-- A server that rejects every update with a non-412/404 error. -/
def srvFailW : Server := fun c =>
  match c with
  | .putUpdate _ _ _ => .otherError
  | _ => .ok

/-- Witness for C4: a concrete failing drain. -/
theorem c4_fifo_no_loss_witness :
    (∀ x ∈ [Action.update tW],
       x ∈ (syncJournal srvFailW uidsW 3 [Action.update tW]).committed ∨
       x ∈ (syncJournal srvFailW uidsW 3 [Action.update tW]).journal) ∧
    (syncJournal srvFailW uidsW 3 [Action.update tW]).journal.head?
      = some (Action.update tW) ∧
    (syncJournal srvFailW uidsW 3 [Action.update tW]).attempts <+: [Action.update tW] := by
  have h := c4_fifo_no_loss srvFailW uidsW 3 [Action.update tW]
  refine ⟨h.1, h.2.1 (Action.update tW) (by decide), h.2.2 ?_⟩
  intro hr e t
  exact ⟨by simp [srvFailW], by simp [srvFailW]⟩

/-- The conflicting task of the 412 integration test
(`tests/sync_integration.rs`). -/
def t412 : Task :=
  { Task.blank "test-uid" with
      summary := "Local Title"
      description := "Local Description"
      calendar_href := "/cal/"
      href := "/cal/test-uid.ics"
      etag := "old-etag" }

/-- A server answering 412 to every update and success to everything else. -/
def srv412 : Server := fun c =>
  match c with
  | .putUpdate _ _ _ => .preconditionFailed
  | _ => .ok

theorem srv412_never_drains (fuel : Nat) : ∀ n : Nat,
    (syncSteps srv412 uidsW fuel [Action.update t412] n).journal ≠ [] ∧
    (∀ c, (syncSteps srv412 uidsW fuel
      (Action.create c :: [Action.update t412]) n).journal ≠ []) := by
  induction fuel with
  | zero => intro n; exact ⟨by simp [syncSteps], fun c => by simp [syncSteps]⟩
  | succ fuel ih =>
    intro n
    constructor
    · have hexec : executeAction srv412 (uidsW n) (Action.update t412)
        = (true, some (Action.create (conflictCopy (uidsW n) t412)),
           RemoteCall.putUpdate t412.href t412.etag t412) := rfl
      simp only [syncJournal, syncSteps, hexec]
      exact (ih (n + 1)).2 (conflictCopy (uidsW n) t412)
    · intro c
      have hexec : executeAction srv412 (uidsW n) (Action.create c)
        = (true, none, RemoteCall.putCreate (fullHref c.calendar_href c.uid) c) := rfl
      simp only [syncJournal, syncSteps, hexec]
      exact (ih (n + 1)).1

/-- **C2** (code bug): with a server answering 412 Precondition Failed to
every update and success otherwise, handling `Update(t412)` does enqueue at
the head a `Create` of the mandated conflict copy — fresh uuid,
`" (Conflict Copy)"` appended to the summary, cleared href and etag — but,
contrary to the claim, the original update is not retired: `push_front` goes
through `Journal::modify`, which reloads a persisted journal that still
contains the popped update, so after the step the journal is
`[Create copy, Update t]`; the update is retried, and no iteration bound
ever leaves the journal empty. -/
theorem c2_conflict_copy_requeued :
    (syncJournal srv412 uidsW 1 [Action.update t412]).journal
      = [Action.create (conflictCopy (uidsW 0) t412), Action.update t412] ∧
    conflictCopy (uidsW 0) t412
      = { t412 with
            uid := uidsW 0
            summary := "Local Title (Conflict Copy)"
            href := ""
            etag := "" } ∧
    (∀ fuel, (syncJournal srv412 uidsW fuel [Action.update t412]).journal ≠ []) :=
  ⟨by decide, by decide, fun fuel => (srv412_never_drains fuel 0).1⟩

/-- The moved task of the href-propagation integration test
(`tests/journal_propagation.rs`). -/
def tMove : Task :=
  { Task.blank "moved-task" with
      summary := "Task to Move"
      calendar_href := "/cal1/"
      href := "/cal1/moved-task.ics"
      etag := "orig-etag" }

def tUpd : Task := { tMove with summary := "Updated Summary" }

/-- A server that accepts every request. -/
def srvOk : Server := fun _ => .ok

/-- **C3** (code bug): draining `[Move(t, "/cal2/"), Update(t)]` against an
all-success server issues the MOVE to the destination path, but then sends
the PUT for the queued update to the update's *stored* href
`/cal1/moved-task.ics`; no request of the run targets the destination path
`/cal2/moved-task.ics` — `sync_journal` has no href re-targeting. -/
theorem c3_update_targets_stored_href :
    (syncJournal srvOk uidsW 2 [Action.move tMove "/cal2/", Action.update tUpd]).calls
      = [RemoteCall.moveCall "/cal1/moved-task.ics" "/cal2/moved-task.ics",
         RemoteCall.putUpdate "/cal1/moved-task.ics" "orig-etag" tUpd] ∧
    (syncJournal srvOk uidsW 2 [Action.move tMove "/cal2/", Action.update tUpd]).status
      = SyncStatus.completed ∧
    (syncJournal srvOk uidsW 2 [Action.move tMove "/cal2/", Action.update tUpd]).journal
      = [] ∧
    (∀ href e t, RemoteCall.putUpdate href e t ∈
        (syncJournal srvOk uidsW 2
          [Action.move tMove "/cal2/", Action.update tUpd]).calls →
      href = "/cal1/moved-task.ics") := by
  refine ⟨by decide, by decide, by decide, ?_⟩
  intro href e t hmem
  have hcalls : (syncJournal srvOk uidsW 2
      [Action.move tMove "/cal2/", Action.update tUpd]).calls
    = [RemoteCall.moveCall "/cal1/moved-task.ics" "/cal2/moved-task.ics",
       RemoteCall.putUpdate "/cal1/moved-task.ics" "orig-etag" tUpd] := by decide
  rw [hcalls] at hmem
  rcases List.mem_cons.mp hmem with heq | hmem2
  · exact absurd heq (by simp)
  · rcases List.mem_cons.mp hmem2 with heq | hmem3
    · cases heq
      rfl
    · simp at hmem3

/-! ### ETag-delta fetch (`RustyClient::get_tasks`, client.rs lines 217-284) -/

/-- One entry of the PROPFIND listing (`list_resp.resources`). -/
structure ListedResource where
  href : String
  etag : Option String
  deriving DecidableEq, Repr

/-- Rust `str::ends_with(".ics")`. -/
def endsIcs (s : String) : Bool := ".ics".data.isSuffixOf s.data

/-- `HashMap::insert` keyed by href, modelled on an association list. -/
def hmInsert (k : String) (v : Task) : List (String × Task) → List (String × Task)
  | [] => [(k, v)]
  | (k2, v2) :: rest => if k2 = k then (k, v) :: rest else (k2, v2) :: hmInsert k v rest

/-- `HashMap::remove`: the removed value (if any) and the remaining map. -/
def hmRemove (k : String) : List (String × Task) → Option Task × List (String × Task)
  | [] => (none, [])
  | (k2, v2) :: rest =>
    if k2 = k then (some v2, rest)
    else
      let r := hmRemove k rest
      (r.1, (k2, v2) :: r.2)

/-- `HashMap::get`-style lookup. -/
def hmFind (k : String) : List (String × Task) → Option Task
  | [] => none
  | (k2, v) :: rest => if k2 = k then some v else hmFind k rest

/-- The `cache_map` built from the cached tasks (client.rs lines 229-233):
inserted in order, keyed by href, later entries overwriting earlier ones. -/
def cacheMapOf (cached : List Task) : List (String × Task) :=
  cached.foldl (fun m t => hmInsert t.href t m) []

/-- The reuse-or-fetch loop over the listing (client.rs lines 238-258):
skip non-`.ics` resources; remove the cached entry for the href; reuse it
when the remote etag is present, nonempty and equal to the cached etag;
otherwise add the href to the multiget batch. -/
def fetchLoop :
    List ListedResource → List (String × Task) → List Task → List String →
      List Task × List String
  | [], _, finalT, toFetch => (finalT, toFetch)
  | r :: rest, cmap, finalT, toFetch =>
    if endsIcs r.href then
      let rem := hmRemove r.href cmap
      match rem.1 with
      | some localTask =>
        (match r.etag with
        | some re =>
          if re ≠ "" ∧ re = localTask.etag then
            fetchLoop rest rem.2 (finalT ++ [localTask]) toFetch
          else fetchLoop rest rem.2 finalT (toFetch ++ [r.href])
        | none => fetchLoop rest rem.2 finalT (toFetch ++ [r.href]))
      | none => fetchLoop rest rem.2 finalT (toFetch ++ [r.href])
    else fetchLoop rest cmap finalT toFetch

/-- The cache-reconciliation part of `get_tasks`: reused tasks and the
multiget batch computed from the listing and the cached task list. -/
def getTasksPlan (resources : List ListedResource) (cached : List Task) :
    List Task × List String :=
  fetchLoop resources (cacheMapOf cached) [] []

/-! ### Lemmas about the cache map -/

theorem hmRemove_fst (k : String) (m : List (String × Task)) :
    (hmRemove k m).1 = hmFind k m := by
  induction m with
  | nil => rfl
  | cons p rest ih =>
    rcases p with ⟨k2, v2⟩
    by_cases h : k2 = k
    · simp [hmRemove, hmFind, h]
    · simp [hmRemove, hmFind, h, ih]

theorem hmFind_remove_ne (k k2 : String) (m : List (String × Task)) (h : k2 ≠ k) :
    hmFind k2 (hmRemove k m).2 = hmFind k2 m := by
  induction m with
  | nil => rfl
  | cons p rest ih =>
    rcases p with ⟨k3, v3⟩
    by_cases h3 : k3 = k
    · subst h3
      have hne : ¬(k3 = k2) := fun he => h he.symm
      simp [hmRemove, hmFind, hne]
    · by_cases h32 : k3 = k2
      · subst h32
        simp [hmRemove, hmFind, h]
      · simp [hmRemove, hmFind, h3, h32, ih]

theorem hmFind_insert (k k2 : String) (v : Task) (m : List (String × Task)) :
    hmFind k (hmInsert k2 v m) = if k2 = k then some v else hmFind k m := by
  induction m with
  | nil => simp [hmInsert, hmFind]
  | cons p rest ih =>
    rcases p with ⟨k3, v3⟩
    by_cases h3 : k3 = k2
    · subst h3
      by_cases hk : k3 = k <;> simp [hmInsert, hmFind, hk]
    · by_cases hk : k3 = k
      · subst hk
        have hne : ¬(k2 = k3) := fun he => h3 he.symm
        simp [hmInsert, hmFind, h3, hne]
      · simp [hmInsert, hmFind, h3, hk, ih]

/-- The last cached task carrying a given href (what the insert-fold of
`cache_map` retains for that key). -/
def lastWith (k : String) (l : List Task) : Option Task :=
  l.foldl (fun acc t => if t.href = k then some t else acc) none

theorem hmFind_cacheFold (cached : List Task) (k : String) :
    ∀ m, hmFind k (cached.foldl (fun m t => hmInsert t.href t m) m)
      = cached.foldl (fun acc t => if t.href = k then some t else acc) (hmFind k m) := by
  induction cached with
  | nil => intro m; rfl
  | cons t ts ih =>
    intro m
    simp only [List.foldl_cons]
    rw [ih, hmFind_insert]

theorem hmFind_cacheMapOf (cached : List Task) (k : String) :
    hmFind k (cacheMapOf cached) = lastWith k cached := by
  simpa [cacheMapOf, lastWith, hmFind] using hmFind_cacheFold cached k []

theorem lastWith_append (k : String) (xs : List Task) (x : Task) :
    lastWith k (xs ++ [x]) = if x.href = k then some x else lastWith k xs := by
  simp [lastWith, List.foldl_append]

theorem lastWith_iff (cached : List Task) (hnd : (cached.map Task.href).Nodup)
    (k : String) (t : Task) :
    lastWith k cached = some t ↔ t ∈ cached ∧ t.href = k := by
  induction cached using List.reverseRecOn with
  | nil => simp [lastWith]
  | append_singleton xs x ih =>
    have hsplit := List.nodup_append.mp (by simpa using hnd)
    have hx : x.href ∉ xs.map Task.href := fun hmem => hsplit.2.2 hmem (by simp)
    rw [lastWith_append]
    by_cases hk : x.href = k
    · rw [if_pos hk]
      constructor
      · intro h
        have ht : t = x := by simpa using h.symm
        subst ht
        exact ⟨by simp, hk⟩
      · rintro ⟨hmem, ht⟩
        rcases List.mem_append.mp hmem with hxs | hx1
        · exact absurd (List.mem_map.mpr ⟨t, hxs, by rw [ht, hk]⟩) hx
        · simp at hx1
          subst hx1
          rfl
    · rw [if_neg hk, ih hsplit.1]
      constructor
      · rintro ⟨hmem, ht⟩
        exact ⟨List.mem_append_left _ hmem, ht⟩
      · rintro ⟨hmem, ht⟩
        rcases List.mem_append.mp hmem with hxs | hx1
        · exact ⟨hxs, ht⟩
        · simp at hx1
          subst hx1
          exact absurd ht hk

/-- Whether the loop sends a listed resource to the multiget batch, as a
function of the initial cache map. -/
def wantFetch (cmap : List (String × Task)) (r : ListedResource) : Bool :=
  endsIcs r.href &&
    !(match hmFind r.href cmap, r.etag with
      | some t, some re => decide (re ≠ "" ∧ re = t.etag)
      | _, _ => false)

/-- The cached task the loop reuses for a listed resource, if any. -/
def reuseOf (cmap : List (String × Task)) (r : ListedResource) : Option Task :=
  if endsIcs r.href then
    match hmFind r.href cmap, r.etag with
    | some t, some re => if re ≠ "" ∧ re = t.etag then some t else none
    | _, _ => none
  else none

theorem filterMap_congr_mem {α β : Type} (f g : α → Option β) (l : List α)
    (h : ∀ a ∈ l, f a = g a) : l.filterMap f = l.filterMap g := by
  induction l with
  | nil => rfl
  | cons x xs ih =>
    simp only [List.filterMap_cons, h x (by simp)]
    rw [ih (fun a ha => h a (by simp [ha]))]

theorem fetchLoop_spec (resources : List ListedResource) :
    ∀ (cmap : List (String × Task)) (finalT : List Task) (toFetch : List String),
      (resources.map ListedResource.href).Nodup →
      (fetchLoop resources cmap finalT toFetch).2
        = toFetch ++ (resources.filter (fun r => wantFetch cmap r)).map ListedResource.href ∧
      (fetchLoop resources cmap finalT toFetch).1
        = finalT ++ resources.filterMap (reuseOf cmap) := by
  induction resources with
  | nil => intro cmap finalT toFetch _; simp [fetchLoop]
  | cons r rest ih =>
    intro cmap finalT toFetch hnd
    have hpair := List.nodup_cons.mp hnd
    have hnr : r.href ∉ rest.map ListedResource.href := hpair.1
    have hrest : (rest.map ListedResource.href).Nodup := hpair.2
    have hne : ∀ r2 ∈ rest, r2.href ≠ r.href := by
      intro r2 h2 he
      exact hnr (List.mem_map.mpr ⟨r2, h2, he⟩)
    have hcf : ∀ r2 ∈ rest, wantFetch (hmRemove r.href cmap).2 r2 = wantFetch cmap r2 := by
      intro r2 h2
      unfold wantFetch
      rw [hmFind_remove_ne _ _ _ (hne r2 h2)]
    have hcr : ∀ r2 ∈ rest, reuseOf (hmRemove r.href cmap).2 r2 = reuseOf cmap r2 := by
      intro r2 h2
      unfold reuseOf
      rw [hmFind_remove_ne _ _ _ (hne r2 h2)]
    by_cases hics : endsIcs r.href
    · rcases hfind : hmFind r.href cmap with _ | t0
      · have hstep : fetchLoop (r :: rest) cmap finalT toFetch
            = fetchLoop rest (hmRemove r.href cmap).2 finalT (toFetch ++ [r.href]) := by
          simp only [fetchLoop]
          rw [if_pos hics]
          simp only [hmRemove_fst, hfind]
        have hw : wantFetch cmap r = true := by
          simp [wantFetch, hics, hfind]
        have hru : reuseOf cmap r = none := by
          simp [reuseOf, hics, hfind]
        obtain ⟨h2, h1⟩ := ih (hmRemove r.href cmap).2 finalT (toFetch ++ [r.href]) hrest
        rw [hstep]
        constructor
        · rw [h2, List.filter_congr hcf]
          simp [List.filter_cons, hw]
        · rw [h1, filterMap_congr_mem _ _ _ hcr]
          simp [List.filterMap_cons, hru]
      · rcases hetag : r.etag with _ | re
        · have hstep : fetchLoop (r :: rest) cmap finalT toFetch
              = fetchLoop rest (hmRemove r.href cmap).2 finalT (toFetch ++ [r.href]) := by
            simp only [fetchLoop]
            rw [if_pos hics]
            simp only [hmRemove_fst, hfind, hetag]
          have hw : wantFetch cmap r = true := by
            simp [wantFetch, hics, hfind, hetag]
          have hru : reuseOf cmap r = none := by
            simp [reuseOf, hics, hfind, hetag]
          obtain ⟨h2, h1⟩ := ih (hmRemove r.href cmap).2 finalT (toFetch ++ [r.href]) hrest
          rw [hstep]
          constructor
          · rw [h2, List.filter_congr hcf]
            simp [List.filter_cons, hw]
          · rw [h1, filterMap_congr_mem _ _ _ hcr]
            simp [List.filterMap_cons, hru]
        · by_cases hmatch : re ≠ "" ∧ re = t0.etag
          · have hstep : fetchLoop (r :: rest) cmap finalT toFetch
                = fetchLoop rest (hmRemove r.href cmap).2 (finalT ++ [t0]) toFetch := by
              simp only [fetchLoop]
              rw [if_pos hics]
              simp only [hmRemove_fst, hfind, hetag]
              rw [if_pos hmatch]
            obtain ⟨hm1, hm2⟩ := hmatch
            subst hm2
            have hw : wantFetch cmap r = false := by
              simp [wantFetch, hics, hfind, hetag, hm1]
            have hru : reuseOf cmap r = some t0 := by
              simp [reuseOf, hics, hfind, hetag, hm1]
            obtain ⟨h2, h1⟩ := ih (hmRemove r.href cmap).2 (finalT ++ [t0]) toFetch hrest
            rw [hstep]
            constructor
            · rw [h2, List.filter_congr hcf]
              simp [List.filter_cons, hw]
            · rw [h1, filterMap_congr_mem _ _ _ hcr]
              simp [List.filterMap_cons, hru]
          · have hstep : fetchLoop (r :: rest) cmap finalT toFetch
                = fetchLoop rest (hmRemove r.href cmap).2 finalT (toFetch ++ [r.href]) := by
              simp only [fetchLoop]
              rw [if_pos hics]
              simp only [hmRemove_fst, hfind, hetag]
              rw [if_neg hmatch]
            have hw : wantFetch cmap r = true := by
              simp only [wantFetch, hics, hfind, hetag]
              simp [hmatch]
            have hru : reuseOf cmap r = none := by
              simp [reuseOf, hics, hfind, hetag, hmatch]
            obtain ⟨h2, h1⟩ := ih (hmRemove r.href cmap).2 finalT (toFetch ++ [r.href]) hrest
            rw [hstep]
            constructor
            · rw [h2, List.filter_congr hcf]
              simp [List.filter_cons, hw]
            · rw [h1, filterMap_congr_mem _ _ _ hcr]
              simp [List.filterMap_cons, hru]
    · have hstep : fetchLoop (r :: rest) cmap finalT toFetch
          = fetchLoop rest cmap finalT toFetch := by
        simp only [fetchLoop]
        rw [if_neg hics]
      have hw : wantFetch cmap r = false := by
        simp [wantFetch, hics]
      have hru : reuseOf cmap r = none := by
        simp [reuseOf, hics]
      obtain ⟨h2, h1⟩ := ih cmap finalT toFetch hrest
      rw [hstep]
      constructor
      · rw [h2]
        simp [List.filter_cons, hw]
      · rw [h1]
        simp [List.filterMap_cons, hru]

theorem wantFetch_iff (cached : List Task) (hnd : (cached.map Task.href).Nodup)
    (r : ListedResource) :
    wantFetch (cacheMapOf cached) r = true ↔
      endsIcs r.href = true ∧
        ¬ ∃ t ∈ cached, t.href = r.href ∧ r.etag = some t.etag ∧ t.etag ≠ "" := by
  unfold wantFetch
  rw [hmFind_cacheMapOf]
  rcases hlw : lastWith r.href cached with _ | t0
  · have hno : ∀ t ∈ cached, t.href ≠ r.href := by
      intro t ht hh
      rw [(lastWith_iff cached hnd r.href t).mpr ⟨ht, hh⟩] at hlw
      cases hlw
    rcases hE : r.etag with _ | re
    · simp
    · constructor
      · intro hb
        rw [Bool.and_eq_true] at hb
        refine ⟨hb.1, ?_⟩
        rintro ⟨t, ht, hh, _, _⟩
        exact hno t ht hh
      · rintro ⟨h1, _⟩
        rw [Bool.and_eq_true]
        exact ⟨h1, rfl⟩
  · obtain ⟨ht0mem, ht0href⟩ := (lastWith_iff cached hnd r.href t0).mp hlw
    rcases hE : r.etag with _ | re
    · simp
    · have hiff : (∃ t ∈ cached, t.href = r.href ∧
          (some re : Option String) = some t.etag ∧ t.etag ≠ "") ↔
          (re = t0.etag ∧ re ≠ "") := by
        constructor
        · rintro ⟨t, ht, hh, he, hne⟩
          have hlw2 : lastWith r.href cached = some t :=
            (lastWith_iff cached hnd r.href t).mpr ⟨ht, hh⟩
          rw [hlw] at hlw2
          have heq : t0 = t := by injection hlw2
          subst heq
          have hre : re = t0.etag := by injection he
          exact ⟨hre, by rw [hre]; exact hne⟩
        · rintro ⟨h1, h2⟩
          refine ⟨t0, ht0mem, ht0href, by rw [h1], by rw [← h1]; exact h2⟩
      rw [hiff]
      dsimp only
      constructor
      · intro hb
        rw [Bool.and_eq_true] at hb
        refine ⟨hb.1, ?_⟩
        rintro ⟨h1, h2⟩
        have hd : decide (re ≠ "" ∧ re = t0.etag) = true := decide_eq_true ⟨h2, h1⟩
        rw [hd] at hb
        simp at hb
      · rintro ⟨h1, h2⟩
        rw [Bool.and_eq_true]
        refine ⟨h1, ?_⟩
        have hd : decide (re ≠ "" ∧ re = t0.etag) = false := by
          simp only [decide_eq_false_iff_not]
          rintro ⟨ha, hbb⟩
          exact h2 ⟨hbb, ha⟩
        rw [hd]
        rfl

theorem reuseOf_iff (cached : List Task) (hnd : (cached.map Task.href).Nodup)
    (r : ListedResource) (t : Task) :
    reuseOf (cacheMapOf cached) r = some t ↔
      endsIcs r.href = true ∧ t ∈ cached ∧ t.href = r.href ∧
        r.etag = some t.etag ∧ t.etag ≠ "" := by
  unfold reuseOf
  rw [hmFind_cacheMapOf]
  by_cases hics : endsIcs r.href
  · rw [if_pos hics]
    rcases hlw : lastWith r.href cached with _ | t0
    · have hno : ∀ t2 ∈ cached, t2.href ≠ r.href := by
        intro t2 ht2 hh
        rw [(lastWith_iff cached hnd r.href t2).mpr ⟨ht2, hh⟩] at hlw
        cases hlw
      rcases hE : r.etag with _ | re
      · constructor
        · intro h; cases h
        · rintro ⟨_, hmem, hh, _, _⟩
          exact absurd hh (hno t hmem)
      · constructor
        · intro h; cases h
        · rintro ⟨_, hmem, hh, _, _⟩
          exact absurd hh (hno t hmem)
    · obtain ⟨ht0mem, ht0href⟩ := (lastWith_iff cached hnd r.href t0).mp hlw
      rcases hE : r.etag with _ | re
      · constructor
        · intro h; cases h
        · rintro ⟨_, _, _, he, _⟩
          cases he
      · dsimp only
        by_cases hm : re ≠ "" ∧ re = t0.etag
        · rw [if_pos hm]
          constructor
          · intro h
            have heq : t0 = t := by injection h
            subst heq
            exact ⟨hics, ht0mem, ht0href, by rw [hm.2], by rw [← hm.2]; exact hm.1⟩
          · rintro ⟨_, hmem, hh, _, _⟩
            have hlw2 : lastWith r.href cached = some t :=
              (lastWith_iff cached hnd r.href t).mpr ⟨hmem, hh⟩
            rw [hlw] at hlw2
            exact hlw2
        · rw [if_neg hm]
          constructor
          · intro h; cases h
          · rintro ⟨_, hmem, hh, he, hne⟩
            have hlw2 : lastWith r.href cached = some t :=
              (lastWith_iff cached hnd r.href t).mpr ⟨hmem, hh⟩
            rw [hlw] at hlw2
            have heq : t0 = t := by injection hlw2
            subst heq
            have hre : re = t0.etag := by injection he
            exact absurd ⟨by rw [hre]; exact hne, hre⟩ hm
  · rw [if_neg hics]
    constructor
    · intro h; cases h
    · rintro ⟨h1, _⟩
      exact absurd h1 hics

/-- **C5**: in `get_tasks`, under distinct listed hrefs and distinct cached
hrefs, a listed `.ics` resource is excluded from the multiget batch and
reused from the cache exactly when the cache holds a task with that href
whose etag equals a nonempty listed etag; every other listed `.ics` href —
differing or absent or empty remote etag, or no cache entry — is in the
multiget batch. -/
theorem c5_etag_delta (resources : List ListedResource) (cached : List Task)
    (hres : (resources.map ListedResource.href).Nodup)
    (hcache : (cached.map Task.href).Nodup) :
    (∀ h : String, h ∈ (getTasksPlan resources cached).2 ↔
      ∃ r ∈ resources, r.href = h ∧ endsIcs h = true ∧
        ¬ ∃ t ∈ cached, t.href = h ∧ r.etag = some t.etag ∧ t.etag ≠ "") ∧
    (∀ t : Task, t ∈ (getTasksPlan resources cached).1 ↔
      t ∈ cached ∧ ∃ r ∈ resources, r.href = t.href ∧ endsIcs t.href = true ∧
        r.etag = some t.etag ∧ t.etag ≠ "") := by
  obtain ⟨h2, h1⟩ := fetchLoop_spec resources (cacheMapOf cached) [] [] hres
  constructor
  · intro h
    rw [getTasksPlan, h2]
    simp only [List.nil_append, List.mem_map, List.mem_filter]
    constructor
    · rintro ⟨r, ⟨hrmem, hwf⟩, rfl⟩
      obtain ⟨hi, hn⟩ := (wantFetch_iff cached hcache r).mp hwf
      exact ⟨r, hrmem, rfl, hi, hn⟩
    · rintro ⟨r, hrmem, rfl, hi, hn⟩
      exact ⟨r, ⟨hrmem, (wantFetch_iff cached hcache r).mpr ⟨hi, hn⟩⟩, rfl⟩
  · intro t
    rw [getTasksPlan, h1]
    simp only [List.nil_append, List.mem_filterMap]
    constructor
    · rintro ⟨r, hrmem, hro⟩
      obtain ⟨hi, hmem, hh, he, hne⟩ := (reuseOf_iff cached hcache r t).mp hro
      exact ⟨hmem, r, hrmem, hh.symm, by rw [hh]; exact hi, he, hne⟩
    · rintro ⟨hmem, r, hrmem, hh, hi, he, hne⟩
      exact ⟨r, hrmem,
        (reuseOf_iff cached hcache r t).mpr ⟨by rw [hh]; exact hi, hmem, hh.symm, he, hne⟩⟩

/-- Cached tasks for the C5 witness. -/
def taskAW : Task := { Task.blank "a" with href := "/cal/a.ics", etag := "E1" }

def taskBW : Task := { Task.blank "b" with href := "/cal/b.ics", etag := "E-old" }

/-- Witness for C5: an unchanged etag is reused with no fetch, a changed etag
is fetched. -/
theorem c5_etag_delta_witness :
    ("/cal/b.ics" ∈ (getTasksPlan
        [⟨"/cal/a.ics", some "E1"⟩, ⟨"/cal/b.ics", some "E2"⟩]
        [taskAW, taskBW]).2) ∧
    ("/cal/a.ics" ∉ (getTasksPlan
        [⟨"/cal/a.ics", some "E1"⟩, ⟨"/cal/b.ics", some "E2"⟩]
        [taskAW, taskBW]).2) ∧
    (taskAW ∈ (getTasksPlan
        [⟨"/cal/a.ics", some "E1"⟩, ⟨"/cal/b.ics", some "E2"⟩]
        [taskAW, taskBW]).1) := by
  have h := c5_etag_delta
    [⟨"/cal/a.ics", some "E1"⟩, ⟨"/cal/b.ics", some "E2"⟩]
    [taskAW, taskBW] (by decide) (by decide)
  refine ⟨(h.1 _).mpr ?_, fun hmem => absurd ((h.1 _).mp hmem) ?_, (h.2 _).mpr ?_⟩
  · decide
  · decide
  · decide

/-! ### Recurrence respawn (`Task::respawn`, adapter.rs lines 32-66) -/

inductive RFreq
  | daily | weekly | monthly | yearly
  deriving DecidableEq, Repr

/-- Rust `str::strip_prefix` for a string needle. -/
def stripPfxL (pfx cs : Line) : Option Line :=
  if pfx.isPrefixOf cs then some (cs.drop pfx.length) else none

/-- Modelled from the `rrule` crate, for the rule shapes the program itself
emits (`FREQ=<F>` and `FREQ=<F>;INTERVAL=<n>`, parser.rs lines 68-107):
`RRuleSet::from_str` on other inputs, or with `INTERVAL=0`, fails, in which
case `respawn` returns `None`. -/
def parseRRuleStr (s : Line) : Option (RFreq × Nat) :=
  let parseFreq : Line → Option RFreq := fun f =>
    if f = "FREQ=DAILY".data then some .daily
    else if f = "FREQ=WEEKLY".data then some .weekly
    else if f = "FREQ=MONTHLY".data then some .monthly
    else if f = "FREQ=YEARLY".data then some .yearly
    else none
  match splitCh ';' s with
  | [f] => (parseFreq f).map (fun fr => (fr, 1))
  | [f, i] =>
    match parseFreq f, stripPfxL "INTERVAL=".data i with
    | some fr, some digits =>
      if digits ≠ [] ∧ digits.all isDigitCh ∧ 1 ≤ readNat digits 0 then
        some (fr, readNat digits 0)
      else none
    | _, _ => none
  | _ => none

/-- 1-based month arithmetic. -/
def addMonths (y m k : Nat) : Nat × Nat :=
  (y + (m - 1 + k) / 12, (m - 1 + k) % 12 + 1)

/-- Modelled from the `rrule` crate: the second element of
`rrule_set.all(2)` for a simple rule seeded at the task's seed date — the
seed itself is the first occurrence, the second comes one interval later,
monthly/yearly rules skipping interval multiples whose day-of-month does not
exist (candidate search bounded at 48 multiples). -/
def rruleSecond (fr : RFreq) (interval : Nat) (d : RDate) : Option RDate :=
  match fr with
  | .daily => some (addDays d interval)
  | .weekly => some (addDays d (7 * interval))
  | .monthly =>
    (List.range 48).findSome? (fun j =>
      let ym := addMonths d.y d.m ((j + 1) * interval)
      if validDate ⟨ym.1, ym.2, d.d⟩ then some ⟨ym.1, ym.2, d.d⟩ else none)
  | .yearly =>
    (List.range 48).findSome? (fun j =>
      if validDate ⟨d.y + (j + 1) * interval, d.m, d.d⟩ then
        some ⟨d.y + (j + 1) * interval, d.m, d.d⟩
      else none)

/-- `Task::respawn` (adapter.rs lines 32-66): seed from `dtstart` else
`due`; evaluate two occurrences of the rule; clone with fresh uid, cleared
href/etag, `NEEDS-ACTION` status, cleared dependencies; shift `dtstart` (when
present) to the next occurrence and `due` by the seed-to-next delta.
`freshUid` models `Uuid::new_v4()`. -/
def respawn (t : Task) (freshUid : String) : Option Task :=
  match t.rrule with
  | none => none
  | some ruleStr =>
    match (match t.dtstart with | some s => some s | none => t.due) with
    | none => none
    | some seed =>
      match parseRRuleStr ruleStr.data with
      | none => none
      | some (fr, interval) =>
        match rruleSecond fr interval seed.date with
        | none => none
        | some nextDate =>
          let nextStart : DT := ⟨nextDate, seed.hh, seed.mi, seed.ss⟩
          let base : Task :=
            { t with uid := freshUid, href := "", etag := "",
                     status := .needsAction, dependencies := [] }
          let withStart :=
            if t.dtstart.isSome then { base with dtstart := some nextStart } else base
          match t.due with
          | some oldDue =>
            some { withStart with due := some (secsToDt
              (((dtToSecs nextStart : Int)
                + ((dtToSecs oldDue : Int) - (dtToSecs seed : Int))).toNat)) }
          | none => some withStart

/-- The weekly task of the respawn scenario. -/
def t8 : Task :=
  { Task.blank "old-uid" with
      rrule := some "FREQ=WEEKLY"
      due := some ⟨⟨2024, 1, 1⟩, 23, 59, 59⟩
      dependencies := ["dep-1"]
      status := .completed
      href := "/cal/old.ics"
      etag := "E9" }

/-- **C8**: a recurring task with rrule `FREQ=WEEKLY`, no dtstart and
`due = 2024-01-01T23:59:59Z` respawns into `Some` of a task with
`due = 2024-01-08T23:59:59Z`, the freshly generated uid, empty href and
etag, status `NEEDS-ACTION`, and no dependencies (all other fields kept). -/
theorem c8_weekly_respawn (freshUid : String) :
    respawn t8 freshUid = some
      { t8 with
          uid := freshUid
          href := ""
          etag := ""
          status := .needsAction
          dependencies := []
          due := some ⟨⟨2024, 1, 8⟩, 23, 59, 59⟩ } := rfl

/-! ### Line-level string infrastructure for the iCalendar codec -/

/-- Join lines with CRLF (the line terminator the icalendar crate emits). -/
def joinLines : List Line → Line
  | [] => []
  | [l] => l
  | l :: rest => l ++ '\r' :: '\n' :: joinLines rest

/-- Split on CRLF or a bare LF (the line endings the icalendar crate's
parser accepts). -/
def splitLinesCL : Line → Line → List Line
  | [], acc => [acc.reverse]
  | '\r' :: '\n' :: rest, acc => acc.reverse :: splitLinesCL rest []
  | '\n' :: rest, acc => acc.reverse :: splitLinesCL rest []
  | c :: rest, acc => splitLinesCL rest (c :: acc)

/-- Modelled from the icalendar crate parser: unfold folded lines — a line
beginning with a space or tab continues the previous line. -/
def foldLines : List Line → List Line
  | [] => []
  | l :: rest =>
    match foldLines rest with
    | [] => [l]
    | l2 :: rest2 =>
      match l2 with
      | c :: l2tail =>
        if c = ' ' ∨ c = '\t' then (l ++ l2tail) :: rest2 else l :: (c :: l2tail) :: rest2
      | [] => l :: [] :: rest2

/-- Rust `str::lines`: split at LF, strip one trailing CR per line, no final
empty line when the text ends with a terminator. -/
def rustLines (cs : Line) : List Line :=
  let parts := splitCh '\n' cs
  let parts2 := if parts.getLast? = some [] then parts.dropLast else parts
  parts2.map (fun l => if l.getLast? = some '\r' then l.dropLast else l)

/-- Single-character intercalation (`Vec::join` with a one-character
separator). -/
def joinSep (sep : Char) : List Line → Line
  | [] => []
  | [x] => x
  | x :: rest => x ++ sep :: joinSep sep rest

/-- Insert `ins` immediately before the last occurrence of the line
`needle`; unchanged when `needle` does not occur (the `rfind`-and-splice
pattern of `to_ics`, faithful at line granularity because the spliced
needles `END:VTODO` / `END:VCALENDAR` occur last as whole lines). -/
def insertBeforeLastAux (ins : List Line) (needle : Line) :
    List Line → Option (List Line)
  | [] => none
  | l :: rest =>
    match insertBeforeLastAux ins needle rest with
    | some rest2 => some (l :: rest2)
    | none => if l = needle then some (ins ++ l :: rest) else none

def insertBeforeLast (ins : List Line) (needle : Line) (ls : List Line) : List Line :=
  (insertBeforeLastAux ins needle ls).getD ls

/-! ### Byte-lexicographic string order, Rust `sort` and `dedup` -/

theorem charToNat_inj {a b : Char} (h : a.toNat = b.toNat) : a = b :=
  Char.ext (UInt32.ext h)

/-- Lexicographic comparison on scalar values; agrees with Rust's byte-wise
`Ord` on `String` because UTF-8 preserves scalar order. -/
def lexLe : Line → Line → Bool
  | [], _ => true
  | _ :: _, [] => false
  | a :: as2, b :: bs =>
    if a.toNat < b.toNat then true
    else if b.toNat < a.toNat then false
    else lexLe as2 bs

def strLe (a b : String) : Bool := lexLe a.data b.data

theorem lexLe_total (a b : Line) : lexLe a b = true ∨ lexLe b a = true := by
  induction a generalizing b with
  | nil => left; rfl
  | cons c as2 ih =>
    cases b with
    | nil => right; rfl
    | cons d bs =>
      by_cases h1 : c.toNat < d.toNat
      · left; simp [lexLe, h1]
      · by_cases h2 : d.toNat < c.toNat
        · right; simp [lexLe, h1, h2]
        · rcases ih bs with h | h
          · left; simp [lexLe, h1, h2, h]
          · right; simp [lexLe, h1, h2, h]

theorem lexLe_trans {a b c : Line} (h1 : lexLe a b = true) (h2 : lexLe b c = true) :
    lexLe a c = true := by
  induction a generalizing b c with
  | nil => rfl
  | cons x as2 ih =>
    cases b with
    | nil => exact absurd h1 (by simp [lexLe])
    | cons y bs =>
      cases c with
      | nil => exact absurd h2 (by simp [lexLe])
      | cons z cs =>
        have hxy2 : ¬ y.toNat < x.toNat := by
          intro hc
          simp [lexLe, show ¬ x.toNat < y.toNat by omega, hc] at h1
        have hyz2 : ¬ z.toNat < y.toNat := by
          intro hc
          simp [lexLe, show ¬ y.toNat < z.toNat by omega, hc] at h2
        by_cases hxz : x.toNat < z.toNat
        · simp [lexLe, hxz]
        · have hxey : x.toNat = y.toNat := by omega
          have hyez : y.toNat = z.toNat := by omega
          have h1a : lexLe as2 bs = true := by
            simpa [lexLe, show ¬ x.toNat < y.toNat by omega,
              show ¬ y.toNat < x.toNat by omega] using h1
          have h2a : lexLe bs cs = true := by
            simpa [lexLe, show ¬ y.toNat < z.toNat by omega,
              show ¬ z.toNat < y.toNat by omega] using h2
          simpa [lexLe, hxz, show ¬ z.toNat < x.toNat by omega] using ih h1a h2a

theorem lexLe_antisymm {a b : Line} (h1 : lexLe a b = true) (h2 : lexLe b a = true) :
    a = b := by
  induction a generalizing b with
  | nil =>
    cases b with
    | nil => rfl
    | cons y bs => exact absurd h2 (by simp [lexLe])
  | cons x as2 ih =>
    cases b with
    | nil => exact absurd h1 (by simp [lexLe])
    | cons y bs =>
      have hxy2 : ¬ y.toNat < x.toNat := by
        intro hc
        simp [lexLe, show ¬ x.toNat < y.toNat by omega, hc] at h1
      have hyx2 : ¬ x.toNat < y.toNat := by
        intro hc
        simp [lexLe, show ¬ y.toNat < x.toNat by omega, hc] at h2
      have hxe : x = y := charToNat_inj (by omega)
      subst hxe
      have h1a : lexLe as2 bs = true := by
        simpa [lexLe] using h1
      have h2a : lexLe bs as2 = true := by
        simpa [lexLe] using h2
      rw [ih h1a h2a]

theorem stringData_inj {a b : String} (h : a.data = b.data) : a = b := by
  cases a
  cases b
  exact congrArg String.mk h

theorem strLe_total (a b : String) : strLe a b = true ∨ strLe b a = true :=
  lexLe_total a.data b.data

theorem strLe_trans {a b c : String} (h1 : strLe a b = true) (h2 : strLe b c = true) :
    strLe a c = true := lexLe_trans h1 h2

theorem strLe_antisymm {a b : String} (h1 : strLe a b = true) (h2 : strLe b a = true) :
    a = b := stringData_inj (lexLe_antisymm h1 h2)

/-- Insertion of one element into a sorted list. With `strLe`, `insSort`
below computes the unique `≤`-sorted permutation, which is also the value of
Rust's stable `Vec::sort` (String order is total and antisymmetric, so equal
elements are identical and stability is unobservable). -/
def insLe (x : String) : List String → List String
  | [] => [x]
  | y :: rest => if strLe x y then x :: y :: rest else y :: insLe x rest

def insSort : List String → List String
  | [] => []
  | x :: rest => insLe x (insSort rest)

theorem mem_insLe (x : String) (l : List String) (b : String) :
    b ∈ insLe x l ↔ b = x ∨ b ∈ l := by
  induction l with
  | nil => simp [insLe]
  | cons y rest ih =>
    by_cases h : strLe x y
    · simp [insLe, h]
    · simp [insLe, h, ih]
      tauto

theorem pairwise_insLe (x : String) (l : List String)
    (h : l.Pairwise (fun a b => strLe a b = true)) :
    (insLe x l).Pairwise (fun a b => strLe a b = true) := by
  induction l with
  | nil => simp [insLe]
  | cons y rest ih =>
    rcases List.pairwise_cons.mp h with ⟨hy, hrest⟩
    by_cases hle : strLe x y
    · rw [insLe, if_pos hle]
      refine List.pairwise_cons.mpr ⟨?_, h⟩
      intro b hb
      rcases List.mem_cons.mp hb with rfl | hb2
      · exact hle
      · exact strLe_trans hle (hy b hb2)
    · rw [insLe, if_neg hle]
      refine List.pairwise_cons.mpr ⟨?_, ih hrest⟩
      intro b hb
      rcases (mem_insLe x rest b).mp hb with rfl | hb2
      · rcases strLe_total b y with h | h
        · exact absurd h hle
        · exact h
      · exact hy b hb2

theorem pairwise_insSort (l : List String) :
    (insSort l).Pairwise (fun a b => strLe a b = true) := by
  induction l with
  | nil => simp [insSort]
  | cons x rest ih => exact pairwise_insLe x (insSort rest) ih

/-- Rust `Vec::dedup`: collapse runs of consecutive equal elements. -/
def dedupAdj : List String → List String
  | [] => []
  | [x] => [x]
  | x :: y :: rest => if x = y then dedupAdj (y :: rest) else x :: dedupAdj (y :: rest)

theorem dedupAdj_subset (l : List String) : ∀ b ∈ dedupAdj l, b ∈ l := by
  induction l using dedupAdj.induct with
  | case1 => simp [dedupAdj]
  | case2 x => simp [dedupAdj]
  | case3 y rest ih =>
    intro b hb
    rw [dedupAdj, if_pos rfl] at hb
    exact List.mem_cons_of_mem y (ih b hb)
  | case4 x y rest hne ih =>
    intro b hb
    rw [dedupAdj, if_neg hne] at hb
    rcases List.mem_cons.mp hb with rfl | hb2
    · exact List.mem_cons_self _ _
    · exact List.mem_cons_of_mem x (ih b hb2)

theorem pairwise_lt_dedupAdj (l : List String)
    (h : l.Pairwise (fun a b => strLe a b = true)) :
    (dedupAdj l).Pairwise (fun a b => strLe a b = true ∧ a ≠ b) := by
  induction l using dedupAdj.induct with
  | case1 => simp [dedupAdj]
  | case2 x => simp [dedupAdj]
  | case3 y rest ih =>
    rw [dedupAdj, if_pos rfl]
    exact ih (List.pairwise_cons.mp h).2
  | case4 x y rest hne ih =>
    rw [dedupAdj, if_neg hne]
    rcases List.pairwise_cons.mp h with ⟨hx, htail⟩
    refine List.pairwise_cons.mpr ⟨?_, ih htail⟩
    intro b hb
    have hbmem : b ∈ y :: rest := dedupAdj_subset _ b hb
    have hxb : strLe x b = true := hx b hbmem
    refine ⟨hxb, ?_⟩
    rintro rfl
    rcases List.mem_cons.mp hbmem with rfl | hb2
    · exact hne rfl
    · have hyb : strLe y x = true := (List.pairwise_cons.mp htail).1 x hb2
      have hxy : strLe x y = true := hx y (by simp)
      exact hne (strLe_antisymm hxy hyb)

theorem sortedDedup_facts (l : List String) :
    (dedupAdj (insSort l)).Pairwise (fun a b => strLe a b = true) ∧
    (dedupAdj (insSort l)).Nodup := by
  have hp := pairwise_lt_dedupAdj (insSort l) (pairwise_insSort l)
  constructor
  · exact hp.imp (fun h => h.1)
  · exact hp.imp (fun h => h.2)

/-! ### The iCalendar codec (`src/model/adapter.rs`)

The external icalendar crate is modelled as a symmetric line-oriented
codec: serialization emits one property per CRLF-terminated line and the
parser splits lines, unfolds continuations and groups `BEGIN`/`END`
blocks. The crate's folding of long output lines and its unfolding on parse
are mutually inverse and are elided; property values travel verbatim in
both directions. -/

def statusValue : TaskStatus → Line
  | .needsAction => "NEEDS-ACTION".data
  | .inProcess => "IN-PROCESS".data
  | .completed => "COMPLETED".data
  | .cancelled => "CANCELLED".data

def statusLine (s : TaskStatus) : Line := "STATUS:".data ++ statusValue s

/-- `format_iso_duration` (adapter.rs lines 84-92). -/
def fmtIsoDuration (mins : Nat) : Line :=
  if mins % 1440 = 0 then "P".data ++ natChars (mins / 1440) ++ "D".data
  else if mins % 60 = 0 then "PT".data ++ natChars (mins / 60) ++ "H".data
  else "PT".data ++ natChars mins ++ "M".data

/-- Serialization of one preserved property with its parameters
(`KEY;P1=V1;…:value`). -/
def rawPropLine (rp : RawProperty) : Line :=
  rp.key.data
    ++ (rp.params.flatMap (fun q => ';' :: q.1.data ++ '=' :: q.2.data))
    ++ ':' :: rp.value.data

/-- `CATEGORIES` value: tags with commas escaped `\,`, comma-joined
(adapter.rs lines 144-150). -/
def catLineValue (cats : List String) : Line :=
  joinSep ',' (cats.map (fun c => replAll ',' [] ['\\', ','] c.data))

/-- `Task::to_ics` (adapter.rs lines 68-178) at line granularity: the
icalendar-crate VCALENDAR/VTODO skeleton with the adapter's properties, then
the manual `CATEGORIES` splice before the final `END:VTODO` and the raw
component splice before `END:VCALENDAR` (after `trim_end`, which removes the
trailing blank line). `now` is the `Utc::now()` drawn for `DTSTAMP`. -/
def descLines (t : Task) : List Line :=
  if t.description = "" then [] else ["DESCRIPTION:".data ++ t.description.data]

def dtstartLines (t : Task) : List Line :=
  match t.dtstart with
  | some d => ["DTSTART:".data ++ fmtDTZ d]
  | none => []

def dueLines (t : Task) : List Line :=
  match t.due with
  | some d =>
    ["DUE:".data ++ fmtDTZ d]
    ++ (match t.estimated_duration with
        | some m => ["X-ESTIMATED-DURATION:".data ++ fmtIsoDuration m]
        | none => [])
  | none =>
    (match t.estimated_duration with
     | some m => ["DURATION:".data ++ fmtIsoDuration m]
     | none => [])

def priLines (t : Task) : List Line :=
  if t.priority > 0 then ["PRIORITY:".data ++ natChars t.priority] else []

def rrLines (t : Task) : List Line :=
  match t.rrule with
  | some r => ["RRULE:".data ++ r.data]
  | none => []

def parentLines (t : Task) : List Line :=
  match t.parent_uid with
  | some p => ["RELATED-TO:".data ++ p.data]
  | none => []

def depLines (t : Task) : List Line :=
  t.dependencies.map (fun d => "RELATED-TO;RELTYPE=DEPENDS-ON:".data ++ d.data)

def unmappedLines (t : Task) : List Line := t.unmapped_properties.map rawPropLine

/-- The content lines of the serialized VTODO, in the order `to_ics` adds its
properties (adapter.rs lines 69-136). -/
def todoProps (t : Task) (now : DT) : List Line :=
  ["UID:".data ++ t.uid.data, "SUMMARY:".data ++ t.summary.data]
  ++ descLines t
  ++ ["DTSTAMP:".data ++ fmtDTZ now, statusLine t.status]
  ++ dtstartLines t
  ++ dueLines t
  ++ priLines t
  ++ rrLines t
  ++ parentLines t
  ++ depLines t
  ++ unmappedLines t

/-- `Task::to_ics` (adapter.rs lines 68-178) at line granularity: the
icalendar-crate VCALENDAR/VTODO skeleton with the adapter's properties, then
the manual `CATEGORIES` splice before the final `END:VTODO` and the raw
component splice before `END:VCALENDAR` (after `trim_end`, which removes the
trailing blank line). `now` is the `Utc::now()` drawn for `DTSTAMP`. -/
def toIcsLines (t : Task) (now : DT) : List Line :=
  let base :=
    ["BEGIN:VCALENDAR".data, "VERSION:2.0".data, "PRODID:ICALENDAR-RS".data,
     "CALSCALE:GREGORIAN".data, "BEGIN:VTODO".data]
    ++ todoProps t now
    ++ ["END:VTODO".data, "END:VCALENDAR".data, []]
  let withCats :=
    if t.categories.isEmpty then base
    else insertBeforeLast ["CATEGORIES:".data ++ catLineValue t.categories]
      ("END:VTODO".data) base
  if t.raw_components.isEmpty then withCats
  else
    let trimmed := if withCats.getLast? = some [] then withCats.dropLast else withCats
    insertBeforeLast (t.raw_components.flatMap (fun r => splitLinesCL r.data []))
      ("END:VCALENDAR".data) trimmed

def toIcs (t : Task) (now : DT) : String := String.mk (joinLines (toIcsLines t now))

/-! #### Parsing (`Task::from_ics`, adapter.rs lines 180-425) -/

/-- One parsed content line. -/
structure PropLine where
  key : Line
  params : List (Line × Line)
  value : Line
  deriving DecidableEq, Repr

def parsePropLine (l : Line) : Option PropLine :=
  match splitOnce ':' l with
  | none => none
  | some (keyPart, value) =>
    match splitCh ';' keyPart with
    | [] => none
    | k :: ps =>
      some ⟨k, ps.map (fun p =>
        match splitOnce '=' p with
        | some (a, b) => (a, b)
        | none => (p, [])), value⟩

/-- The keys the icalendar crate stores as multi-instance properties and the
adapter reads back through `multi_properties()`; single-instance keys go
through `properties()` with last-wins semantics. -/
def isMultiKey (k : Line) : Bool :=
  k = "CATEGORIES".data || k = "RELATED-TO".data || k = "ATTENDEE".data ||
    k = "COMMENT".data || k = "ATTACH".data

def getSingle (k : Line) (props : List PropLine) : Option PropLine :=
  if isMultiKey k then none else (props.filter (fun p => p.key = k)).getLast?

def getMulti (k : Line) (props : List PropLine) : List PropLine :=
  if isMultiKey k then props.filter (fun p => p.key = k) else []

/-- Group the unfolded lines of a VCALENDAR into its top-level components:
lines between `BEGIN:<name>` and the matching `END:<name>`, nested blocks
kept verbatim inside their enclosing component. Calendar-level property
lines (`VERSION`, `PRODID`, …) are dropped, as the adapter never reads
them. -/
def compScanAux : List Line → Option (Line × List Line) → Nat →
    List (Line × List Line) → List (Line × List Line)
  | [], _, _, acc => acc
  | l :: rest, none, _, acc =>
    (match stripPfxL "BEGIN:".data l with
     | some n =>
       if n = "VCALENDAR".data then compScanAux rest none 0 acc
       else compScanAux rest (some (n, [])) 0 acc
     | none => compScanAux rest none 0 acc)
  | l :: rest, some (name, inner), depth, acc =>
    (match stripPfxL "BEGIN:".data l with
     | some _ => compScanAux rest (some (name, inner ++ [l])) (depth + 1) acc
     | none =>
       match stripPfxL "END:".data l with
       | some n2 =>
         if depth = 0 then
           if n2 = name then compScanAux rest none 0 (acc ++ [(name, inner)])
           else compScanAux rest none 0 acc
         else compScanAux rest (some (name, inner ++ [l])) (depth - 1) acc
       | none => compScanAux rest (some (name, inner ++ [l])) depth acc)

/-- The content lines of a component that belong to the component itself
(skipping lines inside nested blocks). -/
def topProps : List Line → Nat → List Line
  | [], _ => []
  | l :: rest, depth =>
    match stripPfxL "BEGIN:".data l with
    | some _ => topProps rest (depth + 1)
    | none =>
      match stripPfxL "END:".data l with
      | some _ => topProps rest (depth - 1)
      | none => if depth = 0 then l :: topProps rest 0 else topProps rest depth

/-- The re-serialized text of a preserved sibling component (the adapter
stores `component.to_string()`). -/
def compText (name : Line) (inner : List Line) : String :=
  String.mk (joinLines (("BEGIN:".data ++ name) :: inner ++ ["END:".data ++ name]))

/-- Separate the master VTODO from preserved components (adapter.rs lines
190-213): the first VTODO without `RECURRENCE-ID` is the master; exception
VTODOs, further VTODOs, VEVENTs and venues are kept as raw text; other
component kinds are dropped (the `_ => {}` arm). -/
def splitComps (comps : List (Line × List Line)) :
    Option (List PropLine) × List String :=
  comps.foldl
    (fun acc comp =>
      let name := comp.1
      let inner := comp.2
      if name = "VTODO".data then
        let props := (topProps inner 0).filterMap parsePropLine
        if props.any (fun p => p.key = "RECURRENCE-ID".data) then
          (acc.1, acc.2 ++ [compText name inner])
        else
          match acc.1 with
          | none => (some props, acc.2)
          | some _ => (acc.1, acc.2 ++ [compText name inner])
      else if name = "VEVENT".data || name = "VVENUE".data then
        (acc.1, acc.2 ++ [compText name inner])
      else acc)
    (none, [])

def statusOfValue (v0 : Line) : TaskStatus :=
  let v := (trimAscii v0).map upperCh
  if v = "COMPLETED".data then .completed
  else if v = "IN-PROCESS".data then .inProcess
  else if v = "CANCELLED".data then .cancelled
  else .needsAction

def statusOfProps (props : List PropLine) : TaskStatus :=
  match getSingle "STATUS".data props with
  | some p => statusOfValue p.value
  | none => .needsAction

/-- The `parse_date_prop` closure (adapter.rs lines 242-260). -/
def parseDateProp (val : Line) : Option DT :=
  if val.length = 8 then (parseDate8 val).map (fun d => ⟨d, 0, 0, 0⟩)
  else parseDT14 val (val.getLast? = some 'Z')

/-- The `DUE` extraction (adapter.rs lines 262-272): date-only dues land on
23:59:59. -/
def dueOfProps (props : List PropLine) : Option DT :=
  match getSingle "DUE".data props with
  | some p =>
    if p.value.length = 8 then (parseDate8 p.value).map endOfDay
    else parseDateProp p.value
  | none => none

/-- The `parse_dur` closure (adapter.rs lines 284-314), with Rust release
`u32` wrap-around on the unit conversions; a buffer that fails the `u32`
parse contributes `unwrap_or(0)`. -/
def parseDurGo : Line → Nat → Line → Bool → Nat
  | [], minutes, _, _ => minutes
  | c :: rest, minutes, buf, inTime =>
    if c = 'T' then parseDurGo rest minutes buf true
    else if isDigitCh c then parseDurGo rest minutes (buf ++ [c]) inTime
    else if buf ≠ [] then
      let n := (rustParseUint u32Bound buf).getD 0
      let add : Nat :=
        match c with
        | 'D' => mulWrap (mulWrap n 24) 60
        | 'H' => if inTime then mulWrap n 60 else 0
        | 'M' => if inTime then n else 0
        | 'W' => mulWrap (mulWrap (mulWrap n 7) 24) 60
        | _ => 0
      parseDurGo rest ((minutes + add) % u32Bound) [] inTime
    else parseDurGo rest minutes buf inTime

def parseDurVal (val : Line) : Option Nat :=
  let m := parseDurGo val 0 [] false
  if 0 < m then some m else none

def estOfProps (props : List PropLine) : Option Nat :=
  match getSingle "X-ESTIMATED-DURATION".data props with
  | some p =>
    (match parseDurVal p.value with
     | some m => some m
     | none =>
       match getSingle "DURATION".data props with
       | some q => parseDurVal q.value
       | none => none)
  | none =>
    match getSingle "DURATION".data props with
    | some q => parseDurVal q.value
    | none => none

/-- The `CATEGORIES` extraction (adapter.rs lines 328-350): multi-instance
values then a single-instance fallback, each comma-split, trimmed,
non-empties kept; then `sort()` and `dedup()`. -/
def catsOfProps (props : List PropLine) : List String :=
  let vals := (getMulti "CATEGORIES".data props).map PropLine.value
    ++ (match getSingle "CATEGORIES".data props with
        | some p => [p.value]
        | none => [])
  let parts := vals.flatMap (fun v =>
    (((splitCh ',' v).map trimAscii).filter (fun seg => ¬ seg.isEmpty)).map
      (fun seg => String.mk seg))
  dedupAdj (insSort parts)

/-- The manual `RELATED-TO` scan over the unfolded raw text (adapter.rs
lines 352-371). -/
def relatedScan (raw : Line) : Option String × List String :=
  let u1 := replAll '\r' ['\n', ' '] [] raw
  let u2 := replAll '\n' [' '] [] u1
  (rustLines u2).foldl
    (fun acc line =>
      if ("RELATED-TO".data).isPrefixOf line then
        match splitOnce ':' line with
        | some (keyPart, value) =>
          let v := String.mk (trimAscii value)
          let keyUpper := keyPart.map upperCh
          if hasSub ("RELTYPE=DEPENDS-ON".data) keyUpper then
            if acc.2.contains v then acc else (acc.1, acc.2 ++ [v])
          else if ¬ hasSub ("RELTYPE=".data) keyUpper
              ∨ hasSub ("RELTYPE=PARENT".data) keyUpper then
            (some v, acc.2)
          else acc
        | none => acc
      else acc)
    (none, [])

def HANDLED_KEYS : List Line :=
  ["UID", "SUMMARY", "DESCRIPTION", "STATUS", "PRIORITY", "DUE", "DTSTART",
   "RRULE", "DURATION", "X-ESTIMATED-DURATION", "CATEGORIES", "RELATED-TO",
   "DTSTAMP", "CREATED", "LAST-MODIFIED", "SEQUENCE", "PRODID", "VERSION",
   "CALSCALE"].map String.data

def pairLe (p q : String × String) : Bool :=
  if p.1 = q.1 then strLe p.2 q.2 else strLe p.1 q.1

def insLePair (x : String × String) : List (String × String) → List (String × String)
  | [] => [x]
  | y :: rest => if pairLe x y then x :: y :: rest else y :: insLePair x rest

def insSortPair : List (String × String) → List (String × String)
  | [] => []
  | x :: rest => insLePair x (insSortPair rest)

def rawLe (a b : RawProperty) : Bool :=
  if a.key = b.key then strLe a.value b.value else strLe a.key b.key

def insLeRaw (x : RawProperty) : List RawProperty → List RawProperty
  | [] => [x]
  | y :: rest => if rawLe x y then x :: y :: rest else y :: insLeRaw x rest

def insSortRaw : List RawProperty → List RawProperty
  | [] => []
  | x :: rest => insLeRaw x (insSortRaw rest)

/-- The unmapped-property capture (adapter.rs lines 373-403): every property
whose key is not handled, parameters pair-sorted, the list sorted by key
then value. -/
def unmappedOf (props : List PropLine) : List RawProperty :=
  insSortRaw ((props.filter (fun p => ¬ HANDLED_KEYS.contains p.key)).map
    (fun p => ⟨String.mk p.key, String.mk p.value,
      insSortPair (p.params.map (fun q => (String.mk q.1, String.mk q.2)))⟩))

/-- `Task::from_ics` (adapter.rs lines 180-425). -/
def fromIcs (raw : String) (etag href calendar_href : String) : Except String Task :=
  let lines := foldLines (splitLinesCL raw.data [])
  let comps := compScanAux lines none 0 []
  let sep := splitComps comps
  match sep.1 with
  | none => Except.error "No Master VTODO found in ICS"
  | some props =>
    let rel := relatedScan raw.data
    Except.ok
      { uid := (match getSingle "UID".data props with
                | some p => String.mk p.value
                | none => "")
        summary := (match getSingle "SUMMARY".data props with
                    | some p => String.mk p.value
                    | none => "No Title")
        description := (match getSingle "DESCRIPTION".data props with
                        | some p => String.mk p.value
                        | none => "")
        status := statusOfProps props
        priority := (match getSingle "PRIORITY".data props with
                     | some p => (rustParseUint 256 p.value).getD 0
                     | none => 0)
        due := dueOfProps props
        dtstart := (match getSingle "DTSTART".data props with
                    | some p => parseDateProp p.value
                    | none => none)
        estimated_duration := estOfProps props
        rrule := (match getSingle "RRULE".data props with
                  | some p => some (String.mk p.value)
                  | none => none)
        categories := catsOfProps props
        parent_uid := rel.1
        dependencies := rel.2
        etag := etag
        href := href
        calendar_href := calendar_href
        depth := 0
        unmapped_properties := unmappedOf props
        raw_components := sep.2 }

/-! ### `get_tasks` end to end, and cache persistence (client.rs 217-284) -/

/-- One item of the multiget response (`fetched_resp.resources`): `content`
is `some (data, etag)` when the per-item fetch succeeded. -/
structure FetchedItem where
  href : String
  content : Option (String × String)
  deriving Repr

/-- `RustyClient::get_tasks` on the successful network path (client.rs lines
217-284), as a function of the PROPFIND listing, the cached task list and the
multiget response: the merged task list `final_tasks`, paired with the trace
of `Cache::save` calls the function performs. The source performs none —
after the reuse loop and the multiget merge it returns `Ok(final_tasks)`
directly (line 280) — so the trace is empty. (`Cache::load` at line 229 now
returns a `(Vec<Task>, sync token)` pair, so `for t in cached_tasks` over its
result does not even type-check against cache.rs; `cached` models the
intended task-list payload.) When the multiget batch is empty no multiget
request is made and only the reused tasks are returned. -/
def getTasks (calHref : String) (resources : List ListedResource)
    (cached : List Task) (fetched : List FetchedItem) :
    List Task × List (String × List Task) :=
  let plan := getTasksPlan resources cached
  let fetchedTasks := fetched.filterMap (fun item =>
    match item.content with
    | some dc =>
      match fromIcs dc.1 dc.2 item.href calHref with
      | .ok task => some task
      | .error _ => none
    | none => none)
  (plan.1 ++ (if plan.2.isEmpty then [] else fetchedTasks), [])

/-- C6: the claim (and spec step 6) says that after a successful network
`get_tasks` the merged task list is persisted back to the per-calendar task
cache file. The function performs no `Cache::save` call on any input — its
trace of cache writes is empty — so the merged list is never persisted. -/
theorem c6_get_tasks_never_persists (calHref : String)
    (resources : List ListedResource) (cached : List Task)
    (fetched : List FetchedItem) :
    (getTasks calHref resources cached fetched).2 = [] := rfl

/-! ### Claim C9: categories after parsing -/

/-- C9 counterexample: `apply_smart_input` does not sort the categories it
collects — `"x #b #a"` yields `["b", "a"]`, in insertion order, with `"b"`
not lexicographically at or below `"a"`. -/
theorem c9_parser_categories_unsorted :
    (Task.new "u" "x #b #a" (fun _ => none) ⟨2024, 1, 1⟩).categories = ["b", "a"] ∧
    strLe "b" "a" = false := by
  exact ⟨rfl, rfl⟩

/-- C9 (amended): after the smart-input parser the categories list is
deduplicated (but in insertion order, not sorted); after `from_ics` it is
both sorted lexicographically and deduplicated. -/
theorem c9_categories_amended :
    (∀ uid input al today, (Task.new uid input al today).categories.Nodup) ∧
    (∀ raw etag href cal t, fromIcs raw etag href cal = Except.ok t →
      t.categories.Pairwise (fun a b => strLe a b = true) ∧ t.categories.Nodup) := by
  constructor
  · intro uid input al today
    unfold Task.new applySmartInput
    exact goTokens_nodup al today _ _ _ _ List.nodup_nil
  · intro raw etag href cal t h
    revert h
    unfold fromIcs
    dsimp only
    split
    · intro h; exact absurd h (by simp)
    · intro h
      injection h with h2
      rw [← h2]
      exact sortedDedup_facts _

/-- A concrete unsorted-categories VTODO for the C9 witness. -/
def rawW9 : String :=
  String.mk (joinLines (["BEGIN:VCALENDAR", "BEGIN:VTODO", "UID:u",
    "CATEGORIES:b,a", "END:VTODO", "END:VCALENDAR", ""].map String.data))

def tW9 : Task :=
  { uid := "u", summary := "No Title", description := "",
    status := .needsAction, priority := 0, due := none, dtstart := none,
    estimated_duration := none, rrule := none, categories := ["a", "b"],
    parent_uid := none, dependencies := [], etag := "e", href := "h",
    calendar_href := "c", depth := 0, unmapped_properties := [],
    raw_components := [] }

theorem c9_categories_amended_witness :
    (Task.new "w" "go #dup #dup" (fun _ => none) ⟨2024, 1, 1⟩).categories.Nodup ∧
    (tW9.categories.Pairwise (fun a b => strLe a b = true) ∧ tW9.categories.Nodup) := by
  have hok : fromIcs rawW9 "e" "h" "c" = Except.ok tW9 := by rfl
  exact ⟨c9_categories_amended.1 "w" "go #dup #dup" (fun _ => none) ⟨2024, 1, 1⟩,
    c9_categories_amended.2 rawW9 "e" "h" "c" tW9 hok⟩

/-! ### Character-class facts and parser-output bounds (round-trip groundwork) -/

/-- No carriage return or line feed: the property a value must have to live
on one iCalendar content line. -/
def lineOK (l : Line) : Prop := '\r' ∉ l ∧ '\n' ∉ l

instance instDecLineOK (l : Line) : Decidable (lineOK l) := by
  unfold lineOK; infer_instance

theorem lineOK_append {a b : Line} (ha : lineOK a) (hb : lineOK b) :
    lineOK (a ++ b) := by
  refine ⟨fun hm => ?_, fun hm => ?_⟩
  · rcases List.mem_append.1 hm with h | h
    exacts [ha.1 h, hb.1 h]
  · rcases List.mem_append.1 hm with h | h
    exacts [ha.2 h, hb.2 h]

theorem lineOK_cons {c : Char} {l : Line} (h1 : c ≠ '\r') (h2 : c ≠ '\n')
    (hl : lineOK l) : lineOK (c :: l) := by
  refine ⟨fun hm => ?_, fun hm => ?_⟩
  · rcases List.mem_cons.1 hm with h | h
    exacts [h1 h.symm, hl.1 h]
  · rcases List.mem_cons.1 hm with h | h
    exacts [h2 h.symm, hl.2 h]

theorem lineOK_of_forall {l : Line} (h : ∀ c ∈ l, c ≠ '\r' ∧ c ≠ '\n') :
    lineOK l :=
  ⟨fun hm => (h _ hm).1 rfl, fun hm => (h _ hm).2 rfl⟩

/-- A character of a digit-class string is not any character outside the
class (instantiated with `'\r'`, `'\n'`, `','`, `'+'`, `'T'`, …). -/
theorem isDigitCh_ne_of {c0 : Char} (hc0 : isDigitCh c0 = false) {c : Char}
    (h : isDigitCh c = true) : c ≠ c0 := fun he => by
  rw [he, hc0] at h
  exact Bool.noConfusion h

theorem lineOK_natChars (n : Nat) : lineOK (natChars n) :=
  lineOK_of_forall fun c hc =>
    ⟨isDigitCh_ne_of (by decide) (natChars_digits n c hc),
     isDigitCh_ne_of (by decide) (natChars_digits n c hc)⟩

theorem lineOK_of_noWs {w : Line} (h : ∀ c ∈ w, isWsCh c = false) : lineOK w :=
  lineOK_of_forall fun c hc => by
    have hc2 := h c hc
    exact ⟨fun he => by subst he; exact absurd hc2 (by decide),
           fun he => by subst he; exact absurd hc2 (by decide)⟩

theorem digitVal_le {c : Char} (h : isDigitCh c = true) : digitVal c ≤ 9 := by
  unfold isDigitCh at h
  simp only [Bool.and_eq_true, decide_eq_true_eq] at h
  have h2 : c.toNat ≤ 57 := h.2
  unfold digitVal
  omega

theorem readNat_lt (cs : Line) (hd : ∀ c ∈ cs, isDigitCh c = true) (a : Nat) :
    readNat cs a < (a + 1) * 10 ^ cs.length := by
  induction cs generalizing a with
  | nil => simpa [readNat] using Nat.lt_succ_self a
  | cons c rest ih =>
    have hdc : digitVal c ≤ 9 := digitVal_le (hd c (List.mem_cons_self c rest))
    have h2 := ih (fun x hx => hd x (List.mem_cons_of_mem _ hx)) (10 * a + digitVal c)
    simp only [readNat, List.length_cons, pow_succ]
    calc readNat rest (10 * a + digitVal c)
        < (10 * a + digitVal c + 1) * 10 ^ rest.length := h2
      _ ≤ ((a + 1) * 10) * 10 ^ rest.length :=
          Nat.mul_le_mul_right _ (by omega)
      _ = (a + 1) * (10 ^ rest.length * 10) := by ring

/-! ### Bounds the parser guarantees on the task it produces -/

theorem rustParseUint_lt {bound : Nat} {cs : Line} {v : Nat}
    (h : rustParseUint bound cs = some v) : v < bound := by
  unfold rustParseUint at h
  dsimp only at h
  repeat' split at h
  all_goals first
    | (injection h with h2; omega)
    | simp at h

theorem mulWrap_lt (a b : Nat) : mulWrap a b < u32Bound :=
  Nat.mod_lt _ (by decide)

theorem tildeMinutes_lt {s : Line} {m : Nat} (h : tildeMinutes s = some m) :
    m < u32Bound := by
  unfold tildeMinutes at h
  dsimp only at h
  repeat' split at h
  all_goals first
    | exact rustParseUint_lt h
    | (simp only [Option.map_eq_some'] at h
       obtain ⟨n, hn, he⟩ := h
       rw [← he]
       exact mulWrap_lt _ _)
    | simp at h

theorem durTokenVal_lt {w : Line} {m : Nat} (h : durTokenVal w = some m) :
    m < u32Bound := by
  unfold durTokenVal at h
  split at h
  · exact tildeMinutes_lt h
  · simp at h

theorem bangPriority_le {w : Line} {p : Nat} (h : bangPriority w = some p) :
    1 ≤ p ∧ p ≤ 9 := by
  unfold bangPriority at h
  split at h
  · split at h
    · split at h
      · rename_i hg
        injection h with h2
        rw [← h2]
        exact hg
      · simp at h
    · simp at h
  · simp at h

theorem parseDashDate_ok {cs : Line} {d : RDate} (h : parseDashDate cs = some d) :
    validDate d ∧ d.y ≤ 9999 := by
  have hdig : ∀ c ∈ cs.takeWhile isDigitCh, isDigitCh c = true :=
    fun c hc => List.mem_takeWhile_imp hc
  unfold parseDashDate at h
  dsimp only at h
  split at h
  · split at h
    · split at h
      · split at h
        · split at h
          · split at h
            · rename_i hv
              injection h with h2
              rw [← h2]
              have hA : 1 ≤ (cs.takeWhile isDigitCh).length ∧
                  (cs.takeWhile isDigitCh).length ≤ 4 := by assumption
              refine ⟨hv, ?_⟩
              show readNat (cs.takeWhile isDigitCh) 0 ≤ 9999
              have hy := readNat_lt (cs.takeWhile isDigitCh) hdig 0
              have hy2 : readNat (cs.takeWhile isDigitCh) 0 <
                  10 ^ (cs.takeWhile isDigitCh).length := by simpa using hy
              have hfin : readNat (cs.takeWhile isDigitCh) 0 < 10000 := by
                calc readNat (cs.takeWhile isDigitCh) 0
                    < 10 ^ (cs.takeWhile isDigitCh).length := hy2
                  _ ≤ 10 ^ 4 := Nat.pow_le_pow_right (by omega) hA.2
                  _ = 10000 := by norm_num
              omega
            · simp at h
          · simp at h
        · simp at h
      · simp at h
    · simp at h
  · simp at h

/-- `freqOfUnit` only ever yields one of five concrete strings. -/
theorem freqOfUnit_ok (u : Line) : lineOK (freqOfUnit u) := by
  unfold freqOfUnit
  repeat' split
  all_goals decide

theorem rruleBuilt_ok (u : Line) (n : Nat) :
    lineOK ("FREQ=".data ++ freqOfUnit u ++ ";INTERVAL=".data ++ natChars n) :=
  lineOK_append (lineOK_append (lineOK_append (by decide) (freqOfUnit_ok u))
    (by decide)) (lineOK_natChars n)

/-! ### The parser only produces round-trippable field values -/

theorem splitWsAux_good (cs : Line) (acc : Line)
    (hacc : ∀ c ∈ acc, isWsCh c = false) :
    ∀ w ∈ splitWsAux cs acc, ∀ c ∈ w, isWsCh c = false := by
  induction cs generalizing acc with
  | nil =>
    intro w hw
    unfold splitWsAux at hw
    split at hw
    · simp at hw
    · simp only [List.mem_singleton] at hw
      subst hw
      intro c hc
      exact hacc c (by simpa using hc)
  | cons c0 rest ih =>
    intro w hw
    unfold splitWsAux at hw
    split at hw
    · split at hw
      · exact ih [] (by simp) w hw
      · rcases List.mem_cons.1 hw with hcase | hcase
        · subst hcase
          intro c hc
          exact hacc c (by simpa using hc)
        · exact ih [] (by simp) w hcase
    · rename_i hws
      refine ih (c0 :: acc) ?_ w hw
      intro c hc
      rcases List.mem_cons.1 hc with hcase | hcase
      · subst hcase
        simpa using hws
      · exact hacc c hcase

theorem splitWs_good (l : Line) :
    ∀ w ∈ splitWs l, ∀ c ∈ w, isWsCh c = false :=
  splitWsAux_good l [] (by simp)

theorem joinWords_ok (ws : List Line)
    (h : ∀ w ∈ ws, ∀ c ∈ w, isWsCh c = false) : lineOK (joinWords ws) := by
  induction ws with
  | nil => exact ⟨by simp [joinWords], by simp [joinWords]⟩
  | cons w rest ih =>
    cases rest with
    | nil => exact lineOK_of_noWs (h w (List.mem_cons_self w []))
    | cons w2 rest2 =>
      show lineOK (w ++ ' ' :: joinWords (w2 :: rest2))
      refine lineOK_append (lineOK_of_noWs (h w (List.mem_cons_self _ _)))
        (lineOK_cons (by decide) (by decide)
          (ih fun x hx => h x (List.mem_cons_of_mem _ hx)))

/-- One parser step can only append the current token to the summary
residue. -/
theorem stepToken_ws (al : AliasMap) (today : RDate) (t : Task) (ws : List Line)
    (w : Line) (rest : List Line) :
    (stepToken al today t ws w rest).2.1 = ws ∨
      (stepToken al today t ws w rest).2.1 = ws ++ [w] := by
  unfold stepToken
  repeat' split
  all_goals (try dsimp only)
  all_goals (repeat' split)
  all_goals simp

theorem stepToken_pri2 (al : AliasMap) (today : RDate) (t : Task) (ws : List Line)
    (w : Line) (rest : List Line) :
    (stepToken al today t ws w rest).1.priority = t.priority ∨
      (stepToken al today t ws w rest).1.priority ≤ 9 := by
  cases hb : bangPriority w with
  | some p => refine Or.inr ?_; simp [stepToken, hb]; exact (bangPriority_le hb).2
  | none =>
  cases hdur : durTokenVal w with
  | some m => simp [stepToken, hb, hdur]
  | none =>
  cases hcat : catTokenVal w with
  | some cat => simp [stepToken, hb, hdur, hcat]
  | none =>
  by_cases h1 : w = "@daily".data
  · subst h1
    simp [stepToken, hb, hdur, hcat]
  by_cases h2 : w = "@weekly".data
  · subst h2
    simp [stepToken, hb, hdur, hcat, h1]
  by_cases h3 : w = "@monthly".data
  · subst h3
    simp [stepToken, hb, hdur, hcat, h1, h2]
  by_cases h4 : w = "@yearly".data
  · subst h4
    simp [stepToken, hb, hdur, hcat, h1, h2, h3]
  by_cases h5 : w = "@every".data
  · subst h5
    cases rest with
    | nil => simp [stepToken, hb, hdur, hcat, h1, h2, h3, h4]
    | cons n rest2 =>
      cases hint : rustParseUint u32Bound n with
      | none => simp [stepToken, hb, hdur, hcat, h1, h2, h3, h4, hint]
      | some interval =>
        cases rest2 with
        | nil => simp [stepToken, hb, hdur, hcat, h1, h2, h3, h4, hint]
        | cons unit rest3 =>
          by_cases hf : freqOfUnit (unit.map lowerCh) = []
          · simp [stepToken, hb, hdur, hcat, h1, h2, h3, h4, hint, hf]
          · simp [stepToken, hb, hdur, hcat, h1, h2, h3, h4, hint, hf]
  · cases w with
    | nil => simp [stepToken, hb, hdur, hcat, h1, h2, h3, h4, h5]
    | cons c val =>
      by_cases hat : c = '@'
      · subst hat
        cases hdate : parseDashDate val with
        | some date => simp [stepToken, hb, hdur, hcat, h1, h2, h3, h4, h5, hdate]
        | none =>
          by_cases ht1 : val = "today".data
          · subst ht1
            simp [stepToken, hb, hdur, hcat, h1, h2, h3, h4, h5, hdate]
          by_cases ht2 : val = "tomorrow".data
          · subst ht2
            simp [stepToken, hb, hdur, hcat, h1, h2, h3, h4, h5, hdate, ht1]
          by_cases ht3 : val = "next".data
          · subst ht3
            cases rest with
            | nil => simp [stepToken, hb, hdur, hcat, h1, h2, h3, h4, h5, hdate, ht1, ht2]
            | cons unit rest2 =>
              by_cases hoff : offsetOfUnit (unit.map lowerCh) > 0
              · simp [stepToken, hb, hdur, hcat, h1, h2, h3, h4, h5, hdate, ht1, ht2, hoff]
              · simp [stepToken, hb, hdur, hcat, h1, h2, h3, h4, h5, hdate, ht1, ht2, hoff]
          · simp [stepToken, hb, hdur, hcat, h1, h2, h3, h4, h5, hdate, ht1, ht2, ht3]
      · simp [stepToken, hb, hdur, hcat, h1, h2, h3, h4, h5, hat]

theorem stepToken_estD (al : AliasMap) (today : RDate) (t : Task) (ws : List Line)
    (w : Line) (rest : List Line) :
    (stepToken al today t ws w rest).1.estimated_duration = t.estimated_duration ∨
      ∃ m, durTokenVal w = some m ∧
        (stepToken al today t ws w rest).1.estimated_duration = some m := by
  cases hb : bangPriority w with
  | some p => simp [stepToken, hb]
  | none =>
  cases hdur : durTokenVal w with
  | some m => refine Or.inr ⟨m, rfl, ?_⟩; simp [stepToken, hb, hdur]
  | none =>
  cases hcat : catTokenVal w with
  | some cat => simp [stepToken, hb, hdur, hcat]
  | none =>
  by_cases h1 : w = "@daily".data
  · subst h1
    simp [stepToken, hb, hdur, hcat]
  by_cases h2 : w = "@weekly".data
  · subst h2
    simp [stepToken, hb, hdur, hcat, h1]
  by_cases h3 : w = "@monthly".data
  · subst h3
    simp [stepToken, hb, hdur, hcat, h1, h2]
  by_cases h4 : w = "@yearly".data
  · subst h4
    simp [stepToken, hb, hdur, hcat, h1, h2, h3]
  by_cases h5 : w = "@every".data
  · subst h5
    cases rest with
    | nil => simp [stepToken, hb, hdur, hcat, h1, h2, h3, h4]
    | cons n rest2 =>
      cases hint : rustParseUint u32Bound n with
      | none => simp [stepToken, hb, hdur, hcat, h1, h2, h3, h4, hint]
      | some interval =>
        cases rest2 with
        | nil => simp [stepToken, hb, hdur, hcat, h1, h2, h3, h4, hint]
        | cons unit rest3 =>
          by_cases hf : freqOfUnit (unit.map lowerCh) = []
          · simp [stepToken, hb, hdur, hcat, h1, h2, h3, h4, hint, hf]
          · simp [stepToken, hb, hdur, hcat, h1, h2, h3, h4, hint, hf]
  · cases w with
    | nil => simp [stepToken, hb, hdur, hcat, h1, h2, h3, h4, h5]
    | cons c val =>
      by_cases hat : c = '@'
      · subst hat
        cases hdate : parseDashDate val with
        | some date => simp [stepToken, hb, hdur, hcat, h1, h2, h3, h4, h5, hdate]
        | none =>
          by_cases ht1 : val = "today".data
          · subst ht1
            simp [stepToken, hb, hdur, hcat, h1, h2, h3, h4, h5, hdate]
          by_cases ht2 : val = "tomorrow".data
          · subst ht2
            simp [stepToken, hb, hdur, hcat, h1, h2, h3, h4, h5, hdate, ht1]
          by_cases ht3 : val = "next".data
          · subst ht3
            cases rest with
            | nil => simp [stepToken, hb, hdur, hcat, h1, h2, h3, h4, h5, hdate, ht1, ht2]
            | cons unit rest2 =>
              by_cases hoff : offsetOfUnit (unit.map lowerCh) > 0
              · simp [stepToken, hb, hdur, hcat, h1, h2, h3, h4, h5, hdate, ht1, ht2, hoff]
              · simp [stepToken, hb, hdur, hcat, h1, h2, h3, h4, h5, hdate, ht1, ht2, hoff]
          · simp [stepToken, hb, hdur, hcat, h1, h2, h3, h4, h5, hdate, ht1, ht2, ht3]
      · simp [stepToken, hb, hdur, hcat, h1, h2, h3, h4, h5, hat]

theorem stepToken_dueD (al : AliasMap) (today : RDate) (t : Task) (ws : List Line)
    (w : Line) (rest : List Line) :
    (stepToken al today t ws w rest).1.due = t.due ∨
      ∃ d, (stepToken al today t ws w rest).1.due = some (endOfDay d) ∧
        (validDate today → validDate d) := by
  cases hb : bangPriority w with
  | some p => simp [stepToken, hb]
  | none =>
  cases hdur : durTokenVal w with
  | some m => simp [stepToken, hb, hdur]
  | none =>
  cases hcat : catTokenVal w with
  | some cat => simp [stepToken, hb, hdur, hcat]
  | none =>
  by_cases h1 : w = "@daily".data
  · subst h1
    simp [stepToken, hb, hdur, hcat]
  by_cases h2 : w = "@weekly".data
  · subst h2
    simp [stepToken, hb, hdur, hcat, h1]
  by_cases h3 : w = "@monthly".data
  · subst h3
    simp [stepToken, hb, hdur, hcat, h1, h2]
  by_cases h4 : w = "@yearly".data
  · subst h4
    simp [stepToken, hb, hdur, hcat, h1, h2, h3]
  by_cases h5 : w = "@every".data
  · subst h5
    cases rest with
    | nil => simp [stepToken, hb, hdur, hcat, h1, h2, h3, h4]
    | cons n rest2 =>
      cases hint : rustParseUint u32Bound n with
      | none => simp [stepToken, hb, hdur, hcat, h1, h2, h3, h4, hint]
      | some interval =>
        cases rest2 with
        | nil => simp [stepToken, hb, hdur, hcat, h1, h2, h3, h4, hint]
        | cons unit rest3 =>
          by_cases hf : freqOfUnit (unit.map lowerCh) = []
          · simp [stepToken, hb, hdur, hcat, h1, h2, h3, h4, hint, hf]
          · simp [stepToken, hb, hdur, hcat, h1, h2, h3, h4, hint, hf]
  · cases w with
    | nil => simp [stepToken, hb, hdur, hcat, h1, h2, h3, h4, h5]
    | cons c val =>
      by_cases hat : c = '@'
      · subst hat
        cases hdate : parseDashDate val with
        | some date => refine Or.inr ⟨date, ?_, fun _ => (parseDashDate_ok hdate).1⟩; simp [stepToken, hb, hdur, hcat, h1, h2, h3, h4, h5, hdate]
        | none =>
          by_cases ht1 : val = "today".data
          · subst ht1
            refine Or.inr ⟨today, ?_, fun ht => ht⟩
            simp [stepToken, hb, hdur, hcat, h1, h2, h3, h4, h5, hdate]
          by_cases ht2 : val = "tomorrow".data
          · subst ht2
            refine Or.inr ⟨addDays today 1, ?_, fun ht => validDate_addDays ht 1⟩
            simp [stepToken, hb, hdur, hcat, h1, h2, h3, h4, h5, hdate, ht1]
          by_cases ht3 : val = "next".data
          · subst ht3
            cases rest with
            | nil => simp [stepToken, hb, hdur, hcat, h1, h2, h3, h4, h5, hdate, ht1, ht2]
            | cons unit rest2 =>
              by_cases hoff : offsetOfUnit (unit.map lowerCh) > 0
              · refine Or.inr ⟨addDays today (offsetOfUnit (unit.map lowerCh)), ?_, fun ht => validDate_addDays ht _⟩; simp [stepToken, hb, hdur, hcat, h1, h2, h3, h4, h5, hdate, ht1, ht2, hoff]
              · simp [stepToken, hb, hdur, hcat, h1, h2, h3, h4, h5, hdate, ht1, ht2, hoff]
          · simp [stepToken, hb, hdur, hcat, h1, h2, h3, h4, h5, hdate, ht1, ht2, ht3]
      · simp [stepToken, hb, hdur, hcat, h1, h2, h3, h4, h5, hat]

theorem stepToken_rrD (al : AliasMap) (today : RDate) (t : Task) (ws : List Line)
    (w : Line) (rest : List Line) :
    (stepToken al today t ws w rest).1.rrule = t.rrule ∨
      ∃ r, (stepToken al today t ws w rest).1.rrule = some r ∧ lineOK r.data := by
  cases hb : bangPriority w with
  | some p => simp [stepToken, hb]
  | none =>
  cases hdur : durTokenVal w with
  | some m => simp [stepToken, hb, hdur]
  | none =>
  cases hcat : catTokenVal w with
  | some cat => simp [stepToken, hb, hdur, hcat]
  | none =>
  by_cases h1 : w = "@daily".data
  · subst h1
    refine Or.inr ⟨"FREQ=DAILY", ?_, by decide⟩; simp [stepToken, hb, hdur, hcat]
  by_cases h2 : w = "@weekly".data
  · subst h2
    refine Or.inr ⟨"FREQ=WEEKLY", ?_, by decide⟩; simp [stepToken, hb, hdur, hcat, h1]
  by_cases h3 : w = "@monthly".data
  · subst h3
    refine Or.inr ⟨"FREQ=MONTHLY", ?_, by decide⟩; simp [stepToken, hb, hdur, hcat, h1, h2]
  by_cases h4 : w = "@yearly".data
  · subst h4
    refine Or.inr ⟨"FREQ=YEARLY", ?_, by decide⟩; simp [stepToken, hb, hdur, hcat, h1, h2, h3]
  by_cases h5 : w = "@every".data
  · subst h5
    cases rest with
    | nil => simp [stepToken, hb, hdur, hcat, h1, h2, h3, h4]
    | cons n rest2 =>
      cases hint : rustParseUint u32Bound n with
      | none => simp [stepToken, hb, hdur, hcat, h1, h2, h3, h4, hint]
      | some interval =>
        cases rest2 with
        | nil => simp [stepToken, hb, hdur, hcat, h1, h2, h3, h4, hint]
        | cons unit rest3 =>
          by_cases hf : freqOfUnit (unit.map lowerCh) = []
          · simp [stepToken, hb, hdur, hcat, h1, h2, h3, h4, hint, hf]
          · refine Or.inr ⟨String.mk ("FREQ=".data ++ freqOfUnit (unit.map lowerCh) ++ ";INTERVAL=".data ++ natChars interval), ?_, rruleBuilt_ok (unit.map lowerCh) interval⟩; simp [stepToken, hb, hdur, hcat, h1, h2, h3, h4, hint, hf]
  · cases w with
    | nil => simp [stepToken, hb, hdur, hcat, h1, h2, h3, h4, h5]
    | cons c val =>
      by_cases hat : c = '@'
      · subst hat
        cases hdate : parseDashDate val with
        | some date => simp [stepToken, hb, hdur, hcat, h1, h2, h3, h4, h5, hdate]
        | none =>
          by_cases ht1 : val = "today".data
          · subst ht1
            simp [stepToken, hb, hdur, hcat, h1, h2, h3, h4, h5, hdate]
          by_cases ht2 : val = "tomorrow".data
          · subst ht2
            simp [stepToken, hb, hdur, hcat, h1, h2, h3, h4, h5, hdate, ht1]
          by_cases ht3 : val = "next".data
          · subst ht3
            cases rest with
            | nil => simp [stepToken, hb, hdur, hcat, h1, h2, h3, h4, h5, hdate, ht1, ht2]
            | cons unit rest2 =>
              by_cases hoff : offsetOfUnit (unit.map lowerCh) > 0
              · simp [stepToken, hb, hdur, hcat, h1, h2, h3, h4, h5, hdate, ht1, ht2, hoff]
              · simp [stepToken, hb, hdur, hcat, h1, h2, h3, h4, h5, hdate, ht1, ht2, hoff]
          · simp [stepToken, hb, hdur, hcat, h1, h2, h3, h4, h5, hdate, ht1, ht2, ht3]
      · simp [stepToken, hb, hdur, hcat, h1, h2, h3, h4, h5, hat]

/-- The field bounds every parser-produced task satisfies (given a valid
`today`): priority in `0..=9`, estimated duration below 2^32, every due date
valid and at end of day, every rrule free of line breaks. -/
def tokOK (t : Task) : Prop :=
  t.priority ≤ 9 ∧
  (∀ m, t.estimated_duration = some m → m < u32Bound) ∧
  (∀ dt, t.due = some dt →
    validDate dt.date ∧ dt.hh = 23 ∧ dt.mi = 59 ∧ dt.ss = 59) ∧
  (∀ r, t.rrule = some r → lineOK r.data)

theorem stepToken_tokOK (al : AliasMap) (today : RDate) (t : Task) (ws : List Line)
    (w : Line) (rest : List Line) (h_today : validDate today) (h : tokOK t) :
    tokOK (stepToken al today t ws w rest).1 := by
  refine ⟨?_, ?_, ?_, ?_⟩
  · rcases stepToken_pri2 al today t ws w rest with he | he
    · rw [he]; exact h.1
    · exact he
  · rcases stepToken_estD al today t ws w rest with he | he
    · rw [he]; exact h.2.1
    · obtain ⟨m0, hd, he2⟩ := he
      intro m hm
      rw [he2] at hm
      injection hm with hm2
      rw [← hm2]
      exact durTokenVal_lt hd
  · rcases stepToken_dueD al today t ws w rest with he | he
    · rw [he]; exact h.2.2.1
    · obtain ⟨d0, he2, hv⟩ := he
      intro dt hdt
      rw [he2] at hdt
      injection hdt with hdt2
      rw [← hdt2]
      exact ⟨hv h_today, rfl, rfl, rfl⟩
  · rcases stepToken_rrD al today t ws w rest with he | he
    · rw [he]; exact h.2.2.2
    · obtain ⟨r0, he2, hok⟩ := he
      intro r hr
      rw [he2] at hr
      injection hr with hr2
      rw [← hr2]
      exact hok

theorem goTokens_good (al : AliasMap) (today : RDate) (h_today : validDate today)
    (fuel : Nat) (t : Task) (ws tokens : List Line) :
    tokOK t → (∀ x ∈ ws, ∀ c ∈ x, isWsCh c = false) →
    (∀ x ∈ tokens, ∀ c ∈ x, isWsCh c = false) →
    tokOK (goTokens al today fuel t ws tokens) ∧
      lineOK (goTokens al today fuel t ws tokens).summary.data := by
  induction fuel, t, ws, tokens using goTokens.induct al today with
  | case1 fuel t ws =>
    intro ht hws _
    rw [goTokens]
    exact ⟨ht, joinWords_ok ws hws⟩
  | case2 t ws w rest =>
    intro ht hws _
    rw [goTokens]
    exact ⟨ht, joinWords_ok ws hws⟩
  | case3 fuel t ws w rest ih =>
    intro ht hws htok
    rw [goTokens]
    refine ih (stepToken_tokOK al today t ws w rest h_today ht) ?_ ?_
    · rcases stepToken_ws al today t ws w rest with he | he
      · rw [he]; exact hws
      · rw [he]
        intro x hx
        rcases List.mem_append.1 hx with h1 | h1
        · exact hws x h1
        · rw [List.mem_singleton.1 h1]
          exact htok w (List.mem_cons_self w rest)
    · intro x hx
      exact htok x
        (List.mem_cons_of_mem _ ((stepToken_rest_sfx al today t ws w rest).subset hx))

/-- The parser task's recomputed fields are bounded, its summary holds no
line break, and its untouched fields are the blank task's. -/
theorem taskNew_good (uid input : String) (al : AliasMap) (today : RDate)
    (h_today : validDate today) :
    tokOK (Task.new uid input al today) ∧
      lineOK (Task.new uid input al today).summary.data := by
  unfold Task.new applySmartInput
  refine goTokens_good al today h_today _ _ _ _ ?_ ?_ ?_
  · refine ⟨Nat.zero_le 9, ?_, ?_, ?_⟩
    · exact fun m hm => nomatch hm
    · exact fun dt hdt => nomatch hdt
    · exact fun r hr => nomatch hr
  · intro x hx
    simp at hx
  · exact fun x hx => splitWs_good input.data x hx

theorem taskNew_frame (uid input : String) (al : AliasMap) (today : RDate) :
    frameAgree (Task.new uid input al today) (Task.blank uid) := by
  unfold Task.new applySmartInput
  exact frameAgree_trans
    (goTokens_frame al today (splitWs input.data).length
      {Task.blank uid with priority := 0, due := none, rrule := none, categories := []}
      [] (splitWs input.data))
    ⟨rfl, rfl, rfl, rfl, rfl, rfl, rfl, rfl, rfl, rfl, rfl, rfl⟩

/-! ### Format/parse inverse facts -/

theorem strMk_data (s : String) : String.mk s.data = s := rfl

theorem pad2_digits (n : Nat) : ∀ c ∈ pad2 n, isDigitCh c = true := by
  intro c hc
  rcases List.mem_cons.1 hc with h | h
  · rw [h]; exact isDigitCh_digitCh _
  · rcases List.mem_cons.1 h with h2 | h2
    · rw [h2]; exact isDigitCh_digitCh _
    · simp at h2

theorem pad4_digits (n : Nat) : ∀ c ∈ pad4 n, isDigitCh c = true := by
  intro c hc
  unfold pad4 at hc
  rcases List.mem_cons.1 hc with h | h
  · rw [h]; exact isDigitCh_digitCh _
  rcases List.mem_cons.1 h with h | h
  · rw [h]; exact isDigitCh_digitCh _
  rcases List.mem_cons.1 h with h | h
  · rw [h]; exact isDigitCh_digitCh _
  rcases List.mem_cons.1 h with h | h
  · rw [h]; exact isDigitCh_digitCh _
  · simp at h

theorem readNat_pad2 {n : Nat} (h : n ≤ 99) : readNat (pad2 n) 0 = n := by
  have h1 : n / 10 % 10 < 10 := Nat.mod_lt _ (by omega)
  have h2 : n % 10 < 10 := Nat.mod_lt _ (by omega)
  simp [pad2, readNat, digitVal_digitCh h1, digitVal_digitCh h2]
  omega

theorem readNat_pad4 {n : Nat} (h : n ≤ 9999) : readNat (pad4 n) 0 = n := by
  have h1 : n / 1000 % 10 < 10 := Nat.mod_lt _ (by omega)
  have h2 : n / 100 % 10 < 10 := Nat.mod_lt _ (by omega)
  have h3 : n / 10 % 10 < 10 := Nat.mod_lt _ (by omega)
  have h4 : n % 10 < 10 := Nat.mod_lt _ (by omega)
  simp [pad4, readNat, digitVal_digitCh h1, digitVal_digitCh h2,
    digitVal_digitCh h3, digitVal_digitCh h4]
  omega

theorem readFixed_append {k : Nat} {pre : Line} (tail : Line)
    (hlen : pre.length = k) (hdig : ∀ c ∈ pre, isDigitCh c = true) :
    readFixed k (pre ++ tail) = some (readNat pre 0, tail) := by
  subst hlen
  unfold readFixed
  dsimp only
  rw [List.take_left, List.drop_left]
  rw [if_pos ⟨rfl, List.all_eq_true.mpr hdig⟩]

theorem readFixed_pad4 {n : Nat} (h : n ≤ 9999) (tail : Line) :
    readFixed 4 (pad4 n ++ tail) = some (n, tail) := by
  rw [@readFixed_append 4 (pad4 n) tail rfl (pad4_digits n), readNat_pad4 h]

theorem readFixed_pad2 {n : Nat} (h : n ≤ 99) (tail : Line) :
    readFixed 2 (pad2 n ++ tail) = some (n, tail) := by
  rw [@readFixed_append 2 (pad2 n) tail rfl (pad2_digits n), readNat_pad2 h]

theorem daysInMonth_le31 (y m : Nat) : daysInMonth y m ≤ 31 := by
  unfold daysInMonth
  rcases m with _ | _ | _ | _ | _ | _ | _ | _ | _ | _ | _ | _ | _ | m
  all_goals try omega
  all_goals (rcases hL : isLeap y <;> simp [hL])

theorem parseDT14_fmtDTZ {dt : DT} (hv : validDate dt.date) (hy : dt.date.y ≤ 9999)
    (hh : dt.hh ≤ 23) (hmi : dt.mi ≤ 59) (hss : dt.ss ≤ 59) :
    parseDT14 (fmtDTZ dt) true = some dt := by
  obtain ⟨⟨y, mo, d⟩, h24, mi, ss⟩ := dt
  obtain ⟨hm1, hm2, hd1, hd2⟩ := hv
  simp only at hy hh hmi hss hm1 hm2 hd1 hd2
  have hshape : fmtDTZ ⟨⟨y, mo, d⟩, h24, mi, ss⟩ =
      pad4 y ++ (pad2 mo ++ (pad2 d ++
        ('T' :: (pad2 h24 ++ (pad2 mi ++ (pad2 ss ++ ['Z'])))))) := by
    simp [fmtDTZ, fmtDate8]
  rw [hshape]
  unfold parseDT14
  rw [readFixed_pad4 hy]
  simp only [Option.bind_eq_bind, Option.some_bind]
  rw [readFixed_pad2 (show mo ≤ 99 by omega)]
  simp only [Option.some_bind]
  rw [readFixed_pad2 (show d ≤ 99 by
    have := daysInMonth_le31 y mo; omega)]
  simp only [Option.some_bind]
  rw [readFixed_pad2 (show h24 ≤ 99 by omega)]
  simp only [Option.some_bind]
  rw [readFixed_pad2 (show mi ≤ 99 by omega)]
  simp only [Option.some_bind]
  rw [readFixed_pad2 (show ss ≤ 99 by omega)]
  simp only [Option.some_bind]
  simp only [eq_self_iff_true, if_true]
  try dsimp only
  rw [if_pos (show validDate ⟨y, mo, d⟩ ∧ h24 ≤ 23 ∧ mi ≤ 59 ∧ ss ≤ 59 from
    ⟨⟨hm1, hm2, hd1, hd2⟩, hh, hmi, hss⟩)]

theorem fmtDTZ_getLast (dt : DT) : (fmtDTZ dt).getLast? = some 'Z' := by
  unfold fmtDTZ
  rw [show fmtDate8 dt.date ++ ('T' :: (pad2 dt.hh ++ pad2 dt.mi ++ pad2 dt.ss)) ++ ['Z']
      = (fmtDate8 dt.date ++ ('T' :: (pad2 dt.hh ++ pad2 dt.mi ++ pad2 dt.ss))) ++ ['Z']
    from rfl]
  exact List.getLast?_concat _

theorem fmtDTZ_length (dt : DT) : (fmtDTZ dt).length = 16 := by
  simp [fmtDTZ, fmtDate8, pad4, pad2]

theorem parseDateProp_fmtDTZ {dt : DT} (hv : validDate dt.date)
    (hy : dt.date.y ≤ 9999) (hh : dt.hh ≤ 23) (hmi : dt.mi ≤ 59) (hss : dt.ss ≤ 59) :
    parseDateProp (fmtDTZ dt) = some dt := by
  unfold parseDateProp
  rw [if_neg (by rw [fmtDTZ_length]; omega)]
  rw [fmtDTZ_getLast]
  rw [show (decide (some 'Z' = some 'Z')) = true from by decide]
  exact parseDT14_fmtDTZ hv hy hh hmi hss

theorem natChars_ne_nil (n : Nat) : natChars n ≠ [] := by
  unfold natChars
  split
  · simp
  · rename_i h
    simp [Nat.digits_ne_nil_iff_ne_zero, h]

theorem rustParseUint_digits {bound : Nat} {cs : Line} (hne : cs ≠ [])
    (hdig : ∀ c ∈ cs, isDigitCh c = true) (hlt : readNat cs 0 < bound) :
    rustParseUint bound cs = some (readNat cs 0) := by
  rcases cs with _ | ⟨c, cs2⟩
  · exact absurd rfl hne
  · have hcd := hdig c (List.mem_cons_self c cs2)
    have hcp : c ≠ '+' := isDigitCh_ne_of (by decide) hcd
    unfold rustParseUint
    dsimp only
    rw [if_neg (show ¬ ((c :: cs2).head? = some '+') by simp [hcp])]
    rw [if_neg (by simp)]
    rw [if_pos (List.all_eq_true.mpr hdig)]
    rw [if_pos hlt]

theorem rustParseUint_natChars {bound n : Nat} (h : n < bound) :
    rustParseUint bound (natChars n) = some n := by
  have h2 := rustParseUint_digits (natChars_ne_nil n) (natChars_digits n)
    (by rw [readNat_natChars]; exact h)
  rw [h2, readNat_natChars]

theorem parseDurGo_digits (ds : Line) (hd : ∀ c ∈ ds, isDigitCh c = true)
    (l : Line) (minutes : Nat) (buf : Line) (inT : Bool) :
    parseDurGo (ds ++ l) minutes buf inT = parseDurGo l minutes (buf ++ ds) inT := by
  induction ds generalizing buf with
  | nil => simp
  | cons c rest ih =>
    have hcd := hd c (List.mem_cons_self _ _)
    have hct : c ≠ 'T' := isDigitCh_ne_of (by decide) hcd
    show parseDurGo (c :: (rest ++ l)) minutes buf inT = _
    rw [parseDurGo]
    rw [if_neg hct, if_pos hcd]
    rw [ih (fun x hx => hd x (List.mem_cons_of_mem _ hx)) (buf ++ [c])]
    simp

theorem statusOfValue_statusValue (s : TaskStatus) :
    statusOfValue (statusValue s) = s := by
  cases s <;> rfl

theorem parseDurGo_D {q : Nat} (hq : q < u32Bound) (minutes : Nat) (inT : Bool) :
    parseDurGo ['D'] minutes (natChars q) inT
      = (minutes + mulWrap (mulWrap q 24) 60) % u32Bound := by
  rw [parseDurGo]
  rw [if_neg (by decide), if_neg (by decide)]
  rw [if_pos (natChars_ne_nil q)]
  dsimp only
  rw [rustParseUint_natChars hq]
  rw [parseDurGo]
  simp

theorem parseDurGo_H {q : Nat} (hq : q < u32Bound) (minutes : Nat) :
    parseDurGo ['H'] minutes (natChars q) true
      = (minutes + mulWrap q 60) % u32Bound := by
  rw [parseDurGo]
  rw [if_neg (by decide), if_neg (by decide)]
  rw [if_pos (natChars_ne_nil q)]
  dsimp only
  rw [rustParseUint_natChars hq]
  rw [if_pos rfl]
  rw [parseDurGo]
  simp

theorem parseDurGo_M {q : Nat} (hq : q < u32Bound) (minutes : Nat) :
    parseDurGo ['M'] minutes (natChars q) true
      = (minutes + q) % u32Bound := by
  rw [parseDurGo]
  rw [if_neg (by decide), if_neg (by decide)]
  rw [if_pos (natChars_ne_nil q)]
  dsimp only
  rw [rustParseUint_natChars hq]
  rw [if_pos rfl]
  rw [parseDurGo]
  simp

theorem parseDurGo_skipP (rest : Line) (minutes : Nat) (inT : Bool) :
    parseDurGo ('P' :: rest) minutes [] inT = parseDurGo rest minutes [] inT := by
  rw [parseDurGo]
  rw [if_neg (by decide), if_neg (by decide), if_neg (by simp)]

theorem parseDurGo_stepT (rest : Line) (minutes : Nat) (buf : Line) :
    parseDurGo ('T' :: rest) minutes buf false = parseDurGo rest minutes buf true := by
  rw [parseDurGo]
  rw [if_pos rfl]

/-- The duration the adapter writes (`format_iso_duration`) parses back to the
same minute count for every positive `u32` value. -/
theorem parseDurVal_fmt {m : Nat} (h0 : 0 < m) (hlt : m < u32Bound) :
    parseDurVal (fmtIsoDuration m) = some m := by
  unfold fmtIsoDuration
  by_cases h1 : m % 1440 = 0
  · rw [if_pos h1]
    rw [show "P".data ++ natChars (m / 1440) ++ "D".data
        = 'P' :: (natChars (m / 1440) ++ ['D']) from by
      rw [show "P".data = ['P'] from rfl, show "D".data = ['D'] from rfl]; simp]
    unfold parseDurVal
    dsimp only
    rw [parseDurGo_skipP]
    rw [parseDurGo_digits (natChars (m / 1440)) (natChars_digits _) ['D'] 0 [] false]
    simp only [List.nil_append]
    rw [parseDurGo_D (show m / 1440 < u32Bound by
      have := Nat.div_le_self m 1440; omega) 0 false]
    rw [show (0 + mulWrap (mulWrap (m / 1440) 24) 60) % u32Bound = m from by
      simp only [mulWrap, u32Bound] at hlt ⊢; omega]
    rw [if_pos h0]
  · by_cases h2 : m % 60 = 0
    · rw [if_neg h1, if_pos h2]
      rw [show "PT".data ++ natChars (m / 60) ++ "H".data
          = 'P' :: 'T' :: (natChars (m / 60) ++ ['H']) from by
        rw [show "PT".data = ['P', 'T'] from rfl, show "H".data = ['H'] from rfl]; simp]
      unfold parseDurVal
      dsimp only
      rw [parseDurGo_skipP, parseDurGo_stepT]
      rw [parseDurGo_digits (natChars (m / 60)) (natChars_digits _) ['H'] 0 [] true]
      simp only [List.nil_append]
      rw [parseDurGo_H (show m / 60 < u32Bound by
        have := Nat.div_le_self m 60; omega) 0]
      rw [show (0 + mulWrap (m / 60) 60) % u32Bound = m from by
        simp only [mulWrap, u32Bound] at hlt ⊢; omega]
      rw [if_pos h0]
    · rw [if_neg h1, if_neg h2]
      rw [show "PT".data ++ natChars m ++ "M".data
          = 'P' :: 'T' :: (natChars m ++ ['M']) from by
        rw [show "PT".data = ['P', 'T'] from rfl, show "M".data = ['M'] from rfl]; simp]
      unfold parseDurVal
      dsimp only
      rw [parseDurGo_skipP, parseDurGo_stepT]
      rw [parseDurGo_digits (natChars m) (natChars_digits _) ['M'] 0 [] true]
      simp only [List.nil_append]
      rw [parseDurGo_M hlt 0]
      rw [show (0 + m) % u32Bound = m from by
        simp only [u32Bound] at hlt ⊢; omega]
      rw [if_pos h0]

/-! ### The serialized text splits back into its lines -/

theorem lineOK_tail {c : Char} {l : Line} (h : lineOK (c :: l)) : lineOK l :=
  ⟨fun hm => h.1 (List.mem_cons_of_mem _ hm), fun hm => h.2 (List.mem_cons_of_mem _ hm)⟩

theorem lineOK_head_cr {c : Char} {l : Line} (h : lineOK (c :: l)) : c ≠ '\r' :=
  fun he => by subst he; exact h.1 (List.mem_cons_self _ _)

theorem lineOK_head_nl {c : Char} {l : Line} (h : lineOK (c :: l)) : c ≠ '\n' :=
  fun he => by subst he; exact h.2 (List.mem_cons_self _ _)

theorem splitLinesCL_cons_ne {c : Char} (h1 : c ≠ '\r') (h2 : c ≠ '\n')
    (rest acc : Line) :
    splitLinesCL (c :: rest) acc = splitLinesCL rest (c :: acc) := by
  rw [splitLinesCL.eq_def]
  split
  · rename_i heq
    exact absurd heq (by simp)
  · rename_i heq
    injection heq with hi1 hi2
    exact absurd hi1 h1
  · rename_i heq
    injection heq with hi1 hi2
    exact absurd hi1 h2
  · rename_i hA hB heq
    injection heq with hi1 hi2
    subst hi1
    subst hi2
    rfl

theorem splitLinesCL_step {l : Line} (hl : lineOK l) (cs : Line) (acc : Line) :
    splitLinesCL (l ++ cs) acc = splitLinesCL cs (l.reverse ++ acc) := by
  induction l generalizing acc with
  | nil => simp
  | cons c rest ih =>
    show splitLinesCL (c :: (rest ++ cs)) acc = _
    rw [splitLinesCL_cons_ne (lineOK_head_cr hl) (lineOK_head_nl hl)]
    rw [ih (lineOK_tail hl) (c :: acc)]
    simp

theorem splitLinesCL_joinLines (L : List Line) (hL : ∀ l ∈ L, lineOK l)
    (hne : L ≠ []) : splitLinesCL (joinLines L) [] = L := by
  induction L with
  | nil => exact absurd rfl hne
  | cons l L2 ih =>
    cases L2 with
    | nil =>
      show splitLinesCL l [] = [l]
      rw [show l = l ++ [] from (List.append_nil l).symm,
        splitLinesCL_step (hL l (List.mem_cons_self _ _)) [] []]
      simp [splitLinesCL]
    | cons l2 rest =>
      show splitLinesCL (l ++ '\r' :: '\n' :: joinLines (l2 :: rest)) [] = _
      rw [splitLinesCL_step (hL l (List.mem_cons_self _ _))]
      rw [splitLinesCL]
      rw [ih (fun x hx => hL x (List.mem_cons_of_mem _ hx)) (by simp)]
      simp

/-! ### Unfolding leaves the lines unchanged (no continuation lines) -/

theorem foldLines_id (L : List Line)
    (h : ∀ l ∈ L, l.head? ≠ some ' ' ∧ l.head? ≠ some '\t') : foldLines L = L := by
  induction L with
  | nil => rfl
  | cons l rest ih =>
    rw [foldLines]
    rw [ih (fun x hx => h x (List.mem_cons_of_mem _ hx))]
    cases rest with
    | nil => rfl
    | cons l2 rest2 =>
      have h2 := h l2 (List.mem_cons_of_mem _ (List.mem_cons_self _ _))
      rcases l2 with _ | ⟨c, tail⟩
      · rfl
      · dsimp only
        rw [if_neg ?_]
        rintro (rfl | rfl)
        · exact h2.1 rfl
        · exact h2.2 rfl

/-! ### The component scan recovers the single VTODO -/

/-- A content line: not a `BEGIN:`/`END:` marker. -/
def notBE (l : Line) : Prop :=
  stripPfxL "BEGIN:".data l = none ∧ stripPfxL "END:".data l = none

theorem compScan_inner (inner : List Line) (hin : ∀ l ∈ inner, notBE l) :
    ∀ (rest : List Line) (name : Line) (inner0 : List Line)
      (acc : List (Line × List Line)),
    compScanAux (inner ++ rest) (some (name, inner0)) 0 acc
      = compScanAux rest (some (name, inner0 ++ inner)) 0 acc := by
  induction inner with
  | nil => intro rest name inner0 acc; simp
  | cons l inner2 ih =>
    intro rest name inner0 acc
    have hl := hin l (List.mem_cons_self _ _)
    show compScanAux (l :: (inner2 ++ rest)) _ 0 acc = _
    rw [compScanAux, hl.1]
    dsimp only
    rw [hl.2]
    dsimp only
    rw [ih (fun x hx => hin x (List.mem_cons_of_mem _ hx)) rest name (inner0 ++ [l]) acc]
    rw [show inner0 ++ [l] ++ inner2 = inner0 ++ l :: inner2 by simp]

theorem topProps_id (inner : List Line) (hin : ∀ l ∈ inner, notBE l) :
    topProps inner 0 = inner := by
  induction inner with
  | nil => rfl
  | cons l inner2 ih =>
    have hl := hin l (List.mem_cons_self _ _)
    rw [topProps, hl.1]
    dsimp only
    rw [hl.2]
    dsimp only
    rw [if_pos rfl, ih (fun x hx => hin x (List.mem_cons_of_mem _ hx))]

/-! ### Parsing one content line -/

theorem splitOnce_key {k : Line} (hk : ':' ∉ k) (v : Line) :
    splitOnce ':' (k ++ ':' :: v) = some (k, v) := by
  induction k with
  | nil => simp [splitOnce]
  | cons c rest ih =>
    show splitOnce ':' (c :: (rest ++ ':' :: v)) = _
    rw [splitOnce]
    rw [if_neg (fun he => hk (by rw [he]; exact List.mem_cons_self _ _))]
    rw [ih (fun hm => hk (List.mem_cons_of_mem _ hm))]
    rfl

theorem splitChAux_no_sep {sep : Char} : ∀ {cs : Line} (acc : Line), sep ∉ cs →
    splitChAux sep cs acc = [acc.reverse ++ cs] := by
  intro cs
  induction cs with
  | nil => intro acc h3; simp [splitChAux]
  | cons c rest ih =>
    intro acc h3
    rw [splitChAux.eq_def]
    dsimp only
    rw [if_neg (fun he => h3 (by rw [← he]; exact List.mem_cons_self _ _))]
    rw [ih (c :: acc) (fun hm => h3 (List.mem_cons_of_mem _ hm))]
    simp

theorem splitCh_no_sep {sep : Char} {l : Line} (h : sep ∉ l) : splitCh sep l = [l] := by
  rw [splitCh, splitChAux_no_sep [] h]
  simp

theorem splitChAux_step {sep : Char} {pre : Line} (hpre : sep ∉ pre) :
    ∀ (cs acc : Line), splitChAux sep (pre ++ cs) acc = splitChAux sep cs (pre.reverse ++ acc) := by
  induction pre with
  | nil => intro cs acc; simp
  | cons c pre2 ih =>
    intro cs acc
    show splitChAux sep (c :: (pre2 ++ cs)) acc = _
    rw [splitChAux.eq_def]
    dsimp only
    rw [if_neg (fun he => hpre (by rw [← he]; exact List.mem_cons_self _ _))]
    rw [ih (fun hm => hpre (List.mem_cons_of_mem _ hm)) cs (c :: acc)]
    simp

theorem parsePropLine_key {k : Line} (hk1 : ':' ∉ k) (hk2 : ';' ∉ k) (v : Line) :
    parsePropLine (k ++ ':' :: v) = some ⟨k, [], v⟩ := by
  unfold parsePropLine
  rw [splitOnce_key hk1 v]
  dsimp only
  rw [splitCh_no_sep hk2]
  rfl

/-! ### The CATEGORIES splice -/

theorem insertBeforeLastAux_none {ins : List Line} {needle : Line} :
    ∀ {ls : List Line}, needle ∉ ls → insertBeforeLastAux ins needle ls = none := by
  intro ls
  induction ls with
  | nil => intro _; rfl
  | cons l rest ih =>
    intro h
    rw [insertBeforeLastAux]
    rw [ih (fun hm => h (List.mem_cons_of_mem _ hm))]
    rw [if_neg (fun he => h (by rw [he]; exact List.mem_cons_self _ _))]

theorem insertBeforeLast_split (ins : List Line) (needle : Line)
    (pre post : List Line) (h1 : needle ∉ pre) (h2 : needle ∉ post) :
    insertBeforeLast ins needle (pre ++ needle :: post)
      = pre ++ ins ++ needle :: post := by
  have haux : ∀ pre2, needle ∉ pre2 →
      insertBeforeLastAux ins needle (pre2 ++ needle :: post)
        = some (pre2 ++ ins ++ needle :: post) := by
    intro pre2
    induction pre2 with
    | nil =>
      intro _
      show insertBeforeLastAux ins needle (needle :: post) = _
      rw [insertBeforeLastAux, insertBeforeLastAux_none h2, if_pos rfl]
      simp
    | cons l rest ih =>
      intro h3
      show insertBeforeLastAux ins needle (l :: (rest ++ needle :: post)) = _
      rw [insertBeforeLastAux, ih (fun hm => h3 (List.mem_cons_of_mem _ hm))]
      simp
  rw [insertBeforeLast, haux pre h1]
  rfl

/-! ### No RELATED-TO line: the raw scan finds nothing -/

theorem replAllGo_id (n0 : Char) (nrest repl : Line) :
    ∀ (s : Line) (fuel : Nat),
    (∀ t, t.IsSuffix s → (n0 :: nrest).isPrefixOf t = false) →
    replAllGo n0 nrest repl fuel s = s := by
  intro s
  induction s with
  | nil => intro fuel _; cases fuel <;> rfl
  | cons c rest ih =>
    intro fuel h
    cases fuel with
    | zero => rfl
    | succ fuel2 =>
      rw [replAllGo]
      rw [if_neg (by simp [h (c :: rest) (List.suffix_refl _)])]
      rw [ih fuel2 (fun t ht => h t (ht.trans (List.suffix_cons c rest)))]

theorem replAll_id (n0 : Char) (nrest repl : Line) (s : Line)
    (h : ∀ t, t.IsSuffix s → (n0 :: nrest).isPrefixOf t = false) :
    replAll n0 nrest repl s = s :=
  replAllGo_id n0 nrest repl s s.length h

theorem isPrefixOf_cons_ne {p c : Char} (ps t : Line) (h : c ≠ p) :
    ((p :: ps).isPrefixOf (c :: t)) = false := by
  show (p == c && ps.isPrefixOf t) = false
  rw [beq_eq_false_iff_ne.mpr (Ne.symm h), Bool.false_and]

theorem suffix_append_cases {α : Type} :
    ∀ (a : List α) (t b : List α), t.IsSuffix (a ++ b) →
      t.IsSuffix b ∨ ∃ a2, a2.IsSuffix a ∧ a2 ≠ [] ∧ t = a2 ++ b
  | [], t, b, h => Or.inl (by simpa using h)
  | x :: a2, t, b, h => by
    obtain ⟨pre, hpre⟩ := h
    cases pre with
    | nil =>
      exact Or.inr ⟨x :: a2, List.suffix_refl _, by simp, by simpa using hpre⟩
    | cons y pre2 =>
      injection hpre with h1 h2
      rcases suffix_append_cases a2 t b ⟨pre2, h2⟩ with hc | ⟨a3, ha3, hne, heq⟩
      · exact Or.inl hc
      · exact Or.inr ⟨a3, ha3.trans (List.suffix_cons x a2), hne, heq⟩

theorem joinLines_nospace_head (L : List Line)
    (hh : ∀ l ∈ L, l.head? ≠ some ' ') :
    ([' '].isPrefixOf (joinLines L)) = false := by
  cases L with
  | nil => rfl
  | cons l rest =>
    rcases l with _ | ⟨c, tail⟩
    · cases rest with
      | nil => rfl
      | cons l2 r2 => rfl
    · have hc : c ≠ ' ' := fun he => (hh _ (List.mem_cons_self _ _)) (by rw [he]; rfl)
      cases rest with
      | nil => exact isPrefixOf_cons_ne [] tail hc
      | cons l2 r2 =>
        exact isPrefixOf_cons_ne [] (tail ++ '\r' :: '\n' :: joinLines (l2 :: r2)) hc

theorem joinLines_sfx (L : List Line) (hL : ∀ l ∈ L, lineOK l)
    (hh : ∀ l ∈ L, l.head? ≠ some ' ') :
    ∀ t, t.IsSuffix (joinLines L) →
      ((['\r', '\n', ' '].isPrefixOf t) = false ∧ ((['\n', ' ']).isPrefixOf t) = false) := by
  induction L with
  | nil =>
    intro t ht
    have h0 : t = [] := by simpa [joinLines] using ht
    subst h0
    exact ⟨rfl, rfl⟩
  | cons l rest ih =>
    cases rest with
    | nil =>
      intro t ht
      cases t with
      | nil => exact ⟨rfl, rfl⟩
      | cons c t2 =>
        have hcl : c ∈ l := ht.subset (List.mem_cons_self _ _)
        have h1 : c ≠ '\r' := fun he => (hL l (List.mem_cons_self _ _)).1 (he ▸ hcl)
        have h2 : c ≠ '\n' := fun he => (hL l (List.mem_cons_self _ _)).2 (he ▸ hcl)
        exact ⟨isPrefixOf_cons_ne _ _ h1, isPrefixOf_cons_ne _ _ h2⟩
    | cons l2 rest2 =>
      intro t ht
      have hh2 : ∀ x ∈ l2 :: rest2, x.head? ≠ some ' ' :=
        fun x hx => hh x (List.mem_cons_of_mem _ hx)
      have hL2 : ∀ x ∈ l2 :: rest2, lineOK x :=
        fun x hx => hL x (List.mem_cons_of_mem _ hx)
      rw [show joinLines (l :: l2 :: rest2)
          = l ++ ('\r' :: '\n' :: joinLines (l2 :: rest2)) from rfl] at ht
      rcases suffix_append_cases l t _ ht with hcase | ⟨a2, ha2, hne, heq⟩
      · rcases List.suffix_cons_iff.mp hcase with heq2 | hcase2
        · subst heq2
          constructor
          · show (('\r' == '\r') && (['\n', ' '].isPrefixOf ('\n' :: joinLines (l2 :: rest2)))) = false
            show ((true : Bool) && (('\n' == '\n') && ([' '].isPrefixOf (joinLines (l2 :: rest2))))) = false
            rw [joinLines_nospace_head _ hh2]
            simp
          · exact isPrefixOf_cons_ne _ _ (by decide)
        · rcases List.suffix_cons_iff.mp hcase2 with heq3 | hcase3
          · subst heq3
            constructor
            · exact isPrefixOf_cons_ne _ _ (by decide)
            · show (('\n' == '\n') && ([' '].isPrefixOf (joinLines (l2 :: rest2)))) = false
              rw [joinLines_nospace_head _ hh2]
              simp
          · exact ih hL2 hh2 t hcase3
      · subst heq
        cases a2 with
        | nil => exact absurd rfl hne
        | cons c a3 =>
          have hcl : c ∈ l := ha2.subset (List.mem_cons_self _ _)
          have h1 : c ≠ '\r' := fun he => (hL l (List.mem_cons_self _ _)).1 (he ▸ hcl)
          have h2 : c ≠ '\n' := fun he => (hL l (List.mem_cons_self _ _)).2 (he ▸ hcl)
          exact ⟨isPrefixOf_cons_ne _ _ h1, isPrefixOf_cons_ne _ _ h2⟩

theorem foldl_const {α β : Type} (f : β → α → β) (a : β) (xs : List α)
    (h : ∀ acc, ∀ x ∈ xs, f acc x = acc) : xs.foldl f a = a := by
  induction xs generalizing a with
  | nil => rfl
  | cons x xs2 ih =>
    rw [List.foldl_cons, h a x (List.mem_cons_self _ _)]
    exact ih a (fun acc y hy => h acc y (List.mem_cons_of_mem _ hy))

theorem splitCh_joinLines :
    ∀ (L : List Line), L ≠ [] → (∀ l ∈ L, lineOK l) →
    splitCh '\n' (joinLines L)
      = L.dropLast.map (fun l => l ++ ['\r']) ++ [(L.getLast?).getD []] := by
  intro L
  induction L with
  | nil => intro h _; exact absurd rfl h
  | cons l rest ih =>
    intro _ hL
    cases rest with
    | nil =>
      show splitCh '\n' l = _
      rw [splitCh_no_sep (hL l (List.mem_cons_self _ _)).2]
      simp
    | cons l2 rest2 =>
      show splitCh '\n' (l ++ '\r' :: '\n' :: joinLines (l2 :: rest2)) = _
      rw [splitCh, splitChAux_step (hL l (List.mem_cons_self _ _)).2]
      rw [splitChAux.eq_def]
      dsimp only
      rw [if_neg (by decide)]
      rw [splitChAux.eq_def]
      dsimp only
      rw [if_pos rfl]
      rw [show splitChAux '\n' (joinLines (l2 :: rest2)) [] = splitCh '\n' (joinLines (l2 :: rest2)) from rfl]
      rw [ih (by simp) (fun x hx => hL x (List.mem_cons_of_mem _ hx))]
      simp

theorem mem_of_getLast?_eq {α : Type} {l : List α} {v : α}
    (h : l.getLast? = some v) : v ∈ l := by
  obtain ⟨hne, heq⟩ := List.mem_getLast?_eq_getLast (show v ∈ l.getLast? by rw [h]; rfl)
  rw [heq]
  exact List.getLast_mem hne

theorem rustLines_joinLines_subset (L : List Line) (hne : L ≠ [])
    (hL : ∀ l ∈ L, lineOK l) :
    ∀ x ∈ rustLines (joinLines L), x ∈ L := by
  intro x hx
  unfold rustLines at hx
  rw [splitCh_joinLines L hne hL] at hx
  dsimp only at hx
  rw [List.getLast?_concat] at hx
  by_cases hlast : (L.getLast?).getD [] = []
  · rw [if_pos (by rw [hlast])] at hx
    rw [List.dropLast_concat] at hx
    obtain ⟨y, hy1, hy2⟩ := List.mem_map.1 hx
    obtain ⟨z, hz1, hz2⟩ := List.mem_map.1 hy1
    rw [← hy2, ← hz2]
    rw [List.getLast?_concat, if_pos rfl, List.dropLast_concat]
    exact (List.dropLast_sublist L).subset hz1
  · rw [if_neg (by simpa using fun he => hlast (by rw [he]))] at hx
    obtain ⟨y, hy1, hy2⟩ := List.mem_map.1 hx
    rcases List.mem_append.1 hy1 with hmem | hmem
    · obtain ⟨z, hz1, hz2⟩ := List.mem_map.1 hmem
      rw [← hy2, ← hz2]
      rw [List.getLast?_concat, if_pos rfl, List.dropLast_concat]
      exact (List.dropLast_sublist L).subset hz1
    · simp only [List.mem_singleton] at hmem
      subst hmem
      have hLast : ∃ v, L.getLast? = some v := by
        cases hL2 : L.getLast? with
        | none => exact absurd (List.getLast?_eq_none_iff.mp hL2) hne
        | some v => exact ⟨v, rfl⟩
      obtain ⟨v, hv⟩ := hLast
      rw [← hy2, hv]
      dsimp only [Option.getD]
      rw [if_neg (fun hvl => (hL v (mem_of_getLast?_eq hv)).1 (mem_of_getLast?_eq hvl))]
      exact mem_of_getLast?_eq hv

theorem relatedScan_joinLines (L : List Line) (hne : L ≠ [])
    (hL : ∀ l ∈ L, lineOK l) (hh : ∀ l ∈ L, l.head? ≠ some ' ')
    (hr : ∀ l ∈ L, ("RELATED-TO".data).isPrefixOf l = false) :
    relatedScan (joinLines L) = (none, []) := by
  unfold relatedScan
  dsimp only
  rw [replAll_id _ _ _ _ (fun t ht => (joinLines_sfx L hL hh t ht).1)]
  rw [replAll_id _ _ _ _ (fun t ht => (joinLines_sfx L hL hh t ht).2)]
  refine foldl_const _ _ _ (fun acc x hx => ?_)
  rw [if_neg (by simp [hr x (rustLines_joinLines_subset L hne hL x hx)])]

/-! ### Filtered property lookups -/

theorem filter_key_nil (k : Line) (P : List PropLine)
    (h : ∀ p ∈ P, ¬ p.key = k) :
    P.filter (fun p => p.key = k) = [] := by
  induction P with
  | nil => rfl
  | cons p P2 ih =>
    rw [List.filter_cons_of_neg (by simp [h p (List.mem_cons_self _ _)])]
    exact ih (fun q hq => h q (List.mem_cons_of_mem _ hq))

/-! ### Goodness of the serialized lines -/

theorem lineOK_of_digits {l : Line} (h : ∀ c ∈ l, isDigitCh c = true) : lineOK l :=
  lineOK_of_forall fun c hc =>
    ⟨isDigitCh_ne_of (by decide) (h c hc), isDigitCh_ne_of (by decide) (h c hc)⟩

theorem lineOK_pad2 (n : Nat) : lineOK (pad2 n) := lineOK_of_digits (pad2_digits n)

theorem lineOK_pad4 (n : Nat) : lineOK (pad4 n) := lineOK_of_digits (pad4_digits n)

theorem lineOK_fmtDTZ (dt : DT) : lineOK (fmtDTZ dt) := by
  unfold fmtDTZ fmtDate8
  refine lineOK_append (lineOK_append ?_ ?_) ?_
  · exact lineOK_append (lineOK_append (lineOK_pad4 _) (lineOK_pad2 _)) (lineOK_pad2 _)
  · refine lineOK_cons (by decide) (by decide) ?_
    exact lineOK_append (lineOK_append (lineOK_pad2 _) (lineOK_pad2 _)) (lineOK_pad2 _)
  · decide

theorem lineOK_fmtIso (m : Nat) : lineOK (fmtIsoDuration m) := by
  unfold fmtIsoDuration
  split
  · refine lineOK_append (lineOK_append ?_ (lineOK_natChars _)) ?_
    · decide
    · decide
  · split
    · refine lineOK_append (lineOK_append ?_ (lineOK_natChars _)) ?_
      · decide
      · decide
    · refine lineOK_append (lineOK_append ?_ (lineOK_natChars _)) ?_
      · decide
      · decide

theorem lineOK_statusValue (s : TaskStatus) : lineOK (statusValue s) := by
  cases s <;> decide

/-- The category goodness the round trip needs: nonempty, free of commas and
line breaks, and stable under `trim`. -/
def catOK (c : String) : Prop :=
  c.data ≠ [] ∧ lineOK c.data ∧ ',' ∉ c.data ∧ trimAscii c.data = c.data

theorem replAll_comma_id {l : Line} (h : ',' ∉ l) :
    replAll ',' [] ['\\', ','] l = l := by
  refine replAll_id _ _ _ _ (fun t ht => ?_)
  cases t with
  | nil => rfl
  | cons c t2 =>
    exact isPrefixOf_cons_ne _ _ (fun he => h (he ▸ ht.subset (List.mem_cons_self _ _)))

theorem catLineValue_eq (cats : List String) (h : ∀ c ∈ cats, ',' ∉ c.data) :
    catLineValue cats = joinSep ',' (cats.map String.data) := by
  unfold catLineValue
  congr 1
  induction cats with
  | nil => rfl
  | cons c rest ih =>
    simp only [List.map_cons]
    rw [replAll_comma_id (h c (List.mem_cons_self _ _))]
    rw [ih (fun x hx => h x (List.mem_cons_of_mem _ hx))]

theorem lineOK_joinSep {sep : Char} (h1 : sep ≠ '\r') (h2 : sep ≠ '\n')
    (parts : List Line) (h : ∀ p ∈ parts, lineOK p) : lineOK (joinSep sep parts) := by
  induction parts with
  | nil => exact ⟨by simp [joinSep], by simp [joinSep]⟩
  | cons p rest ih =>
    cases rest with
    | nil => exact h p (List.mem_cons_self _ _)
    | cons p2 rest2 =>
      show lineOK (p ++ sep :: joinSep sep (p2 :: rest2))
      exact lineOK_append (h p (List.mem_cons_self _ _))
        (lineOK_cons h1 h2 (ih (fun x hx => h x (List.mem_cons_of_mem _ hx))))

/-- The serialized content-line inventory: with the frame fields blank, every
line between `BEGIN:VTODO` and `END:VTODO` is one concrete key followed by a
break-free value. -/
theorem todoProps_shape (t : Task) (now : DT) (hdesc : t.description = "")
    (hdtst : t.dtstart = none) (hpar : t.parent_uid = none)
    (hdeps : t.dependencies = []) (hunm : t.unmapped_properties = []) :
    todoProps t now = ["UID:".data ++ t.uid.data, "SUMMARY:".data ++ t.summary.data,
      "DTSTAMP:".data ++ fmtDTZ now, "STATUS:".data ++ statusValue t.status]
      ++ (dueLines t ++ priLines t ++ rrLines t) := by
  unfold todoProps descLines dtstartLines parentLines depLines unmappedLines statusLine
  rw [hdesc, hdtst, hpar, hdeps, hunm]
  simp

def catLines (t : Task) : List Line :=
  if t.categories.isEmpty then []
  else ["CATEGORIES:".data ++ catLineValue t.categories]

def innerKeys : List String :=
  ["UID:", "SUMMARY:", "DTSTAMP:", "STATUS:", "DUE:", "X-ESTIMATED-DURATION:",
   "DURATION:", "PRIORITY:", "RRULE:", "CATEGORIES:"]

theorem inner_inventory (t : Task) (now : DT) (hdesc : t.description = "")
    (hdtst : t.dtstart = none) (hpar : t.parent_uid = none)
    (hdeps : t.dependencies = []) (hunm : t.unmapped_properties = [])
    (huid : lineOK t.uid.data) (hsum : lineOK t.summary.data)
    (hrr : ∀ r, t.rrule = some r → lineOK r.data)
    (hcats : ∀ c ∈ t.categories, catOK c) :
    ∀ l ∈ todoProps t now ++ catLines t,
      ∃ k v, l = k.data ++ v ∧ k ∈ innerKeys ∧ lineOK v := by
  intro l hl
  rw [todoProps_shape t now hdesc hdtst hpar hdeps hunm] at hl
  rcases List.mem_append.1 hl with hl2 | hlc
  · rcases List.mem_append.1 hl2 with hl3 | hl4
    · simp only [List.mem_cons, List.mem_singleton] at hl3
      rcases hl3 with rfl | rfl | rfl | rfl | h5
      · exact ⟨"UID:", t.uid.data, rfl, by decide, huid⟩
      · exact ⟨"SUMMARY:", t.summary.data, rfl, by decide, hsum⟩
      · exact ⟨"DTSTAMP:", fmtDTZ now, rfl, by decide, lineOK_fmtDTZ now⟩
      · exact ⟨"STATUS:", statusValue t.status, rfl, by decide, lineOK_statusValue _⟩
      · simp at h5
    · rcases List.mem_append.1 hl4 with hl5 | hl6
      · rcases List.mem_append.1 hl5 with hl7 | hl8
        · unfold dueLines at hl7
          rcases hdu : t.due with _ | d <;> rw [hdu] at hl7
          · rcases hest : t.estimated_duration with _ | m <;> rw [hest] at hl7
            · simp at hl7
            · simp only [List.mem_singleton] at hl7
              exact ⟨"DURATION:", fmtIsoDuration m, hl7, by decide, lineOK_fmtIso m⟩
          · rcases List.mem_cons.1 hl7 with h8 | h9
            · exact ⟨"DUE:", fmtDTZ d, h8, by decide, lineOK_fmtDTZ d⟩
            · rcases hest : t.estimated_duration with _ | m <;> rw [hest] at h9
              · simp at h9
              · simp only [List.append_eq, List.nil_append, List.mem_singleton] at h9
                exact ⟨"X-ESTIMATED-DURATION:", fmtIsoDuration m, h9, by decide,
                  lineOK_fmtIso m⟩
        · unfold priLines at hl8
          split at hl8
          · simp only [List.mem_singleton] at hl8
            exact ⟨"PRIORITY:", natChars t.priority, hl8, by decide, lineOK_natChars _⟩
          · simp at hl8
      · unfold rrLines at hl6
        rcases hru : t.rrule with _ | r <;> rw [hru] at hl6
        · simp at hl6
        · simp only [List.mem_singleton] at hl6
          exact ⟨"RRULE:", r.data, hl6, by decide, hrr r hru⟩
  · unfold catLines at hlc
    split at hlc
    · simp at hlc
    · simp only [List.mem_singleton] at hlc
      refine ⟨"CATEGORIES:", catLineValue t.categories, hlc, by decide, ?_⟩
      rw [catLineValue_eq _ (fun c hc => (hcats c hc).2.2.1)]
      refine lineOK_joinSep (by decide) (by decide) _ (fun p hp => ?_)
      obtain ⟨c, hc, rfl⟩ := List.mem_map.1 hp
      exact (hcats c hc).2.1

/-! ### The facts the pipeline needs, per inventory line -/

theorem inner_lineOK {l : Line}
    (hinv : ∃ k v, l = k.data ++ v ∧ k ∈ innerKeys ∧ lineOK v) : lineOK l := by
  obtain ⟨k, v, rfl, hk, hv⟩ := hinv
  simp only [innerKeys, List.mem_cons] at hk
  rcases hk with rfl | rfl | rfl | rfl | rfl | rfl | rfl | rfl | rfl | rfl | h
  all_goals try exact lineOK_append (by decide) hv
  exact absurd h (List.not_mem_nil _)

theorem inner_headOK {l : Line}
    (hinv : ∃ k v, l = k.data ++ v ∧ k ∈ innerKeys ∧ lineOK v) :
    l.head? ≠ some ' ' ∧ l.head? ≠ some '\t' := by
  obtain ⟨k, v, rfl, hk, _⟩ := hinv
  simp only [innerKeys, List.mem_cons] at hk
  rcases hk with rfl | rfl | rfl | rfl | rfl | rfl | rfl | rfl | rfl | rfl | h
  all_goals try exact ⟨fun he => absurd (Option.some.inj he) (by decide),
    fun he => absurd (Option.some.inj he) (by decide)⟩
  exact absurd h (List.not_mem_nil _)

theorem inner_notBE {l : Line}
    (hinv : ∃ k v, l = k.data ++ v ∧ k ∈ innerKeys ∧ lineOK v) : notBE l := by
  obtain ⟨k, v, rfl, hk, _⟩ := hinv
  simp only [innerKeys, List.mem_cons] at hk
  rcases hk with rfl | rfl | rfl | rfl | rfl | rfl | rfl | rfl | rfl | rfl | h
  all_goals try exact ⟨rfl, rfl⟩
  exact absurd h (List.not_mem_nil _)

theorem inner_ne_endvtodo {l : Line}
    (hinv : ∃ k v, l = k.data ++ v ∧ k ∈ innerKeys ∧ lineOK v) :
    l ≠ "END:VTODO".data := by
  obtain ⟨k, v, rfl, hk, _⟩ := hinv
  simp only [innerKeys, List.mem_cons] at hk
  rcases hk with rfl | rfl | rfl | rfl | rfl | rfl | rfl | rfl | rfl | rfl | h
  all_goals try (intro he; injection he with h1 h2; exact absurd h1 (by decide))
  exact absurd h (List.not_mem_nil _)

theorem inner_noRelated {l : Line}
    (hinv : ∃ k v, l = k.data ++ v ∧ k ∈ innerKeys ∧ lineOK v) :
    ("RELATED-TO".data).isPrefixOf l = false := by
  obtain ⟨k, v, rfl, hk, _⟩ := hinv
  simp only [innerKeys, List.mem_cons] at hk
  rcases hk with rfl | rfl | rfl | rfl | rfl | rfl | rfl | rfl | rfl | rfl | h
  all_goals try rfl
  exact absurd h (List.not_mem_nil _)

/-! ### The parsed property list of a serialized task -/

theorem parse_UID (v : Line) :
    parsePropLine ('U' :: 'I' :: 'D' :: ':' :: v) = some ⟨['U', 'I', 'D'], [], v⟩ := by
  rw [show 'U' :: 'I' :: 'D' :: ':' :: v = "UID".data ++ ':' :: v from rfl]
  exact parsePropLine_key (by decide) (by decide) v

theorem parse_SUMMARY (v : Line) :
    parsePropLine ('S' :: 'U' :: 'M' :: 'M' :: 'A' :: 'R' :: 'Y' :: ':' :: v) = some ⟨['S', 'U', 'M', 'M', 'A', 'R', 'Y'], [], v⟩ := by
  rw [show 'S' :: 'U' :: 'M' :: 'M' :: 'A' :: 'R' :: 'Y' :: ':' :: v = "SUMMARY".data ++ ':' :: v from rfl]
  exact parsePropLine_key (by decide) (by decide) v

theorem parse_DTSTAMP (v : Line) :
    parsePropLine ('D' :: 'T' :: 'S' :: 'T' :: 'A' :: 'M' :: 'P' :: ':' :: v) = some ⟨['D', 'T', 'S', 'T', 'A', 'M', 'P'], [], v⟩ := by
  rw [show 'D' :: 'T' :: 'S' :: 'T' :: 'A' :: 'M' :: 'P' :: ':' :: v = "DTSTAMP".data ++ ':' :: v from rfl]
  exact parsePropLine_key (by decide) (by decide) v

theorem parse_STATUS (v : Line) :
    parsePropLine ('S' :: 'T' :: 'A' :: 'T' :: 'U' :: 'S' :: ':' :: v) = some ⟨['S', 'T', 'A', 'T', 'U', 'S'], [], v⟩ := by
  rw [show 'S' :: 'T' :: 'A' :: 'T' :: 'U' :: 'S' :: ':' :: v = "STATUS".data ++ ':' :: v from rfl]
  exact parsePropLine_key (by decide) (by decide) v

theorem parse_DUE (v : Line) :
    parsePropLine ('D' :: 'U' :: 'E' :: ':' :: v) = some ⟨['D', 'U', 'E'], [], v⟩ := by
  rw [show 'D' :: 'U' :: 'E' :: ':' :: v = "DUE".data ++ ':' :: v from rfl]
  exact parsePropLine_key (by decide) (by decide) v

theorem parse_X_ESTIMATED_DURATION (v : Line) :
    parsePropLine ('X' :: '-' :: 'E' :: 'S' :: 'T' :: 'I' :: 'M' :: 'A' :: 'T' :: 'E' :: 'D' :: '-' :: 'D' :: 'U' :: 'R' :: 'A' :: 'T' :: 'I' :: 'O' :: 'N' :: ':' :: v) = some ⟨['X', '-', 'E', 'S', 'T', 'I', 'M', 'A', 'T', 'E', 'D', '-', 'D', 'U', 'R', 'A', 'T', 'I', 'O', 'N'], [], v⟩ := by
  rw [show 'X' :: '-' :: 'E' :: 'S' :: 'T' :: 'I' :: 'M' :: 'A' :: 'T' :: 'E' :: 'D' :: '-' :: 'D' :: 'U' :: 'R' :: 'A' :: 'T' :: 'I' :: 'O' :: 'N' :: ':' :: v = "X-ESTIMATED-DURATION".data ++ ':' :: v from rfl]
  exact parsePropLine_key (by decide) (by decide) v

theorem parse_DURATION (v : Line) :
    parsePropLine ('D' :: 'U' :: 'R' :: 'A' :: 'T' :: 'I' :: 'O' :: 'N' :: ':' :: v) = some ⟨['D', 'U', 'R', 'A', 'T', 'I', 'O', 'N'], [], v⟩ := by
  rw [show 'D' :: 'U' :: 'R' :: 'A' :: 'T' :: 'I' :: 'O' :: 'N' :: ':' :: v = "DURATION".data ++ ':' :: v from rfl]
  exact parsePropLine_key (by decide) (by decide) v

theorem parse_PRIORITY (v : Line) :
    parsePropLine ('P' :: 'R' :: 'I' :: 'O' :: 'R' :: 'I' :: 'T' :: 'Y' :: ':' :: v) = some ⟨['P', 'R', 'I', 'O', 'R', 'I', 'T', 'Y'], [], v⟩ := by
  rw [show 'P' :: 'R' :: 'I' :: 'O' :: 'R' :: 'I' :: 'T' :: 'Y' :: ':' :: v = "PRIORITY".data ++ ':' :: v from rfl]
  exact parsePropLine_key (by decide) (by decide) v

theorem parse_RRULE (v : Line) :
    parsePropLine ('R' :: 'R' :: 'U' :: 'L' :: 'E' :: ':' :: v) = some ⟨['R', 'R', 'U', 'L', 'E'], [], v⟩ := by
  rw [show 'R' :: 'R' :: 'U' :: 'L' :: 'E' :: ':' :: v = "RRULE".data ++ ':' :: v from rfl]
  exact parsePropLine_key (by decide) (by decide) v

theorem parse_CATEGORIES (v : Line) :
    parsePropLine ('C' :: 'A' :: 'T' :: 'E' :: 'G' :: 'O' :: 'R' :: 'I' :: 'E' :: 'S' :: ':' :: v) = some ⟨['C', 'A', 'T', 'E', 'G', 'O', 'R', 'I', 'E', 'S'], [], v⟩ := by
  rw [show 'C' :: 'A' :: 'T' :: 'E' :: 'G' :: 'O' :: 'R' :: 'I' :: 'E' :: 'S' :: ':' :: v = "CATEGORIES".data ++ ':' :: v from rfl]
  exact parsePropLine_key (by decide) (by decide) v

def duePropsP (t : Task) : List PropLine :=
  match t.due with
  | some d =>
    ⟨"DUE".data, [], fmtDTZ d⟩ ::
      (match t.estimated_duration with
       | some m => [⟨"X-ESTIMATED-DURATION".data, [], fmtIsoDuration m⟩]
       | none => [])
  | none =>
    (match t.estimated_duration with
     | some m => [⟨"DURATION".data, [], fmtIsoDuration m⟩]
     | none => [])

def priPropsP (t : Task) : List PropLine :=
  if t.priority > 0 then [⟨"PRIORITY".data, [], natChars t.priority⟩] else []

def rrPropsP (t : Task) : List PropLine :=
  match t.rrule with
  | some r => [⟨"RRULE".data, [], r.data⟩]
  | none => []

def catPropsP (t : Task) : List PropLine :=
  if t.categories.isEmpty then []
  else [⟨"CATEGORIES".data, [], catLineValue t.categories⟩]

def propsP (t : Task) (now : DT) : List PropLine :=
  ⟨"UID".data, [], t.uid.data⟩ :: ⟨"SUMMARY".data, [], t.summary.data⟩ ::
  ⟨"DTSTAMP".data, [], fmtDTZ now⟩ :: ⟨"STATUS".data, [], statusValue t.status⟩ ::
  (duePropsP t ++ priPropsP t ++ rrPropsP t ++ catPropsP t)

theorem filterMap_dueLines (t : Task) :
    (dueLines t).filterMap parsePropLine = duePropsP t := by
  unfold dueLines duePropsP
  rcases hdu : t.due with _ | d <;>
    rcases hest : t.estimated_duration with _ | m
  · rfl
  · simp [parse_DURATION]
  · simp [parse_DUE]
  · simp [parse_DUE, parse_X_ESTIMATED_DURATION]

theorem filterMap_priLines (t : Task) :
    (priLines t).filterMap parsePropLine = priPropsP t := by
  unfold priLines priPropsP
  split
  · simp [parse_PRIORITY]
  · rfl

theorem filterMap_rrLines (t : Task) :
    (rrLines t).filterMap parsePropLine = rrPropsP t := by
  unfold rrLines rrPropsP
  rcases hr : t.rrule with _ | r
  · rfl
  · simp [parse_RRULE]

theorem filterMap_catLines (t : Task) :
    (catLines t).filterMap parsePropLine = catPropsP t := by
  unfold catLines catPropsP
  split
  · rfl
  · simp [parse_CATEGORIES]

theorem filterMap_inner (t : Task) (now : DT) (hdesc : t.description = "")
    (hdtst : t.dtstart = none) (hpar : t.parent_uid = none)
    (hdeps : t.dependencies = []) (hunm : t.unmapped_properties = []) :
    (todoProps t now ++ catLines t).filterMap parsePropLine = propsP t now := by
  rw [List.filterMap_append]
  rw [todoProps_shape t now hdesc hdtst hpar hdeps hunm]
  rw [List.filterMap_append]
  rw [List.filterMap_append, List.filterMap_append]
  rw [filterMap_dueLines, filterMap_priLines, filterMap_rrLines, filterMap_catLines]
  rw [show ["UID:".data ++ t.uid.data, "SUMMARY:".data ++ t.summary.data,
      "DTSTAMP:".data ++ fmtDTZ now,
      "STATUS:".data ++ statusValue t.status].filterMap parsePropLine
    = [⟨"UID".data, [], t.uid.data⟩, ⟨"SUMMARY".data, [], t.summary.data⟩,
       ⟨"DTSTAMP".data, [], fmtDTZ now⟩, ⟨"STATUS".data, [], statusValue t.status⟩] from by
    simp [parse_UID, parse_SUMMARY, parse_DTSTAMP, parse_STATUS]]
  unfold propsP
  simp

/-! ### From the serialized text to the parsed property list -/

def hdrLines : List Line :=
  ["BEGIN:VCALENDAR".data, "VERSION:2.0".data, "PRODID:ICALENDAR-RS".data,
   "CALSCALE:GREGORIAN".data, "BEGIN:VTODO".data]

def tailLines : List Line := ["END:VTODO".data, "END:VCALENDAR".data, []]

theorem toIcsLines_shape (t : Task) (now : DT) (hraw : t.raw_components = [])
    (hmem : "END:VTODO".data ∉ todoProps t now ++ catLines t) :
    toIcsLines t now = hdrLines ++ (todoProps t now ++ catLines t) ++ tailLines := by
  unfold toIcsLines
  dsimp only
  rw [hraw]
  rw [if_pos (show ([] : List String).isEmpty = true from rfl)]
  by_cases hc : t.categories.isEmpty
  · rw [if_pos hc]
    simp [catLines, hc, hdrLines, tailLines]
  · rw [if_neg hc]
    rw [insertBeforeLast_split _ _
      (["BEGIN:VCALENDAR".data, "VERSION:2.0".data, "PRODID:ICALENDAR-RS".data,
        "CALSCALE:GREGORIAN".data, "BEGIN:VTODO".data] ++ todoProps t now)
      ["END:VCALENDAR".data, []] ?_ (by decide)
      ]
    · rw [show catLines t = ["CATEGORIES:".data ++ catLineValue t.categories] from by
        rw [catLines, if_neg hc]]
      simp [hdrLines, tailLines]
    · intro hm
      rcases List.mem_append.1 hm with h | h
      · exact absurd h (by decide)
      · exact hmem (List.mem_append.2 (Or.inl h))

theorem compScan_hdr (r : List Line) (acc : List (Line × List Line)) :
    compScanAux (hdrLines ++ r) none 0 acc
      = compScanAux r (some ("VTODO".data, [])) 0 acc := rfl

theorem compScan_tail (inner : List Line) (acc : List (Line × List Line)) :
    compScanAux tailLines (some ("VTODO".data, inner)) 0 acc
      = acc ++ [("VTODO".data, inner)] := rfl

theorem scan_toIcs (t : Task) (now : DT) (hraw : t.raw_components = [])
    (hinv : ∀ l ∈ todoProps t now ++ catLines t,
      ∃ k v, l = k.data ++ v ∧ k ∈ innerKeys ∧ lineOK v) :
    compScanAux (foldLines (splitLinesCL ((toIcs t now)).data [])) none 0 []
      = [("VTODO".data, todoProps t now ++ catLines t)] := by
  have hmem : "END:VTODO".data ∉ todoProps t now ++ catLines t :=
    fun hm => (inner_ne_endvtodo (hinv _ hm)) rfl
  rw [show (toIcs t now).data = joinLines (toIcsLines t now) from rfl]
  rw [toIcsLines_shape t now hraw hmem]
  rw [splitLinesCL_joinLines _ ?hok (by simp [hdrLines])]
  case hok =>
    intro l hl
    rcases List.mem_append.1 hl with h2 | h3
    · rcases List.mem_append.1 h2 with h4 | h5
      · simp only [hdrLines, List.mem_cons] at h4
        rcases h4 with rfl | rfl | rfl | rfl | rfl | h6
        · decide
        · decide
        · decide
        · decide
        · decide
        · simp at h6
      · exact inner_lineOK (hinv l h5)
    · simp only [tailLines, List.mem_cons] at h3
      rcases h3 with rfl | rfl | rfl | h6
      · decide
      · decide
      · decide
      · simp at h6
  rw [foldLines_id _ ?hheads]
  case hheads =>
    intro l hl
    rcases List.mem_append.1 hl with h2 | h3
    · rcases List.mem_append.1 h2 with h4 | h5
      · simp only [hdrLines, List.mem_cons] at h4
        rcases h4 with rfl | rfl | rfl | rfl | rfl | h6
        · exact ⟨by decide, by decide⟩
        · exact ⟨by decide, by decide⟩
        · exact ⟨by decide, by decide⟩
        · exact ⟨by decide, by decide⟩
        · exact ⟨by decide, by decide⟩
        · simp at h6
      · exact inner_headOK (hinv l h5)
    · simp only [tailLines, List.mem_cons] at h3
      rcases h3 with rfl | rfl | rfl | h6
      · exact ⟨by decide, by decide⟩
      · exact ⟨by decide, by decide⟩
      · exact ⟨by decide, by decide⟩
      · simp at h6
  rw [List.append_assoc]
  rw [compScan_hdr]
  rw [compScan_inner _ (fun l hl => inner_notBE (hinv l hl)) tailLines "VTODO".data [] []]
  rw [compScan_tail]
  simp

theorem splitComps_VTODO (inner : List Line) (hBE : ∀ l ∈ inner, notBE l)
    (hnorec : ((inner.filterMap parsePropLine).any
      (fun p => p.key = "RECURRENCE-ID".data)) = false) :
    splitComps [("VTODO".data, inner)] = (some (inner.filterMap parsePropLine), []) := by
  unfold splitComps
  rw [List.foldl_cons, List.foldl_nil]
  dsimp only
  rw [if_pos rfl]
  rw [topProps_id inner hBE]
  rw [if_neg (by simp [hnorec])]

/-! ### Keys of the parsed property list -/

theorem duePropsP_keys (t : Task) : ∀ p ∈ duePropsP t,
    p.key = "DUE".data ∨ p.key = "X-ESTIMATED-DURATION".data ∨
      p.key = "DURATION".data := by
  intro p hp
  unfold duePropsP at hp
  rcases hdu : t.due with _ | d <;> rw [hdu] at hp <;>
    rcases hest : t.estimated_duration with _ | m <;> rw [hest] at hp
  · simp at hp
  · simp only [List.mem_singleton] at hp
    rw [hp]
    right; right; rfl
  · rcases List.mem_cons.1 hp with rfl | hp2
    · left; rfl
    · simp at hp2
  · rcases List.mem_cons.1 hp with rfl | hp2
    · left; rfl
    · simp only [List.mem_singleton] at hp2
      rw [hp2]
      right; left; rfl

theorem priPropsP_keys (t : Task) : ∀ p ∈ priPropsP t, p.key = "PRIORITY".data := by
  intro p hp
  unfold priPropsP at hp
  split at hp
  · simp only [List.mem_singleton] at hp
    rw [hp]
  · simp at hp

theorem rrPropsP_keys (t : Task) : ∀ p ∈ rrPropsP t, p.key = "RRULE".data := by
  intro p hp
  unfold rrPropsP at hp
  rcases hr : t.rrule with _ | r <;> rw [hr] at hp
  · simp at hp
  · simp only [List.mem_singleton] at hp
    rw [hp]

theorem catPropsP_keys (t : Task) : ∀ p ∈ catPropsP t, p.key = "CATEGORIES".data := by
  intro p hp
  unfold catPropsP at hp
  split at hp
  · simp at hp
  · simp only [List.mem_singleton] at hp
    rw [hp]

theorem chunks_keys (t : Task) :
    ∀ p ∈ duePropsP t ++ priPropsP t ++ rrPropsP t ++ catPropsP t,
      p.key = "DUE".data ∨ p.key = "X-ESTIMATED-DURATION".data ∨
      p.key = "DURATION".data ∨ p.key = "PRIORITY".data ∨
      p.key = "RRULE".data ∨ p.key = "CATEGORIES".data := by
  intro p hp
  rcases List.mem_append.1 hp with h1 | h2
  · rcases List.mem_append.1 h1 with h3 | h4
    · rcases List.mem_append.1 h3 with h5 | h6
      · rcases duePropsP_keys t p h5 with h | h | h
        · exact Or.inl h
        · exact Or.inr (Or.inl h)
        · exact Or.inr (Or.inr (Or.inl h))
      · exact Or.inr (Or.inr (Or.inr (Or.inl (priPropsP_keys t p h6))))
    · exact Or.inr (Or.inr (Or.inr (Or.inr (Or.inl (rrPropsP_keys t p h4)))))
  · exact Or.inr (Or.inr (Or.inr (Or.inr (Or.inr (catPropsP_keys t p h2)))))

theorem propsP_no_recur (t : Task) (now : DT) :
    ((propsP t now).any (fun p => p.key = "RECURRENCE-ID".data)) = false := by
  rw [List.any_eq_false]
  intro p hp
  unfold propsP at hp
  rcases List.mem_cons.1 hp with rfl | hp2
  · simp
  rcases List.mem_cons.1 hp2 with rfl | hp3
  · simp
  rcases List.mem_cons.1 hp3 with rfl | hp4
  · simp
  rcases List.mem_cons.1 hp4 with rfl | hp5
  · simp
  rcases chunks_keys t p hp5 with h | h | h | h | h | h
  all_goals (rw [h]; simp)

/-! ### Property lookups on the serialized property list -/

theorem splitCh_joinSep {sep : Char} : ∀ (parts : List Line), parts ≠ [] →
    (∀ p ∈ parts, sep ∉ p) → splitCh sep (joinSep sep parts) = parts := by
  intro parts
  induction parts with
  | nil => intro h _; exact absurd rfl h
  | cons p rest ih =>
    intro _ hp
    cases rest with
    | nil =>
      show splitCh sep p = [p]
      exact splitCh_no_sep (hp p (List.mem_cons_self _ _))
    | cons p2 rest2 =>
      show splitCh sep (p ++ sep :: joinSep sep (p2 :: rest2)) = _
      rw [splitCh, splitChAux_step (hp p (List.mem_cons_self _ _))]
      rw [splitChAux.eq_def]
      dsimp only
      rw [if_pos rfl]
      rw [show splitChAux sep (joinSep sep (p2 :: rest2)) []
          = splitCh sep (joinSep sep (p2 :: rest2)) from rfl]
      rw [ih (by simp) (fun x hx => hp x (List.mem_cons_of_mem _ hx))]
      simp

theorem getSingle_eq (k : Line) (hk : isMultiKey k = false) (props : List PropLine) :
    getSingle k props = (props.filter (fun p => p.key = k)).getLast? := by
  unfold getSingle
  rw [hk]
  simp

theorem filter_due_DUE (t : Task) :
    (duePropsP t).filter (fun p => p.key = "DUE".data)
      = match t.due with
        | some d => [⟨"DUE".data, [], fmtDTZ d⟩]
        | none => [] := by
  unfold duePropsP
  rcases t.due with _ | d <;> rcases t.estimated_duration with _ | m <;> simp

theorem filter_due_XEST (t : Task) :
    (duePropsP t).filter (fun p => p.key = "X-ESTIMATED-DURATION".data)
      = match t.due, t.estimated_duration with
        | some _, some m => [⟨"X-ESTIMATED-DURATION".data, [], fmtIsoDuration m⟩]
        | _, _ => [] := by
  unfold duePropsP
  rcases t.due with _ | d <;> rcases t.estimated_duration with _ | m <;> simp

theorem filter_due_DUR (t : Task) :
    (duePropsP t).filter (fun p => p.key = "DURATION".data)
      = match t.due, t.estimated_duration with
        | none, some m => [⟨"DURATION".data, [], fmtIsoDuration m⟩]
        | _, _ => [] := by
  unfold duePropsP
  rcases t.due with _ | d <;> rcases t.estimated_duration with _ | m <;> simp

theorem filter_pri_PRI (t : Task) :
    (priPropsP t).filter (fun p => p.key = "PRIORITY".data) = priPropsP t := by
  unfold priPropsP
  split <;> simp

theorem filter_rr_RR (t : Task) :
    (rrPropsP t).filter (fun p => p.key = "RRULE".data) = rrPropsP t := by
  unfold rrPropsP
  rcases t.rrule with _ | r <;> simp

theorem filter_cat_CAT (t : Task) :
    (catPropsP t).filter (fun p => p.key = "CATEGORIES".data) = catPropsP t := by
  unfold catPropsP
  split <;> simp

theorem filter_due_nil (t : Task) (k : Line) (h1 : k ≠ "DUE".data)
    (h2 : k ≠ "X-ESTIMATED-DURATION".data) (h3 : k ≠ "DURATION".data) :
    (duePropsP t).filter (fun p => p.key = k) = [] := by
  refine filter_key_nil k _ (fun p hp => ?_)
  rcases duePropsP_keys t p hp with h | h | h <;> rw [h]
  · exact fun he => h1 he.symm
  · exact fun he => h2 he.symm
  · exact fun he => h3 he.symm

theorem filter_pri_nil (t : Task) (k : Line) (h : k ≠ "PRIORITY".data) :
    (priPropsP t).filter (fun p => p.key = k) = [] := by
  refine filter_key_nil k _ (fun p hp => ?_)
  rw [priPropsP_keys t p hp]
  exact fun he => h he.symm

theorem filter_rr_nil (t : Task) (k : Line) (h : k ≠ "RRULE".data) :
    (rrPropsP t).filter (fun p => p.key = k) = [] := by
  refine filter_key_nil k _ (fun p hp => ?_)
  rw [rrPropsP_keys t p hp]
  exact fun he => h he.symm

theorem filter_cat_nil (t : Task) (k : Line) (h : k ≠ "CATEGORIES".data) :
    (catPropsP t).filter (fun p => p.key = k) = [] := by
  refine filter_key_nil k _ (fun p hp => ?_)
  rw [catPropsP_keys t p hp]
  exact fun he => h he.symm

theorem propsP_split (t : Task) (now : DT) :
    propsP t now = [⟨"UID".data, [], t.uid.data⟩, ⟨"SUMMARY".data, [], t.summary.data⟩,
      ⟨"DTSTAMP".data, [], fmtDTZ now⟩, ⟨"STATUS".data, [], statusValue t.status⟩]
      ++ (duePropsP t ++ priPropsP t ++ rrPropsP t ++ catPropsP t) := rfl

theorem getSingle_UID (t : Task) (now : DT) :
    getSingle "UID".data (propsP t now) = some ⟨"UID".data, [], t.uid.data⟩ := by
  rw [getSingle_eq _ (by decide), propsP_split]
  simp only [List.filter_append]
  rw [filter_due_nil t _ (by decide) (by decide) (by decide),
      filter_pri_nil t _ (by decide), filter_rr_nil t _ (by decide),
      filter_cat_nil t _ (by decide)]
  simp

theorem getSingle_SUM (t : Task) (now : DT) :
    getSingle "SUMMARY".data (propsP t now)
      = some ⟨"SUMMARY".data, [], t.summary.data⟩ := by
  rw [getSingle_eq _ (by decide), propsP_split]
  simp only [List.filter_append]
  rw [filter_due_nil t _ (by decide) (by decide) (by decide),
      filter_pri_nil t _ (by decide), filter_rr_nil t _ (by decide),
      filter_cat_nil t _ (by decide)]
  simp

theorem getSingle_ST (t : Task) (now : DT) :
    getSingle "STATUS".data (propsP t now)
      = some ⟨"STATUS".data, [], statusValue t.status⟩ := by
  rw [getSingle_eq _ (by decide), propsP_split]
  simp only [List.filter_append]
  rw [filter_due_nil t _ (by decide) (by decide) (by decide),
      filter_pri_nil t _ (by decide), filter_rr_nil t _ (by decide),
      filter_cat_nil t _ (by decide)]
  simp

theorem getSingle_DESC (t : Task) (now : DT) :
    getSingle "DESCRIPTION".data (propsP t now) = none := by
  rw [getSingle_eq _ (by decide), propsP_split]
  simp only [List.filter_append]
  rw [filter_due_nil t _ (by decide) (by decide) (by decide),
      filter_pri_nil t _ (by decide), filter_rr_nil t _ (by decide),
      filter_cat_nil t _ (by decide)]
  simp

theorem getSingle_DTSTART (t : Task) (now : DT) :
    getSingle "DTSTART".data (propsP t now) = none := by
  rw [getSingle_eq _ (by decide), propsP_split]
  simp only [List.filter_append]
  rw [filter_due_nil t _ (by decide) (by decide) (by decide),
      filter_pri_nil t _ (by decide), filter_rr_nil t _ (by decide),
      filter_cat_nil t _ (by decide)]
  simp

theorem getSingle_DUE (t : Task) (now : DT) :
    getSingle "DUE".data (propsP t now)
      = t.due.map (fun d => (⟨"DUE".data, [], fmtDTZ d⟩ : PropLine)) := by
  rw [getSingle_eq _ (by decide), propsP_split]
  simp only [List.filter_append]
  rw [filter_pri_nil t _ (by decide), filter_rr_nil t _ (by decide),
      filter_cat_nil t _ (by decide), filter_due_DUE]
  rcases t.due with _ | d <;> simp

theorem getSingle_XEST (t : Task) (now : DT) :
    getSingle "X-ESTIMATED-DURATION".data (propsP t now)
      = match t.due, t.estimated_duration with
        | some _, some m => some ⟨"X-ESTIMATED-DURATION".data, [], fmtIsoDuration m⟩
        | _, _ => none := by
  rw [getSingle_eq _ (by decide), propsP_split]
  simp only [List.filter_append]
  rw [filter_pri_nil t _ (by decide), filter_rr_nil t _ (by decide),
      filter_cat_nil t _ (by decide), filter_due_XEST]
  rcases t.due with _ | d <;> rcases t.estimated_duration with _ | m <;> simp

theorem getSingle_DUR (t : Task) (now : DT) :
    getSingle "DURATION".data (propsP t now)
      = match t.due, t.estimated_duration with
        | none, some m => some ⟨"DURATION".data, [], fmtIsoDuration m⟩
        | _, _ => none := by
  rw [getSingle_eq _ (by decide), propsP_split]
  simp only [List.filter_append]
  rw [filter_pri_nil t _ (by decide), filter_rr_nil t _ (by decide),
      filter_cat_nil t _ (by decide), filter_due_DUR]
  rcases t.due with _ | d <;> rcases t.estimated_duration with _ | m <;> simp

theorem getSingle_PRI (t : Task) (now : DT) :
    getSingle "PRIORITY".data (propsP t now)
      = if t.priority > 0 then some ⟨"PRIORITY".data, [], natChars t.priority⟩
        else none := by
  rw [getSingle_eq _ (by decide), propsP_split]
  simp only [List.filter_append]
  rw [filter_due_nil t _ (by decide) (by decide) (by decide),
      filter_rr_nil t _ (by decide), filter_cat_nil t _ (by decide), filter_pri_PRI]
  unfold priPropsP
  split <;> simp

theorem getSingle_RR (t : Task) (now : DT) :
    getSingle "RRULE".data (propsP t now)
      = t.rrule.map (fun r => (⟨"RRULE".data, [], r.data⟩ : PropLine)) := by
  rw [getSingle_eq _ (by decide), propsP_split]
  simp only [List.filter_append]
  rw [filter_due_nil t _ (by decide) (by decide) (by decide),
      filter_pri_nil t _ (by decide), filter_cat_nil t _ (by decide), filter_rr_RR]
  unfold rrPropsP
  rcases t.rrule with _ | r <;> simp

theorem getSingle_CAT (props : List PropLine) :
    getSingle "CATEGORIES".data props = none := by
  unfold getSingle
  rw [if_pos (by decide)]

theorem getMulti_CAT (t : Task) (now : DT) :
    getMulti "CATEGORIES".data (propsP t now) = catPropsP t := by
  unfold getMulti
  rw [if_pos (by decide), propsP_split]
  simp only [List.filter_append]
  rw [filter_due_nil t _ (by decide) (by decide) (by decide),
      filter_pri_nil t _ (by decide), filter_rr_nil t _ (by decide), filter_cat_CAT]
  simp

/-! ### The deserialized fields of a serialized task -/

theorem statusOfProps_propsP (t : Task) (now : DT) :
    statusOfProps (propsP t now) = t.status := by
  unfold statusOfProps
  rw [getSingle_ST]
  exact statusOfValue_statusValue t.status

theorem dueOf_propsP (t : Task) (now : DT)
    (hdue : ∀ dt, t.due = some dt → validDate dt.date ∧ dt.date.y ≤ 9999 ∧
      dt.hh ≤ 23 ∧ dt.mi ≤ 59 ∧ dt.ss ≤ 59) :
    dueOfProps (propsP t now) = t.due := by
  unfold dueOfProps
  rw [getSingle_DUE]
  rcases hdu : t.due with _ | d
  · rfl
  · dsimp only [Option.map]
    rw [if_neg (by rw [fmtDTZ_length]; omega)]
    obtain ⟨h1, h2, h3, h4, h5⟩ := hdue d hdu
    exact parseDateProp_fmtDTZ h1 h2 h3 h4 h5

theorem estOf_propsP (t : Task) (now : DT)
    (hest : ∀ m, t.estimated_duration = some m → 0 < m ∧ m < u32Bound) :
    estOfProps (propsP t now) = t.estimated_duration := by
  unfold estOfProps
  rw [getSingle_XEST, getSingle_DUR]
  rcases hdu : t.due with _ | d <;> rcases hes : t.estimated_duration with _ | m
  · rfl
  · obtain ⟨h1, h2⟩ := hest m hes
    dsimp only
    rw [parseDurVal_fmt h1 h2]
  · rfl
  · obtain ⟨h1, h2⟩ := hest m hes
    dsimp only
    rw [parseDurVal_fmt h1 h2]

theorem priOf_propsP (t : Task) (now : DT) (hp : t.priority < 256) :
    (match getSingle "PRIORITY".data (propsP t now) with
     | some p => (rustParseUint 256 p.value).getD 0
     | none => 0) = t.priority := by
  rw [getSingle_PRI]
  by_cases h : t.priority > 0
  · rw [if_pos h]
    dsimp only
    rw [rustParseUint_natChars hp]
    rfl
  · rw [if_neg h]
    dsimp only
    omega

theorem cats_roundtrip (cats : List String) (h : ∀ c ∈ cats, catOK c) :
    (((cats.map String.data).map trimAscii).filter
        (fun seg => ¬ seg.isEmpty)).map (fun seg => String.mk seg) = cats := by
  induction cats with
  | nil => rfl
  | cons c rest ih =>
    obtain ⟨h1, _, _, h4⟩ := h c (List.mem_cons_self _ _)
    simp only [List.map_cons]
    rw [h4]
    rw [List.filter_cons_of_pos (by simp [h1])]
    rw [List.map_cons]
    rw [show String.mk c.data = c from rfl]
    rw [ih (fun x hx => h x (List.mem_cons_of_mem _ hx))]

theorem catsOf_propsP (t : Task) (now : DT) (hcats : ∀ c ∈ t.categories, catOK c) :
    catsOfProps (propsP t now) = dedupAdj (insSort t.categories) := by
  unfold catsOfProps
  dsimp only
  rw [getMulti_CAT, getSingle_CAT]
  unfold catPropsP
  by_cases hc : t.categories.isEmpty
  · rw [if_pos hc]
    have hnil : t.categories = [] := by
      cases hcs : t.categories
      · rfl
      · rw [hcs] at hc; simp at hc
    rw [hnil]
    rfl
  · rw [if_neg hc]
    dsimp only
    simp only [List.map_cons, List.map_nil, List.nil_append, List.append_nil,
      List.flatMap_cons, List.flatMap_nil]
    rw [catLineValue_eq _ (fun c hcmem => (hcats c hcmem).2.2.1)]
    rw [splitCh_joinSep (t.categories.map String.data) ?hne ?hnc]
    case hne =>
      intro habs
      rcases hcs : t.categories with _ | ⟨c, rest⟩
      · rw [hcs] at hc; exact hc rfl
      · rw [hcs] at habs; simp at habs
    case hnc =>
      intro p hp
      obtain ⟨c, hc1, hc2⟩ := List.mem_map.1 hp
      rw [← hc2]
      exact (hcats c hc1).2.2.1
    rw [cats_roundtrip t.categories hcats]

theorem unmappedOf_propsP (t : Task) (now : DT) :
    unmappedOf (propsP t now) = [] := by
  unfold unmappedOf
  have h : (propsP t now).filter (fun p => ¬ HANDLED_KEYS.contains p.key) = [] := by
    rw [List.filter_eq_nil]
    intro p hp
    rw [propsP_split] at hp
    rcases List.mem_append.1 hp with h1 | h2
    · simp only [List.mem_cons] at h1
      rcases h1 with rfl | rfl | rfl | rfl | h3
      · simp [HANDLED_KEYS]
      · simp [HANDLED_KEYS]
      · simp [HANDLED_KEYS]
      · simp [HANDLED_KEYS]
      · simp at h3
    · rcases chunks_keys t p h2 with h | h | h | h | h | h <;> simp [h, HANDLED_KEYS]
  rw [h]
  rfl

theorem relatedScan_toIcs (t : Task) (now : DT) (hraw : t.raw_components = [])
    (hinv : ∀ l ∈ todoProps t now ++ catLines t,
      ∃ k v, l = k.data ++ v ∧ k ∈ innerKeys ∧ lineOK v) :
    relatedScan ((toIcs t now)).data = (none, []) := by
  rw [show (toIcs t now).data = joinLines (toIcsLines t now) from rfl]
  rw [toIcsLines_shape t now hraw (fun hm => (inner_ne_endvtodo (hinv _ hm)) rfl)]
  refine relatedScan_joinLines _ (by simp [hdrLines]) ?_ ?_ ?_
  · intro l hl
    rcases List.mem_append.1 hl with h2 | h3
    · rcases List.mem_append.1 h2 with h4 | h5
      · simp only [hdrLines, List.mem_cons] at h4
        rcases h4 with rfl | rfl | rfl | rfl | rfl | h6
        · decide
        · decide
        · decide
        · decide
        · decide
        · simp at h6
      · exact inner_lineOK (hinv l h5)
    · simp only [tailLines, List.mem_cons] at h3
      rcases h3 with rfl | rfl | rfl | h6
      · decide
      · decide
      · decide
      · simp at h6
  · intro l hl
    rcases List.mem_append.1 hl with h2 | h3
    · rcases List.mem_append.1 h2 with h4 | h5
      · simp only [hdrLines, List.mem_cons] at h4
        rcases h4 with rfl | rfl | rfl | rfl | rfl | h6
        · decide
        · decide
        · decide
        · decide
        · decide
        · simp at h6
      · exact (inner_headOK (hinv l h5)).1
    · simp only [tailLines, List.mem_cons] at h3
      rcases h3 with rfl | rfl | rfl | h6
      · decide
      · decide
      · decide
      · simp at h6
  · intro l hl
    rcases List.mem_append.1 hl with h2 | h3
    · rcases List.mem_append.1 h2 with h4 | h5
      · simp only [hdrLines, List.mem_cons] at h4
        rcases h4 with rfl | rfl | rfl | rfl | rfl | h6
        · decide
        · decide
        · decide
        · decide
        · decide
        · simp at h6
      · exact inner_noRelated (hinv l h5)
    · simp only [tailLines, List.mem_cons] at h3
      rcases h3 with rfl | rfl | rfl | h6
      · decide
      · decide
      · decide
      · simp at h6

/-! ### The round trip assembled -/

theorem fromIcs_toIcs (t : Task) (now : DT) (etag href cal : String)
    (hdesc : t.description = "") (hdtst : t.dtstart = none)
    (hpar : t.parent_uid = none) (hdeps : t.dependencies = [])
    (hunm : t.unmapped_properties = []) (hraw : t.raw_components = [])
    (huid : lineOK t.uid.data) (hsum : lineOK t.summary.data)
    (hpri : t.priority < 256)
    (hdue : ∀ dt, t.due = some dt → validDate dt.date ∧ dt.date.y ≤ 9999 ∧
      dt.hh ≤ 23 ∧ dt.mi ≤ 59 ∧ dt.ss ≤ 59)
    (hest : ∀ m, t.estimated_duration = some m → 0 < m ∧ m < u32Bound)
    (hrr : ∀ r, t.rrule = some r → lineOK r.data)
    (hcats : ∀ c ∈ t.categories, catOK c) :
    fromIcs (toIcs t now) etag href cal
      = Except.ok { t with
          etag := etag
          href := href
          calendar_href := cal
          depth := 0
          categories := dedupAdj (insSort t.categories) } := by
  have hinv := inner_inventory t now hdesc hdtst hpar hdeps hunm huid hsum hrr hcats
  have hnr : (((todoProps t now ++ catLines t).filterMap parsePropLine).any
      (fun p => p.key = "RECURRENCE-ID".data)) = false := by
    rw [filterMap_inner t now hdesc hdtst hpar hdeps hunm]
    exact propsP_no_recur t now
  unfold fromIcs
  dsimp only
  rw [scan_toIcs t now hraw hinv]
  rw [splitComps_VTODO _ (fun l hl => inner_notBE (hinv l hl)) hnr]
  dsimp only
  rw [filterMap_inner t now hdesc hdtst hpar hdeps hunm]
  rw [relatedScan_toIcs t now hraw hinv]
  dsimp only
  rw [getSingle_UID t now, getSingle_SUM t now, getSingle_DESC t now,
      getSingle_DTSTART t now]
  rw [statusOfProps_propsP t now, dueOf_propsP t now hdue, estOf_propsP t now hest,
      catsOf_propsP t now hcats, unmappedOf_propsP t now]
  dsimp only
  rw [getSingle_RR t now, getSingle_PRI t now]
  by_cases hp0 : t.priority > 0
  · rw [if_pos hp0]
    dsimp only
    rw [rustParseUint_natChars hpri]
    rcases hrr2 : t.rrule with _ | r
    · dsimp only [Option.map, Option.getD]
      rw [hdesc, hdtst, hpar, hdeps, hunm, hraw]
    · dsimp only [Option.map, Option.getD]
      rw [strMk_data]
      rw [hdesc, hdtst, hpar, hdeps, hunm, hraw]
  · rw [if_neg hp0]
    dsimp only
    have h0 : t.priority = 0 := by omega
    rcases hrr2 : t.rrule with _ | r
    · dsimp only [Option.map]
      rw [h0, hdesc, hdtst, hpar, hdeps, hunm, hraw]
    · dsimp only [Option.map]
      rw [strMk_data]
      rw [h0, hdesc, hdtst, hpar, hdeps, hunm, hraw]

/-! ### Permutation facts for the category reordering -/

theorem insLe_perm (x : String) (l : List String) : (insLe x l).Perm (x :: l) := by
  induction l with
  | nil => exact List.Perm.refl _
  | cons y rest ih =>
    rw [insLe]
    split
    · exact List.Perm.refl _
    · exact (ih.cons y).trans (List.Perm.swap x y rest)

theorem insSort_perm (l : List String) : (insSort l).Perm l := by
  induction l with
  | nil => exact List.Perm.refl _
  | cons x rest ih => exact (insLe_perm x (insSort rest)).trans (ih.cons x)

theorem dedupAdj_eq_of_nodup (l : List String) (h : l.Nodup) : dedupAdj l = l := by
  induction l using dedupAdj.induct with
  | case1 => rfl
  | case2 x => rfl
  | case3 y rest ih =>
    exact absurd (List.mem_cons_self y rest) (List.nodup_cons.mp h).1
  | case4 x y rest hne ih =>
    rw [dedupAdj, if_neg hne, ih (List.nodup_cons.mp h).2]

/-! ### Claim C1: the codec round trip on parser-produced tasks -/

/-- C1 (counterexample): the round trip is not the identity on every
parser-produced task even modulo `DTSTAMP` and category order. The input
`"x ~0m"` yields `estimated_duration = some 0`; `to_ics` serializes it as a
zero duration, and `from_ics` maps a parsed duration of zero minutes back to
`none`, so the field does not survive the trip. -/
theorem c1_roundtrip_est_zero :
    (Task.new "u" "x ~0m" (fun _ => none) ⟨2024, 1, 1⟩).estimated_duration
      = some 0 ∧
    (fromIcs (toIcs (Task.new "u" "x ~0m" (fun _ => none) ⟨2024, 1, 1⟩)
        ⟨⟨2024, 1, 1⟩, 0, 0, 0⟩) "e" "h" "c").map Task.estimated_duration
      = Except.ok none := ⟨rfl, rfl⟩

/-- C1 (amended): for a task built by `Task::new` from a smart-input line —
under the side conditions the codec needs (a break-free uid, a due year
within the four-digit `DTSTAMP` format, a nonzero estimated duration, and
categories that are nonempty, comma-free, break-free and trim-stable) —
`from_ics (to_ics t)` returns `Ok` of `t` with `etag`, `href` and
`calendar_href` set to the given values and `depth = 0`, except that the
categories come back sorted and deduplicated; since the parser never stores
a duplicate category, the returned list is a permutation of the original. -/
theorem c1_roundtrip_amended (uid input : String) (al : AliasMap) (today : RDate)
    (now : DT) (etag href cal : String)
    (h_today : validDate today)
    (huid : lineOK uid.data)
    (h_y : ∀ dt, (Task.new uid input al today).due = some dt → dt.date.y ≤ 9999)
    (h_est0 : (Task.new uid input al today).estimated_duration ≠ some 0)
    (hcats : ∀ c ∈ (Task.new uid input al today).categories, catOK c) :
    fromIcs (toIcs (Task.new uid input al today) now) etag href cal
      = Except.ok { Task.new uid input al today with
          etag := etag
          href := href
          calendar_href := cal
          depth := 0
          categories := dedupAdj (insSort (Task.new uid input al today).categories) } ∧
    (dedupAdj (insSort (Task.new uid input al today).categories)).Perm
      (Task.new uid input al today).categories := by
  obtain ⟨htok, hsum⟩ := taskNew_good uid input al today h_today
  obtain ⟨hp9, hestB, hdueB, hrrB⟩ := htok
  obtain ⟨x1, x2, x3, x4, x5, x6, x7, x8, x9, x10, x11, x12⟩ :=
    taskNew_frame uid input al today
  have huid2 : lineOK (Task.new uid input al today).uid.data := by
    rw [show (Task.new uid input al today).uid = uid from x1]
    exact huid
  refine ⟨?_, ?_⟩
  · refine fromIcs_toIcs _ now etag href cal x2 x4 x5 x6 x11 x12 huid2 hsum
      (lt_of_le_of_lt hp9 (by norm_num)) ?_ ?_ hrrB hcats
    · intro dt hdt
      obtain ⟨hv, h23, h59a, h59b⟩ := hdueB dt hdt
      exact ⟨hv, h_y dt hdt, by omega, by omega, by omega⟩
    · intro m hm
      refine ⟨Nat.pos_of_ne_zero (fun h0 => h_est0 ?_), hestB m hm⟩
      rw [h0] at hm
      exact hm
  · have hnd : (Task.new uid input al today).categories.Nodup := by
      unfold Task.new applySmartInput
      exact goTokens_nodup al today _ _ _ _ List.nodup_nil
    have hnd2 : (insSort (Task.new uid input al today).categories).Nodup :=
      ((insSort_perm _).nodup_iff).mpr hnd
    rw [dedupAdj_eq_of_nodup _ hnd2]
    exact insSort_perm _

theorem c1_roundtrip_amended_witness :
    fromIcs (toIcs (Task.new "u" "x" (fun _ => none) ⟨2024, 1, 1⟩)
        ⟨⟨2024, 1, 1⟩, 0, 0, 0⟩) "e" "h" "c"
      = Except.ok { Task.new "u" "x" (fun _ => none) ⟨2024, 1, 1⟩ with
          etag := "e"
          href := "h"
          calendar_href := "c"
          depth := 0
          categories := dedupAdj (insSort
            (Task.new "u" "x" (fun _ => none) ⟨2024, 1, 1⟩).categories) } ∧
    (dedupAdj (insSort
        (Task.new "u" "x" (fun _ => none) ⟨2024, 1, 1⟩).categories)).Perm
      (Task.new "u" "x" (fun _ => none) ⟨2024, 1, 1⟩).categories :=
  c1_roundtrip_amended "u" "x" (fun _ => none) ⟨2024, 1, 1⟩ ⟨⟨2024, 1, 1⟩, 0, 0, 0⟩
    "e" "h" "c" (by decide) (by decide) (fun dt h => Option.noConfusion h)
    (fun h => Option.noConfusion h) (fun c hc => absurd hc (List.not_mem_nil c))

end Rustycal

